import Mathlib

/-!
Shallow embedding of the production-schedule-reflow engine
(src/reflow/dependency-graph.ts, src/reflow/constraint-checker.ts,
src/reflow/reflow.service.ts) and proofs about it.

Modelling conventions:
* Every timestamp is a whole number of minutes since a fixed reference epoch
  whose day 0 is a Sunday, 00:00 UTC.  All DateTime values manipulated by the
  source are produced from ISO timestamps or from whole-minute arithmetic
  (`plus({minutes})`, `plus({days})`, `DateTime.utc(y,m,d,hour,0)`), so a
  minute-granular clock is faithful; `Math.floor((a-b)/60000)` becomes exact
  subtraction of minutes.  Luxon's `weekday % 7` (Sunday = 0) becomes
  `(t / 1440) % 7`.
* Luxon `Interval` is half open: `contains(t)` is `start <= t && t < end`.
* `Interval.fromISO` yields an invalid interval (hence `null` from
  `safeIntervalFromISO`) when an endpoint is missing or unparseable, or when
  the end precedes the start; a `MaintenanceWindow` therefore carries
  `Option` endpoints, `none` standing for a missing / unparseable ISO string.
* JavaScript's `Array.prototype.sort` is stable; it is modelled by the stable
  insertion sort `stableSortBy`.
* The `while` loops of the source carry explicit iteration bounds
  (365 days in `addWorkingMinutesConsideringShifts`, 10000 in
  `findEarliestFeasibleSlot`), modelled as structural fuel.  The Kahn loop of
  `getTopologicalOrder` has no source-level bound; it dequeues each node at
  most once, so fuel `workOrders.length` never runs out (each iteration
  appends one element to the duplicate-free output list).
* Exceptions become `Except` / `Option` results.
-/

namespace Reflow

/-- Minutes in a day. -/
def minutesPerDay : Nat := 1440

/-- Day index of a timestamp. -/
def dayOf (t : Nat) : Nat := t / minutesPerDay

/-- Luxon's `dateUTC.weekday % 7` with Sunday = 0, for our epoch. -/
def dayOfWeekOf (day : Nat) : Nat := day % 7

/-- Half-open interval of minutes, Luxon `Interval`. -/
structure Iv where
  start : Nat
  «end» : Nat
deriving Repr, DecidableEq

/-- Luxon `Interval.contains`: `start <= t && t < end`. -/
def ivContains (iv : Iv) (t : Nat) : Bool :=
  decide (iv.start ≤ t) && decide (t < iv.«end»)

/-- Recurring weekly shift rule (src/reflow/types: `WorkCenterShift`). -/
structure WorkCenterShift where
  dayOfWeek : Nat
  startHour : Nat
  endHour : Nat
deriving Repr, DecidableEq

/-- Absolute maintenance window; `none` endpoints model a missing or
unparseable ISO string (src/reflow/types: `MaintenanceWindow`). -/
structure MaintenanceWindow where
  startDate : Option Nat
  endDate : Option Nat
deriving Repr, DecidableEq

/-- Work-center document (docId plus the `data` fields the engine reads). -/
structure WorkCenterDoc where
  docId : String
  shifts : List WorkCenterShift
  maintenanceWindows : List MaintenanceWindow
deriving Repr, DecidableEq

/-- Work-order document (docId plus the `data` fields the engine reads). -/
structure WorkOrderDoc where
  docId : String
  workOrderNumber : String
  workCenterId : String
  startDate : Nat
  endDate : Nat
  durationMinutes : Nat
  isMaintenance : Bool
  dependsOnWorkOrderIds : List String
deriving Repr, DecidableEq

/-- Booked slot in the constraint checker's ledger. -/
structure ScheduledSlot where
  workOrderDocId : String
  workCenterDocId : String
  start : Nat
  «end» : Nat
deriving Repr, DecidableEq

/-- Result record emitted by the reflow engine. -/
structure ReflowResult where
  workOrderDocId : String
  workOrderNumber : String
  workCenterDocId : String
  startDate : Nat
  endDate : Nat
  wasDelayed : Bool
  delayMinutes : Option Nat
  delayReason : Option String
deriving Repr, DecidableEq

/-! ## Stable sort (JavaScript `Array.prototype.sort` is stable) -/

/-- Insert `x` after every element `y` with `le y x`; keeps runs of equal
keys in arrival order, like a stable sort. -/
def stableInsert (le : α → α → Bool) (x : α) : List α → List α
  | [] => [x]
  | y :: ys => if le y x then y :: stableInsert le x ys else x :: y :: ys

/-- Stable insertion sort: fold the input left to right, inserting each
element after its equals. -/
def stableSortBy (le : α → α → Bool) (l : List α) : List α :=
  l.foldl (fun acc x => stableInsert le x acc) []

/-- Comparator used by the source for both ledgers and shift-interval lists:
ascending start time. -/
def slotLe (a b : ScheduledSlot) : Bool := decide (a.start ≤ b.start)

/-- Comparator for shift intervals: ascending start time. -/
def ivLe (a b : Iv) : Bool := decide (a.start ≤ b.start)

/-! ## Constraint checker: maintenance helpers -/

/-- `safeIntervalFromISO`: null when an endpoint is missing/unparseable or
the interval is inverted (Luxon's `Interval.fromISO` is invalid then). -/
def safeIntervalFromISO (startIso endIso : Option Nat) : Option Iv :=
  match startIso, endIso with
  | some a, some b => if a ≤ b then some ⟨a, b⟩ else none
  | _, _ => none

/-- Parse one maintenance window into an interval, as the source does at
every use site. -/
def parseMW (mw : MaintenanceWindow) : Option Iv :=
  safeIntervalFromISO mw.startDate mw.endDate

/-- `isInsideMaintenance`: some window of `wc` parses and contains `t`. -/
def isInsideMaintenance (wc : WorkCenterDoc) (t : Nat) : Bool :=
  wc.maintenanceWindows.any (fun mw =>
    match parseMW mw with
    | none => false
    | some iv => ivContains iv t)

/-- Loop body of `skipMaintenanceStartingBeforeOrAt`: return the end of the
first window (in list order) that parses and contains the cursor. -/
def skipMaintenanceList (mws : List MaintenanceWindow) (cursor : Nat) : Nat :=
  match mws with
  | [] => cursor
  | mw :: rest =>
    match parseMW mw with
    | none => skipMaintenanceList rest cursor
    | some iv =>
      if ivContains iv cursor || (decide (iv.start ≤ cursor) && decide (iv.«end» > cursor)) then
        iv.«end»
      else skipMaintenanceList rest cursor

/-- `skipMaintenanceStartingBeforeOrAt` on a work center. -/
def skipMaintenanceStartingBeforeOrAt (wc : WorkCenterDoc) (cursor : Nat) : Nat :=
  skipMaintenanceList wc.maintenanceWindows cursor

/-! ## Constraint checker: shift helpers -/

/-- One shift rule on one concrete date: `none` if the weekday does not
match, an hour is out of `DateTime.utc` range, or the interval would be
empty or inverted (all skipped by `buildShiftIntervalsForDate`). -/
def shiftIntervalOnDate (day : Nat) (s : WorkCenterShift) : Option Iv :=
  if s.dayOfWeek ≠ dayOfWeekOf day then none
  else if 24 ≤ s.startHour || 24 ≤ s.endHour then none
  else if day * minutesPerDay + s.endHour * 60 ≤ day * minutesPerDay + s.startHour * 60 then none
  else some ⟨day * minutesPerDay + s.startHour * 60, day * minutesPerDay + s.endHour * 60⟩

/-- `buildShiftIntervalsForDate`: concrete intervals for one date, sorted by
start time. -/
def buildShiftIntervalsForDate (shifts : List WorkCenterShift) (day : Nat) : List Iv :=
  stableSortBy ivLe (shifts.filterMap (shiftIntervalOnDate day))

/-- Scan of one day's intervals inside `moveToNextShiftIfNeeded`: the cursor
itself if some interval contains it, else the first interval start at or
after the cursor. -/
def findShiftFrom (intervals : List Iv) (cursor : Nat) : Option Nat :=
  match intervals with
  | [] => none
  | iv :: rest =>
    if ivContains iv cursor then some cursor
    else if decide (cursor ≤ iv.start) then some iv.start
    else findShiftFrom rest cursor

/-- Day-by-day lookahead of `moveToNextShiftIfNeeded` over offsets `ds`. -/
def moveScanDays (wc : WorkCenterDoc) (cursor : Nat) : List Nat → Option Nat
  | [] => none
  | d :: rest =>
    match findShiftFrom (buildShiftIntervalsForDate wc.shifts (dayOf cursor + d)) cursor with
    | some t => some t
    | none => moveScanDays wc cursor rest

/-- `moveToNextShiftIfNeeded`: scan up to 14 days ahead; cursor unchanged if
no shift is found. -/
def moveToNextShiftIfNeeded (wc : WorkCenterDoc) (cursor : Nat) : Nat :=
  (moveScanDays wc cursor (List.range 14)).getD cursor

/-! ## Constraint checker: working-minute consumption -/

/-- Shift selection inside `addWorkingMinutesConsideringShifts`: first
interval that contains the cursor or starts strictly after it. -/
def currentShiftFor (intervals : List Iv) (cursor : Nat) : Option Iv :=
  intervals.find? (fun si => ivContains si cursor || decide (cursor < si.start))

/-- Fold computing `availableUntil`: minimum of the shift end and every
parsed maintenance start strictly after the cursor. -/
def availableUntilFold (mws : List MaintenanceWindow) (cursor : Nat) (init : Nat) : Nat :=
  mws.foldl (fun au mw =>
    match parseMW mw with
    | none => au
    | some iv => if decide (cursor < iv.start) && decide (iv.start < au) then iv.start else au) init

/-- Loop of `addWorkingMinutesConsideringShifts`; `fuel` is the remaining
value of `maxDays - daysScanned` (365 at entry), `none` models the throw
when the minutes cannot be consumed within that bound. -/
def addWorkLoop (wc : WorkCenterDoc) : Nat → Nat → Nat → Option Nat
  | _, 0, cursor => some cursor
  | 0, _ + 1, _ => none
  | fuel + 1, r + 1, cursor =>
    let remaining := r + 1
    match currentShiftFor (buildShiftIntervalsForDate wc.shifts (dayOf cursor)) cursor with
    | none => addWorkLoop wc fuel remaining ((dayOf cursor + 1) * minutesPerDay)
    | some si =>
      let cursor1 := if cursor < si.start then si.start else cursor
      if isInsideMaintenance wc cursor1 then
        addWorkLoop wc fuel remaining (skipMaintenanceStartingBeforeOrAt wc cursor1)
      else
        let au := availableUntilFold wc.maintenanceWindows cursor1 si.«end»
        let availableMinutes := au - cursor1
        if availableMinutes = 0 then
          addWorkLoop wc fuel remaining si.«end»
        else
          let consume := min availableMinutes remaining
          let cursor2 := cursor1 + consume
          let cursor3 :=
            if isInsideMaintenance wc cursor2 then skipMaintenanceStartingBeforeOrAt wc cursor2
            else cursor2
          addWorkLoop wc fuel (remaining - consume) cursor3

/-- `addWorkingMinutesConsideringShifts` (throw becomes `none`). -/
def addWorkingMinutesConsideringShifts (start : Nat) (durationMinutes : Nat)
    (wc : WorkCenterDoc) : Option Nat :=
  addWorkLoop wc 365 durationMinutes start

/-! ## Constraint checker: overlap detection and search loop -/

/-- `findOverlappingSlot`: first ledger slot on the work center whose
half-open interval intersects `[start, end)`. -/
def findOverlappingSlot (schedule : List ScheduledSlot) (workCenterDocId : String)
    (start «end» : Nat) : Option ScheduledSlot :=
  schedule.find? (fun s =>
    s.workCenterDocId == workCenterDocId && decide (s.start < «end») && decide (start < s.«end»))

/-- Scheduler errors thrown by `findEarliestFeasibleSlot`. -/
inductive SchedError where
  | workCenterNotFound (workCenterDocId : String)
  | invalidDuration
  | infiniteLoopProtection
  | unschedulableDuration (durationMinutes : Nat) (workCenterDocId : String)
  | noFeasibleSlot (maxSearchDays : Nat) (workCenterDocId : String)
deriving Repr, DecidableEq

/-- Render a scheduler error the way the source's `Error.message` reads. -/
def SchedError.message : SchedError → String
  | .workCenterNotFound id => "WorkCenter not found: " ++ id
  | .invalidDuration => "Invalid durationMinutes (must be positive number)"
  | .infiniteLoopProtection => "Infinite loop protection triggered in scheduler"
  | .unschedulableDuration d id =>
      "Could not schedule " ++ toString d ++ " minutes within 365 days for work center " ++ id
  | .noFeasibleSlot days id =>
      "No feasible slot found within " ++ toString days ++ " days for workCenter " ++ id

/-- Search loop of `findEarliestFeasibleSlot`.  Besides the accepted pair it
returns, as ghost instrumentation, the list of ledger slots that collided
with a candidate along the way (`acc` accumulates them in reverse). -/
def feasLoop (wc : WorkCenterDoc) (schedule : List ScheduledSlot) (durationMinutes : Nat)
    (deadline : Nat) :
    Nat → Nat → List ScheduledSlot →
      Except SchedError ((Nat × Nat) × List ScheduledSlot)
  | fuel, cursor, acc =>
    if cursor ≤ deadline then
      match fuel with
      | 0 => .error .infiniteLoopProtection
      | f + 1 =>
        let c1 := moveToNextShiftIfNeeded wc cursor
        let c2 := skipMaintenanceStartingBeforeOrAt wc c1
        match addWorkingMinutesConsideringShifts c2 durationMinutes wc with
        | none => .error (.unschedulableDuration durationMinutes wc.docId)
        | some candidateEnd =>
          match findOverlappingSlot schedule wc.docId c2 candidateEnd with
          | none => .ok ((c2, candidateEnd), acc.reverse)
          | some s => feasLoop wc schedule durationMinutes deadline f (s.«end» + 1) (s :: acc)
    else .error (.noFeasibleSlot 30 wc.docId)

/-- `new Map(entries).get`: later entries overwrite earlier ones. -/
def wcById (workCenters : List WorkCenterDoc) (id : String) : Option WorkCenterDoc :=
  workCenters.reverse.find? (fun wc => wc.docId == id)

/-- `findEarliestFeasibleSlot` with its ghost collision trace; the service
always calls it with the default `maxSearchDays = 30`.  A `Nat` duration of 0
is the only representable violation of `durationMinutes > 0`, and every
`Minutes` value is a valid DateTime. -/
def findEarliestFeasibleSlot (workCenters : List WorkCenterDoc)
    (schedule : List ScheduledSlot) (workCenterDocId : String)
    (earliestPossibleStart : Nat) (durationMinutes : Nat) (maxSearchDays : Nat) :
    Except SchedError ((Nat × Nat) × List ScheduledSlot) :=
  match wcById workCenters workCenterDocId with
  | none => .error (.workCenterNotFound workCenterDocId)
  | some wc =>
    if durationMinutes = 0 then .error .invalidDuration
    else
      feasLoop wc schedule durationMinutes
        (earliestPossibleStart + maxSearchDays * minutesPerDay) 10000 earliestPossibleStart []

/-- `pushScheduledSlot`: append, then re-sort the ledger by start time
(stable, like the JS sort). -/
def pushScheduledSlot (schedule : List ScheduledSlot) (slot : ScheduledSlot) :
    List ScheduledSlot :=
  stableSortBy slotLe (schedule ++ [slot])

/-! ## Dependency graph

JavaScript `Map`s are modelled by association lists: `set` updates an
existing key in place (keeping its insertion position) or appends a new one;
iteration (`entries`) runs in key-insertion order. -/

/-- `Map.get`. -/
def alGet (m : List (String × α)) (k : String) : Option α :=
  (m.find? (fun p => p.1 == k)).map (·.2)

/-- `Map.set`. -/
def alSet (m : List (String × α)) (k : String) (v : α) : List (String × α) :=
  match m with
  | [] => [(k, v)]
  | p :: rest => if p.1 == k then (k, v) :: rest else p :: alSet rest k v

/-- Structural errors thrown by the dependency stage. -/
inductive GraphError where
  | dependencyNotFound (depId : String) (requiredBy : String)
  | cycleDetected
deriving Repr, DecidableEq

/-- Initialization loop of `buildGraph`: every work order id gets an empty
child list and in-degree 0.  In-degrees are `Int` like JS numbers. -/
def initGraphMaps (workOrders : List WorkOrderDoc) :
    List (String × List String) × List (String × Int) :=
  workOrders.foldl
    (fun (m : List (String × List String) × List (String × Int)) wo =>
      (alSet m.1 wo.docId [], alSet m.2 wo.docId 0))
    ([], [])

/-- Edge loop of `buildGraph` for one work order: for each dependency id,
fail if it is not a known node, else append this order to the dependency's
child list and bump this order's in-degree. -/
def addEdgesForOrder (adj : List (String × List String)) (deg : List (String × Int))
    (woId : String) : List String →
      Except GraphError (List (String × List String) × List (String × Int))
  | [] => .ok (adj, deg)
  | depId :: rest =>
    match alGet adj depId with
    | none => .error (.dependencyNotFound depId woId)
    | some children =>
      addEdgesForOrder (alSet adj depId (children ++ [woId]))
        (alSet deg woId ((alGet deg woId).getD 0 + 1)) woId rest

/-- Edge loop of `buildGraph` over all work orders. -/
def addEdges (workOrders : List WorkOrderDoc)
    (adj : List (String × List String)) (deg : List (String × Int)) :
    Except GraphError (List (String × List String) × List (String × Int)) :=
  match workOrders with
  | [] => .ok (adj, deg)
  | wo :: rest =>
    match addEdgesForOrder adj deg wo.docId wo.dependsOnWorkOrderIds with
    | .error e => .error e
    | .ok (adj', deg') => addEdges rest adj' deg'

/-- `buildGraph`: adjacency list and in-degree map, or `UnknownDependency`. -/
def buildGraph (workOrders : List WorkOrderDoc) :
    Except GraphError (List (String × List String) × List (String × Int)) :=
  let (adj, deg) := initGraphMaps workOrders
  addEdges workOrders adj deg

/-- Seed of Kahn's algorithm: ids of in-degree 0, in map iteration order. -/
def kahnSeed (deg : List (String × Int)) : List String :=
  (deg.filter (fun p => p.2 == 0)).map (·.1)

/-- Neighbor pass for one dequeued node: decrement each child's in-degree,
collecting children that reach exactly 0. -/
def processNeighbors (deg : List (String × Int)) (children : List String) :
    List (String × Int) × List String :=
  children.foldl
    (fun (st : List (String × Int) × List String) c =>
      let deg' := alSet st.1 c ((alGet st.1 c).getD 0 - 1)
      if alGet deg' c == some 0 then (deg', st.2 ++ [c]) else (deg', st.2))
    (deg, [])

/-- Kahn loop (`while (queue.length > 0)`).  The source loop has no bound;
each iteration dequeues a node that is never dequeued again, so fuel
`workOrders.length` is never exhausted before the queue empties. -/
def kahnLoop (adj : List (String × List String)) :
    Nat → List String → List (String × Int) → List String → List String
  | 0, _, _, sorted => sorted
  | _ + 1, [], _, sorted => sorted
  | fuel + 1, current :: queue, deg, sorted =>
    let children := (alGet adj current).getD []
    let st := processNeighbors deg children
    kahnLoop adj fuel (queue ++ st.2) st.1 (sorted ++ [current])

/-- `getTopologicalOrder` (including `buildGraph`, which the source runs in
the constructor): Kahn's algorithm plus the cardinality cycle check. -/
def getTopologicalOrder (workOrders : List WorkOrderDoc) :
    Except GraphError (List String) :=
  match buildGraph workOrders with
  | .error e => .error e
  | .ok (adj, deg) =>
    let sorted := kahnLoop adj workOrders.length (kahnSeed deg) deg []
    if sorted.length ≠ workOrders.length then .error .cycleDetected
    else .ok sorted

/-! ## Reflow service -/

/-- `woById.get`: later entries overwrite earlier ones. -/
def woById (workOrders : List WorkOrderDoc) (id : String) : Option WorkOrderDoc :=
  workOrders.reverse.find? (fun wo => wo.docId == id)

/-- State threaded through the scheduling loop: emitted results plus the
constraint checker's ledger. -/
structure RunState where
  results : List ReflowResult
  schedule : List ScheduledSlot
deriving Repr, DecidableEq

/-- Dependency fold of `computeReflow`: earliest start is the planned start,
raised to every dependency's result end time when that result exists. -/
def earliestStartFor (results : List ReflowResult) (wo : WorkOrderDoc) : Nat :=
  wo.dependsOnWorkOrderIds.foldl
    (fun es depId =>
      match results.find? (fun r => r.workOrderDocId == depId) with
      | none => es
      | some depResult => if es < depResult.endDate then depResult.endDate else es)
    wo.startDate

/-- Loop body of `computeReflow` for one resolved work order: skip-and-report
maintenance orders, otherwise search for a slot, book it and derive the
delay fields, downgrading any checker error to a degraded result. -/
def scheduleOne (workCenters : List WorkCenterDoc) (st : RunState) (wo : WorkOrderDoc) :
    RunState :=
  if wo.isMaintenance then
    { results := st.results ++ [{ workOrderDocId := wo.docId
                                  workOrderNumber := wo.workOrderNumber
                                  workCenterDocId := wo.workCenterId
                                  startDate := wo.startDate
                                  endDate := wo.endDate
                                  wasDelayed := false
                                  delayMinutes := none
                                  delayReason := none }]
      schedule := st.schedule }
  else
    let earliestStart := earliestStartFor st.results wo
    match findEarliestFeasibleSlot workCenters st.schedule wo.workCenterId earliestStart
        wo.durationMinutes 30 with
    | .ok ((s, e), _) =>
      let wasDelayed := decide (wo.startDate < s)
      { results := st.results ++ [{ workOrderDocId := wo.docId
                                    workOrderNumber := wo.workOrderNumber
                                    workCenterDocId := wo.workCenterId
                                    startDate := s
                                    endDate := e
                                    wasDelayed := wasDelayed
                                    delayMinutes :=
                                      if wasDelayed then some (s - wo.startDate) else none
                                    delayReason :=
                                      if wasDelayed then some "Resource/shift constraints"
                                      else none }]
        schedule := pushScheduledSlot st.schedule
          { workOrderDocId := wo.docId
            workCenterDocId := wo.workCenterId
            start := s
            «end» := e } }
    | .error err =>
      { results := st.results ++ [{ workOrderDocId := wo.docId
                                    workOrderNumber := wo.workOrderNumber
                                    workCenterDocId := wo.workCenterId
                                    startDate := wo.startDate
                                    endDate := wo.endDate
                                    wasDelayed := true
                                    delayMinutes := none
                                    delayReason :=
                                      some ("Scheduling failed: " ++ err.message) }]
        schedule := st.schedule }

/-- Scheduling fold of `computeReflow` over the dependency order; an id
missing from `woById` is skipped with a warning (unreachable in practice). -/
def runOrder (workOrders : List WorkOrderDoc) (workCenters : List WorkCenterDoc)
    (st : RunState) (order : List String) : RunState :=
  order.foldl
    (fun st woId =>
      match woById workOrders woId with
      | none => st
      | some wo => scheduleOne workCenters st wo)
    st

/-- Whole run: dependency stage, then the scheduling fold, starting from the
(sorted) existing schedule of the `ConstraintChecker` constructor.  Returns
the final state; `computeReflow` projects out the results. -/
def reflowRun (workOrders : List WorkOrderDoc) (workCenters : List WorkCenterDoc)
    (existingSchedule : List ScheduledSlot) : Except GraphError RunState :=
  match getTopologicalOrder workOrders with
  | .error e => .error e
  | .ok order =>
    .ok (runOrder workOrders workCenters
      { results := [], schedule := stableSortBy slotLe existingSchedule } order)

/-- `computeReflow`: the emitted result sequence. -/
def computeReflow (workOrders : List WorkOrderDoc) (workCenters : List WorkCenterDoc)
    (existingSchedule : List ScheduledSlot) : Except GraphError (List ReflowResult) :=
  (reflowRun workOrders workCenters existingSchedule).map (·.results)

/-! ## Specification-side notions used by the theorems -/

/-- A minute is a working minute of `wc` when it lies inside some shift
interval of its own day and inside no maintenance window. -/
def workMinute (wc : WorkCenterDoc) (t : Nat) : Bool :=
  ((buildShiftIntervalsForDate wc.shifts (dayOf t)).any fun iv => ivContains iv t)
    && !(isInsideMaintenance wc t)

/-- Number of working minutes in the half-open span `[a, b)`. -/
def countWork (wc : WorkCenterDoc) (a b : Nat) : Nat :=
  (List.range (b - a)).countP (fun i => workMinute wc (a + i))

/-- Half-open interval overlap between two booked slots on one work center,
exactly the test of `findOverlappingSlot`. -/
def slotsOverlap (a b : ScheduledSlot) : Prop :=
  a.workCenterDocId = b.workCenterDocId ∧ a.start < b.«end» ∧ b.start < a.«end»

/-- A ledger is consistent when no two of its slots overlap. -/
def PairwiseNonOverlap (l : List ScheduledSlot) : Prop :=
  l.Pairwise (fun a b => ¬ slotsOverlap a b)

/-- Dependency edge: `p` is a declared dependency (parent) of the work order
with id `c`. -/
def depEdge (workOrders : List WorkOrderDoc) (p c : String) : Prop :=
  ∃ wo ∈ workOrders, wo.docId = c ∧ p ∈ wo.dependsOnWorkOrderIds

/-- The fold computing `earliestStart` inside `computeReflow`, parameterized
over the remaining dependency ids and the accumulator for induction. -/
def depFold (results : List ReflowResult) (l : List String) (a : Nat) : Nat :=
  l.foldl
    (fun es depId =>
      match results.find? (fun r => r.workOrderDocId == depId) with
      | none => es
      | some depResult => if es < depResult.endDate then depResult.endDate else es)
    a

/-- A result the engine emitted through the degraded error path: these are
exactly the results with `wasDelayed` set but no `delayMinutes` (the success
path always fills `delayMinutes` when delayed, the maintenance path never
sets `wasDelayed`). -/
def isFailedResult (r : ReflowResult) : Bool :=
  r.wasDelayed && r.delayMinutes == none

/-- The dependency fold as the spec's words describe it, written only to be
compared against the source's `earliestStartFor`: a dependency result that
was processed but failed is "treated as contributing no constraint". -/
def earliestStartForSpec (results : List ReflowResult) (wo : WorkOrderDoc) : Nat :=
  wo.dependsOnWorkOrderIds.foldl
    (fun es depId =>
      match results.find? (fun r => r.workOrderDocId == depId) with
      | none => es
      | some depResult =>
        if  isFailedResult depResult then es
        else if es < depResult.endDate then depResult.endDate else es)
    wo.startDate

/-! ### Concrete documents used by witnesses and counterexamples -/

/-- Work center with a single Monday 08:00-17:00 shift and no maintenance. -/
def wcW : WorkCenterDoc := ⟨"wcW", [⟨1, 8, 17⟩], []⟩

/-- Work center with a single Tuesday 08:00-17:00 shift and two overlapping
maintenance windows late on that Tuesday. -/
def wcC1 : WorkCenterDoc :=
  ⟨"wcC1", [⟨2, 8, 17⟩], [⟨some 3840, some 3960⟩, ⟨some 3930, some 4020⟩]⟩

/-- Work center with a single Tuesday 08:00-17:00 shift and no maintenance. -/
def wcW4 : WorkCenterDoc := ⟨"wcW4", [⟨2, 8, 17⟩], []⟩

/-- Order planned exactly at the Monday shift opening of `wcW`. -/
def woA : WorkOrderDoc := ⟨"A", "WO-A", "wcW", 1920, 1980, 60, false, []⟩

/-- Order planned before the Monday shift opening of `wcW`. -/
def woB : WorkOrderDoc := ⟨"B", "WO-B", "wcW", 1800, 1860, 60, false, []⟩

/-- Order referencing a work center that does not exist. -/
def woP : WorkOrderDoc := ⟨"P", "WO-P", "nope", 3420, 3600, 180, false, []⟩

/-- Order on `wcW4` depending on `woP`. -/
def woC : WorkOrderDoc := ⟨"C", "WO-C", "wcW4", 3420, 3480, 60, false, ["P"]⟩

/-- Order with an unknown dependency id. -/
def woU : WorkOrderDoc := ⟨"U", "WO-U", "wcW", 0, 0, 10, false, ["missing"]⟩

/-- Order depending on itself. -/
def woS : WorkOrderDoc := ⟨"S", "WO-S", "wcW", 0, 0, 10, false, ["S"]⟩

/-- Maintenance work order. -/
def woM : WorkOrderDoc := ⟨"M", "WO-M", "wcW", 100, 200, 50, true, []⟩

/-- Work center whose maintenance window list is `[broken]` where `broken`
has no parseable start; dropping `broken` gives back `wcW`. -/
def wcBroken : WorkCenterDoc := ⟨"wcW", [⟨1, 8, 17⟩], [⟨none, some 1950⟩]⟩

/-- The degraded result `computeReflow [woP, woC] [wcW4] []` emits for `woP`. -/
def rPdeg : ReflowResult :=
  ⟨"P", "WO-P", "nope", 3420, 3600, true, none,
    some "Scheduling failed: WorkCenter not found: nope"⟩

/-- The result `computeReflow [woP, woC] [wcW4] []` emits for `woC`. -/
def rCres : ReflowResult :=
  ⟨"C", "WO-C", "wcW4", 3600, 3660, true, some 180,
    some "Resource/shift constraints"⟩

/-- An already-produced result for a dependency "D" finishing at 2040. -/
def rD : ReflowResult := ⟨"D", "WO-D", "wcW", 1980, 2040, false, none, none⟩

/-- Order on `wcW` planned at 1920 whose dependency "D" raises its earliest
allowed start to 2040. -/
def woCD : WorkOrderDoc := ⟨"CD", "WO-CD", "wcW", 1920, 1980, 60, false, ["D"]⟩

/-! ## Stable sort lemmas -/

theorem stableInsert_perm (le : α → α → Bool) (x : α) (l : List α) :
    (stableInsert le x l).Perm (x :: l) := by
  induction l with
  | nil => simp [stableInsert]
  | cons y ys ih =>
    simp only [stableInsert]
    split
    · exact ((ih.cons y).trans (List.Perm.swap x y ys))
    · exact List.Perm.refl _

theorem stableSortBy_perm_aux (le : α → α → Bool) (l acc : List α) :
    (l.foldl (fun a x => stableInsert le x a) acc).Perm (acc ++ l) := by
  induction l generalizing acc with
  | nil => simp
  | cons x xs ih =>
    simp only [List.foldl_cons]
    refine (ih (stableInsert le x acc)).trans ?_
    refine (List.Perm.append_right xs (stableInsert_perm le x acc)).trans ?_
    exact (List.perm_middle).symm

theorem stableSortBy_perm (le : α → α → Bool) (l : List α) :
    (stableSortBy le l).Perm l := by
  simpa using stableSortBy_perm_aux le l []

theorem mem_stableSortBy {le : α → α → Bool} {l : List α} {a : α} :
    a ∈ stableSortBy le l ↔ a ∈ l :=
  (stableSortBy_perm le l).mem_iff

theorem stableInsert_pairwise {le : α → α → Bool}
    (htrans : ∀ a b c, le a b = true → le b c = true → le a c = true)
    (htot : ∀ a b, le a b = true ∨ le b a = true)
    {l : List α} (x : α) (h : l.Pairwise (fun a b => le a b = true)) :
    (stableInsert le x l).Pairwise (fun a b => le a b = true) := by
  induction l with
  | nil => simp [stableInsert]
  | cons y ys ih =>
    rcases List.pairwise_cons.mp h with ⟨hy, hys⟩
    simp only [stableInsert]
    split
    · rename_i hyx
      refine List.pairwise_cons.mpr ⟨?_, ih hys⟩
      intro z hz
      rcases List.mem_cons.mp ((stableInsert_perm le x ys).mem_iff.mp hz) with rfl | hz
      · exact hyx
      · exact hy _ hz
    · rename_i hyx
      have hxy : le x y = true := by
        rcases htot x y with h1 | h1
        · exact h1
        · exact absurd h1 hyx
      refine List.pairwise_cons.mpr ⟨?_, h⟩
      intro z hz
      rcases List.mem_cons.mp hz with rfl | hz
      · exact hxy
      · exact htrans _ _ _ hxy (hy _ hz)

theorem stableSortBy_pairwise {le : α → α → Bool}
    (htrans : ∀ a b c, le a b = true → le b c = true → le a c = true)
    (htot : ∀ a b, le a b = true ∨ le b a = true) (l : List α) :
    (stableSortBy le l).Pairwise (fun a b => le a b = true) := by
  suffices h : ∀ acc, acc.Pairwise (fun a b => le a b = true) →
      (l.foldl (fun a x => stableInsert le x a) acc).Pairwise (fun a b => le a b = true) by
    exact h [] List.Pairwise.nil
  induction l with
  | nil => intro acc hacc; simpa using hacc
  | cons x xs ih =>
    intro acc hacc
    exact ih _ (stableInsert_pairwise htrans htot x hacc)

/-! ## Counting lemmas for working minutes -/

theorem countWork_nil (wc : WorkCenterDoc) {a b : Nat} (h : b ≤ a) :
    countWork wc a b = 0 := by
  simp [countWork, Nat.sub_eq_zero_of_le h]

theorem countWork_add (wc : WorkCenterDoc) {a b c : Nat} (hab : a ≤ b) (hbc : b ≤ c) :
    countWork wc a c = countWork wc a b + countWork wc b c := by
  have hsplit : c - a = (b - a) + (c - b) := by omega
  have harg : ∀ i : Nat, a + (b - a + i) = b + i := fun i => by omega
  simp only [countWork, hsplit, List.range_add, List.countP_append, List.countP_map]
  congr 1
  refine List.countP_congr (fun i _ => ?_)
  simp only [Function.comp_apply]
  rw [harg i]

theorem countWork_zero (wc : WorkCenterDoc) {a b : Nat}
    (h : ∀ t, a ≤ t → t < b → workMinute wc t = false) :
    countWork wc a b = 0 := by
  rw [countWork, List.countP_eq_zero]
  intro i hi
  simp only [List.mem_range] at hi
  simp [h (a + i) (Nat.le_add_right a i) (by omega)]

theorem countWork_all (wc : WorkCenterDoc) {a b : Nat}
    (h : ∀ t, a ≤ t → t < b → workMinute wc t = true) :
    countWork wc a b = b - a := by
  have := List.countP_eq_length (l := List.range (b - a))
    (p := fun i => workMinute wc (a + i))
  rw [countWork]
  rw [this.mpr ?_, List.length_range]
  intro i hi
  simp only [List.mem_range] at hi
  simp [h (a + i) (Nat.le_add_right a i) (by omega)]

/-! ## Shift interval facts -/

theorem shiftIntervalOnDate_bounds {day : Nat} {s : WorkCenterShift} {iv : Iv}
    (h : shiftIntervalOnDate day s = some iv) :
    day * minutesPerDay ≤ iv.start ∧ iv.start < iv.«end» ∧
      iv.«end» < (day + 1) * minutesPerDay := by
  unfold shiftIntervalOnDate at h
  split at h
  · exact absurd h (by simp)
  · split at h
    · exact absurd h (by simp)
    · rename_i hhours
      split at h
      · exact absurd h (by simp)
      · rename_i hord
        cases h
        simp only [Bool.or_eq_true, decide_eq_true_eq, not_or, not_le] at hhours
        simp only [not_le] at hord
        refine ⟨Nat.le_add_right _ _, hord, ?_⟩
        have : s.endHour * 60 ≤ 23 * 60 := Nat.mul_le_mul_right 60 (by omega)
        simp only [minutesPerDay]
        omega

theorem mem_buildShiftIntervalsForDate {shifts : List WorkCenterShift} {day : Nat} {iv : Iv} :
    iv ∈ buildShiftIntervalsForDate shifts day ↔
      ∃ s ∈ shifts, shiftIntervalOnDate day s = some iv := by
  rw [buildShiftIntervalsForDate, mem_stableSortBy, List.mem_filterMap]

theorem buildShiftIntervalsForDate_sorted (shifts : List WorkCenterShift) (day : Nat) :
    (buildShiftIntervalsForDate shifts day).Pairwise (fun a b => a.start ≤ b.start) := by
  have h := @stableSortBy_pairwise Iv ivLe
    (fun a b c h1 h2 => by
      simp only [ivLe, decide_eq_true_eq] at *
      omega)
    (fun a b => by
      simp only [ivLe, decide_eq_true_eq]
      omega)
    (shifts.filterMap (shiftIntervalOnDate day))
  exact h.imp (fun hab => by simpa [ivLe] using hab)

theorem buildShiftIntervals_bounds {shifts : List WorkCenterShift} {day : Nat} {iv : Iv}
    (h : iv ∈ buildShiftIntervalsForDate shifts day) :
    day * minutesPerDay ≤ iv.start ∧ iv.start < iv.«end» ∧
      iv.«end» < (day + 1) * minutesPerDay := by
  rcases mem_buildShiftIntervalsForDate.mp h with ⟨s, _, hs⟩
  exact shiftIntervalOnDate_bounds hs

theorem dayOf_eq_of_range {day t : Nat} (h1 : day * minutesPerDay ≤ t)
    (h2 : t < (day + 1) * minutesPerDay) : dayOf t = day := by
  simp only [dayOf, minutesPerDay] at *
  omega

theorem dayOf_le_self (t : Nat) : dayOf t * minutesPerDay ≤ t := by
  simp only [dayOf, minutesPerDay]
  omega

theorem lt_dayOf_succ (t : Nat) : t < (dayOf t + 1) * minutesPerDay := by
  simp only [dayOf, minutesPerDay]
  omega

/-! ## Maintenance facts -/

theorem isInsideMaintenance_iff {wc : WorkCenterDoc} {t : Nat} :
    isInsideMaintenance wc t = true ↔
      ∃ mw ∈ wc.maintenanceWindows, ∃ iv, parseMW mw = some iv ∧
        iv.start ≤ t ∧ t < iv.«end» := by
  rw [isInsideMaintenance, List.any_eq_true]
  constructor
  · rintro ⟨mw, hmem, hmw⟩
    refine ⟨mw, hmem, ?_⟩
    cases hp : parseMW mw with
    | none => rw [hp] at hmw; simp at hmw
    | some iv =>
      rw [hp] at hmw
      simp only [ivContains, Bool.and_eq_true, decide_eq_true_eq] at hmw
      exact ⟨iv, rfl, hmw.1, hmw.2⟩
  · rintro ⟨mw, hmem, iv, hp, h1, h2⟩
    refine ⟨mw, hmem, ?_⟩
    rw [hp]
    simp [ivContains, h1, h2]

theorem workMinute_false_of_maintenance {wc : WorkCenterDoc} {t : Nat}
    (h : isInsideMaintenance wc t = true) : workMinute wc t = false := by
  simp [workMinute, h]

theorem workMinute_false_of_noshift {wc : WorkCenterDoc} {t : Nat}
    (h : ∀ iv ∈ buildShiftIntervalsForDate wc.shifts (dayOf t),
      ¬(iv.start ≤ t ∧ t < iv.«end»)) : workMinute wc t = false := by
  simp only [workMinute, Bool.and_eq_false_iff]
  left
  rw [List.any_eq_false]
  intro iv hiv
  simp only [ivContains, Bool.and_eq_true, decide_eq_true_eq, not_and]
  intro h1 h2
  exact h iv hiv ⟨h1, h2⟩

theorem workMinute_true_of {wc : WorkCenterDoc} {t : Nat} {iv : Iv}
    (hiv : iv ∈ buildShiftIntervalsForDate wc.shifts (dayOf t))
    (h1 : iv.start ≤ t) (h2 : t < iv.«end»)
    (hm : isInsideMaintenance wc t = false) : workMinute wc t = true := by
  simp only [workMinute, hm, Bool.not_false, Bool.and_true, List.any_eq_true]
  exact ⟨iv, hiv, by simp [ivContains, h1, h2]⟩

theorem countWork_zero_maintenance (wc : WorkCenterDoc) {c e : Nat} {iv : Iv}
    (hmem : ∃ mw ∈ wc.maintenanceWindows, parseMW mw = some iv)
    (hs : iv.start ≤ c) (he : e ≤ iv.«end») : countWork wc c e = 0 := by
  rcases hmem with ⟨mw, hmw, hp⟩
  refine countWork_zero wc (fun t hct hte => ?_)
  exact workMinute_false_of_maintenance
    (isInsideMaintenance_iff.mpr ⟨mw, hmw, iv, hp, by omega, by omega⟩)

theorem skipMaintenanceList_cons_none {mw : MaintenanceWindow}
    (rest : List MaintenanceWindow) (cursor : Nat) (hp : parseMW mw = none) :
    skipMaintenanceList (mw :: rest) cursor = skipMaintenanceList rest cursor := by
  simp [skipMaintenanceList, hp]

theorem skipMaintenanceList_cons_some {mw : MaintenanceWindow} {iv : Iv}
    (rest : List MaintenanceWindow) (cursor : Nat) (hp : parseMW mw = some iv) :
    skipMaintenanceList (mw :: rest) cursor =
      if iv.start ≤ cursor ∧ cursor < iv.«end» then iv.«end»
      else skipMaintenanceList rest cursor := by
  simp only [skipMaintenanceList, hp]
  by_cases hc : iv.start ≤ cursor ∧ cursor < iv.«end»
  · rw [if_pos hc]
    have hb : (ivContains iv cursor
        || (decide (iv.start ≤ cursor) && decide (iv.«end» > cursor))) = true := by
      simp only [ivContains, Bool.or_eq_true, Bool.and_eq_true, decide_eq_true_eq, gt_iff_lt]
      omega
    simp [hb]
  · rw [if_neg hc]
    have hb : (ivContains iv cursor
        || (decide (iv.start ≤ cursor) && decide (iv.«end» > cursor))) = false := by
      simp only [ivContains, Bool.or_eq_false_iff, Bool.and_eq_false_iff,
        decide_eq_false_iff_not, gt_iff_lt, not_le, not_lt]
      omega
    simp [hb]

theorem skipMaintenanceList_ge (mws : List MaintenanceWindow) (cursor : Nat) :
    cursor ≤ skipMaintenanceList mws cursor := by
  induction mws with
  | nil => simp [skipMaintenanceList]
  | cons mw rest ih =>
    cases hp : parseMW mw with
    | none => rw [skipMaintenanceList_cons_none rest cursor hp]; exact ih
    | some iv =>
      rw [skipMaintenanceList_cons_some rest cursor hp]
      split
      · rename_i hc; omega
      · exact ih

theorem skipMaintenanceList_eq_of_not_inside {mws : List MaintenanceWindow} {cursor : Nat}
    (h : ∀ mw ∈ mws, ∀ iv, parseMW mw = some iv → ¬(iv.start ≤ cursor ∧ cursor < iv.«end»)) :
    skipMaintenanceList mws cursor = cursor := by
  induction mws with
  | nil => simp [skipMaintenanceList]
  | cons mw rest ih =>
    cases hp : parseMW mw with
    | none =>
      rw [skipMaintenanceList_cons_none rest cursor hp]
      exact ih (fun x hx => h x (List.mem_cons_of_mem mw hx))
    | some iv =>
      rw [skipMaintenanceList_cons_some rest cursor hp]
      rw [if_neg (h mw (List.mem_cons_self mw rest) iv hp)]
      exact ih (fun x hx => h x (List.mem_cons_of_mem mw hx))

theorem skipMaintenance_eq_of_not_inside {wc : WorkCenterDoc} {cursor : Nat}
    (h : isInsideMaintenance wc cursor = false) :
    skipMaintenanceStartingBeforeOrAt wc cursor = cursor := by
  rw [skipMaintenanceStartingBeforeOrAt]
  refine skipMaintenanceList_eq_of_not_inside (fun mw hmw iv hp hc => ?_)
  rw [Bool.eq_false_iff] at h
  exact h (isInsideMaintenance_iff.mpr ⟨mw, hmw, iv, hp, hc.1, hc.2⟩)

theorem skipMaintenanceList_spec {mws : List MaintenanceWindow} {cursor : Nat}
    (h : ∃ mw ∈ mws, ∃ iv, parseMW mw = some iv ∧ iv.start ≤ cursor ∧ cursor < iv.«end») :
    ∃ iv, (∃ mw ∈ mws, parseMW mw = some iv) ∧
      iv.start ≤ cursor ∧ cursor < iv.«end» ∧
      skipMaintenanceList mws cursor = iv.«end» := by
  induction mws with
  | nil =>
    rcases h with ⟨mw, hmem, _⟩
    simp at hmem
  | cons mw rest ih =>
    cases hp : parseMW mw with
    | none =>
      rw [skipMaintenanceList_cons_none rest cursor hp]
      rcases h with ⟨mw', hmw', hval⟩
      rcases List.mem_cons.mp hmw' with rfl | hmw'
      · rcases hval with ⟨iv, hiv, _⟩
        rw [hp] at hiv; simp at hiv
      · rcases ih ⟨mw', hmw', hval⟩ with ⟨iv, ⟨mw'', hmw'', hp''⟩, h1, h2, h3⟩
        exact ⟨iv, ⟨mw'', by simp [hmw''], hp''⟩, h1, h2, h3⟩
    | some iv =>
      rw [skipMaintenanceList_cons_some rest cursor hp]
      by_cases hcond : iv.start ≤ cursor ∧ cursor < iv.«end»
      · rw [if_pos hcond]
        exact ⟨iv, ⟨mw, by simp, hp⟩, hcond.1, hcond.2, rfl⟩
      · rw [if_neg hcond]
        rcases h with ⟨mw', hmw', hval⟩
        rcases List.mem_cons.mp hmw' with rfl | hmw'
        · rcases hval with ⟨iv', hiv', hps, hpe⟩
          rw [hp] at hiv'
          cases hiv'
          exact absurd ⟨hps, hpe⟩ hcond
        · rcases ih ⟨mw', hmw', hval⟩ with ⟨iv', ⟨mw'', hmw'', hp''⟩, h1, h2, h3⟩
          exact ⟨iv', ⟨mw'', by simp [hmw''], hp''⟩, h1, h2, h3⟩

theorem skipMaintenance_spec {wc : WorkCenterDoc} {cursor : Nat}
    (h : isInsideMaintenance wc cursor = true) :
    ∃ iv, (∃ mw ∈ wc.maintenanceWindows, parseMW mw = some iv) ∧
      iv.start ≤ cursor ∧ cursor < iv.«end» ∧
      skipMaintenanceStartingBeforeOrAt wc cursor = iv.«end» := by
  rw [skipMaintenanceStartingBeforeOrAt]
  refine skipMaintenanceList_spec ?_
  rcases isInsideMaintenance_iff.mp h with ⟨mw, hmem, iv, hp, h1, h2⟩
  exact ⟨mw, hmem, iv, hp, h1, h2⟩

theorem skip_span_zero {wc : WorkCenterDoc} {c : Nat}
    (h : isInsideMaintenance wc c = true) :
    c ≤ skipMaintenanceStartingBeforeOrAt wc c ∧
      countWork wc c (skipMaintenanceStartingBeforeOrAt wc c) = 0 := by
  rcases skipMaintenance_spec h with ⟨iv, hmem, h1, h2, h3⟩
  rw [h3]
  exact ⟨by omega, countWork_zero_maintenance wc hmem h1 (le_refl _)⟩

/-! ## find? splitting -/

theorem find?_split {p : α → Bool} {l : List α} {a : α} (h : l.find? p = some a) :
    ∃ l₁ l₂, l = l₁ ++ a :: l₂ ∧ (∀ x ∈ l₁, p x = false) := by
  induction l with
  | nil => simp at h
  | cons y ys ih =>
    rw [List.find?_cons] at h
    split at h
    · cases h
      exact ⟨[], ys, rfl, by simp⟩
    · rename_i hy
      rcases ih h with ⟨l₁, l₂, rfl, hl₁⟩
      refine ⟨y :: l₁, l₂, rfl, ?_⟩
      intro x hx
      rcases List.mem_cons.mp hx with rfl | hx
      · exact hy
      · exact hl₁ x hx

/-! ## availableUntilFold facts -/

theorem availableUntilFold_cons_none {mw : MaintenanceWindow}
    (rest : List MaintenanceWindow) (c init : Nat) (hp : parseMW mw = none) :
    availableUntilFold (mw :: rest) c init = availableUntilFold rest c init := by
  simp [availableUntilFold, hp]

theorem availableUntilFold_cons_some {mw : MaintenanceWindow} {iv : Iv}
    (rest : List MaintenanceWindow) (c init : Nat) (hp : parseMW mw = some iv) :
    availableUntilFold (mw :: rest) c init =
      availableUntilFold rest c
        (if c < iv.start ∧ iv.start < init then iv.start else init) := by
  simp only [availableUntilFold, List.foldl_cons, hp]
  by_cases hc : c < iv.start ∧ iv.start < init
  · rw [if_pos hc]
    have hb : (decide (c < iv.start) && decide (iv.start < init)) = true := by
      simp [hc.1, hc.2]
    rw [hb]
    simp
  · rw [if_neg hc]
    have hb : (decide (c < iv.start) && decide (iv.start < init)) = false := by
      simp only [Bool.and_eq_false_iff, decide_eq_false_iff_not, not_lt]
      omega
    rw [hb]
    simp

theorem availableUntilFold_le_init (mws : List MaintenanceWindow) (c init : Nat) :
    availableUntilFold mws c init ≤ init := by
  induction mws generalizing init with
  | nil => simp [availableUntilFold]
  | cons mw rest ih =>
    cases hp : parseMW mw with
    | none => rw [availableUntilFold_cons_none rest c init hp]; exact ih init
    | some iv =>
      rw [availableUntilFold_cons_some rest c init hp]
      split
      · rename_i hc
        exact le_trans (ih iv.start) (le_of_lt hc.2)
      · exact ih init

theorem availableUntilFold_gt (mws : List MaintenanceWindow) {c init : Nat}
    (hinit : c < init) : c < availableUntilFold mws c init := by
  induction mws generalizing init with
  | nil => simpa [availableUntilFold] using hinit
  | cons mw rest ih =>
    cases hp : parseMW mw with
    | none => rw [availableUntilFold_cons_none rest c init hp]; exact ih hinit
    | some iv =>
      rw [availableUntilFold_cons_some rest c init hp]
      split
      · rename_i hc
        exact ih hc.1
      · exact ih hinit

theorem availableUntilFold_le_start {mws : List MaintenanceWindow} {c : Nat} {iv : Iv}
    (hmem : ∃ mw ∈ mws, parseMW mw = some iv) (hgt : c < iv.start) :
    ∀ init, availableUntilFold mws c init ≤ iv.start := by
  induction mws with
  | nil =>
    rcases hmem with ⟨mw, hmw, _⟩
    simp at hmw
  | cons mw rest ih =>
    intro init
    rcases hmem with ⟨mw', hmw', hp'⟩
    rcases List.mem_cons.mp hmw' with rfl | hmw'
    · rw [availableUntilFold_cons_some rest c init hp']
      split
      · exact availableUntilFold_le_init rest c iv.start
      · rename_i hc
        have hle : init ≤ iv.start := by
          rcases not_and_or.mp hc with h1 | h1
          · exact absurd hgt h1
          · omega
        exact le_trans (availableUntilFold_le_init rest c init) hle
    · cases hp : parseMW mw with
      | none =>
        rw [availableUntilFold_cons_none rest c init hp]
        exact ih ⟨mw', hmw', hp'⟩ init
      | some iv' =>
        rw [availableUntilFold_cons_some rest c init hp]
        exact ih ⟨mw', hmw', hp'⟩ _

/-! ## currentShiftFor facts -/

theorem currentShiftFor_none {intervals : List Iv} {c : Nat}
    (h : currentShiftFor intervals c = none) :
    ∀ iv ∈ intervals, iv.start ≤ c ∧ iv.«end» ≤ c := by
  intro iv hiv
  have := List.find?_eq_none.mp h iv hiv
  simp only [ivContains, Bool.or_eq_true, Bool.and_eq_true, decide_eq_true_eq, not_or,
    not_and, not_lt] at this
  omega

theorem currentShiftFor_some {intervals : List Iv} {c : Nat} {si : Iv}
    (h : currentShiftFor intervals c = some si) :
    si ∈ intervals ∧ ((si.start ≤ c ∧ c < si.«end») ∨ c < si.start) := by
  refine ⟨List.mem_of_find?_eq_some h, ?_⟩
  have := List.find?_some h
  simp only [ivContains, Bool.or_eq_true, Bool.and_eq_true, decide_eq_true_eq] at this
  tauto

theorem addWorkLoop_zero (wc : WorkCenterDoc) (fuel cursor : Nat) :
    addWorkLoop wc fuel 0 cursor = some cursor := by
  cases fuel <;> rfl

theorem addWorkLoop_noshift (wc : WorkCenterDoc) {f r cursor : Nat}
    (hcs : currentShiftFor (buildShiftIntervalsForDate wc.shifts (dayOf cursor)) cursor = none) :
    addWorkLoop wc (f + 1) (r + 1) cursor =
      addWorkLoop wc f (r + 1) ((dayOf cursor + 1) * minutesPerDay) := by
  simp [addWorkLoop, hcs]

theorem addWorkLoop_maint (wc : WorkCenterDoc) {f r cursor : Nat} {si : Iv}
    (hcs : currentShiftFor (buildShiftIntervalsForDate wc.shifts (dayOf cursor)) cursor
      = some si)
    (him : isInsideMaintenance wc (if cursor < si.start then si.start else cursor) = true) :
    addWorkLoop wc (f + 1) (r + 1) cursor =
      addWorkLoop wc f (r + 1)
        (skipMaintenanceStartingBeforeOrAt wc
          (if cursor < si.start then si.start else cursor)) := by
  simp [addWorkLoop, hcs, him]

theorem addWorkLoop_gap (wc : WorkCenterDoc) {f r cursor : Nat} {si : Iv}
    (hcs : currentShiftFor (buildShiftIntervalsForDate wc.shifts (dayOf cursor)) cursor
      = some si)
    (him : isInsideMaintenance wc (if cursor < si.start then si.start else cursor) = false)
    (hav : availableUntilFold wc.maintenanceWindows
        (if cursor < si.start then si.start else cursor) si.«end»
      - (if cursor < si.start then si.start else cursor) = 0) :
    addWorkLoop wc (f + 1) (r + 1) cursor = addWorkLoop wc f (r + 1) si.«end» := by
  simp [addWorkLoop, hcs, him, hav]

theorem addWorkLoop_consume (wc : WorkCenterDoc) {f r cursor : Nat} {si : Iv}
    (hcs : currentShiftFor (buildShiftIntervalsForDate wc.shifts (dayOf cursor)) cursor
      = some si)
    (him : isInsideMaintenance wc (if cursor < si.start then si.start else cursor) = false)
    (hav : availableUntilFold wc.maintenanceWindows
        (if cursor < si.start then si.start else cursor) si.«end»
      - (if cursor < si.start then si.start else cursor) ≠ 0) :
    addWorkLoop wc (f + 1) (r + 1) cursor =
      (let c1 := if cursor < si.start then si.start else cursor
       let au := availableUntilFold wc.maintenanceWindows c1 si.«end»
       let consume := min (au - c1) (r + 1)
       let c2 := c1 + consume
       addWorkLoop wc f (r + 1 - consume)
         (if isInsideMaintenance wc c2 then skipMaintenanceStartingBeforeOrAt wc c2
          else c2)) := by
  simp [addWorkLoop, hcs, him, hav]

theorem currentShiftFor_prefix_zero {intervals : List Iv} {c : Nat} {si : Iv}
    (hsorted : intervals.Pairwise (fun a b => a.start ≤ b.start))
    (h : currentShiftFor intervals c = some si) :
    ∀ t, c ≤ t → t < si.start → ∀ iv ∈ intervals, ¬(iv.start ≤ t ∧ t < iv.«end») := by
  intro t hct hts iv hiv
  rcases find?_split h with ⟨l₁, l₂, heq, hl₁⟩
  subst heq
  rcases List.mem_append.mp hiv with hiv | hiv
  · have := hl₁ iv hiv
    simp only [ivContains, Bool.or_eq_false_iff, Bool.and_eq_false_iff,
      decide_eq_false_iff_not, not_le, not_lt] at this
    rcases this with ⟨h1, h2⟩
    rcases h1 with h1 | h1
    · omega
    · omega
  · rcases List.mem_cons.mp hiv with rfl | hiv
    · omega
    · have hsuffix : (si :: l₂).Pairwise (fun a b => a.start ≤ b.start) :=
        (List.pairwise_append.mp hsorted).2.1
      have := (List.pairwise_cons.mp hsuffix).1 iv hiv
      omega

/-- Zero working minutes between the loop cursor and the (possibly later)
start of the shift interval selected by `currentShiftFor`. -/
theorem countWork_prefix_zero (wc : WorkCenterDoc) {cursor : Nat} {si : Iv}
    (hcs : currentShiftFor (buildShiftIntervalsForDate wc.shifts (dayOf cursor)) cursor
      = some si) :
    countWork wc cursor si.start = 0 := by
  rcases Nat.lt_or_ge cursor si.start with hlt | hge
  · obtain ⟨hsimem, _⟩ := currentShiftFor_some hcs
    obtain ⟨hb1, hb2, hb3⟩ := buildShiftIntervals_bounds hsimem
    refine countWork_zero wc (fun t hct htl => ?_)
    have hday : dayOf t = dayOf cursor :=
      dayOf_eq_of_range (le_trans (dayOf_le_self cursor) hct) (by omega)
    refine workMinute_false_of_noshift (fun iv hiv => ?_)
    rw [hday] at hiv
    exact currentShiftFor_prefix_zero (buildShiftIntervalsForDate_sorted wc.shifts _)
      hcs t hct htl iv hiv
  · exact countWork_nil wc hge

/-- Invariant of the `addWorkingMinutesConsideringShifts` loop: when the loop
returns, the span between the entry cursor and the returned time contains
exactly `remaining` working minutes. -/
theorem addWorkLoop_spec (wc : WorkCenterDoc) :
    ∀ fuel remaining cursor e, addWorkLoop wc fuel remaining cursor = some e →
      cursor ≤ e ∧ countWork wc cursor e = remaining := by
  intro fuel
  induction fuel with
  | zero =>
    intro remaining cursor e h
    match remaining with
    | 0 =>
      rw [addWorkLoop_zero] at h
      cases h
      exact ⟨le_refl _, countWork_nil wc (le_refl _)⟩
    | r + 1 => exact absurd h (by simp [addWorkLoop])
  | succ f ih =>
    intro remaining cursor e h
    match remaining with
    | 0 =>
      rw [addWorkLoop_zero] at h
      cases h
      exact ⟨le_refl _, countWork_nil wc (le_refl _)⟩
    | r + 1 =>
      cases hcs : currentShiftFor (buildShiftIntervalsForDate wc.shifts (dayOf cursor))
          cursor with
      | none =>
        rw [addWorkLoop_noshift wc hcs] at h
        obtain ⟨h1, h2⟩ := ih _ _ _ h
        have hcn : cursor ≤ (dayOf cursor + 1) * minutesPerDay :=
          le_of_lt (lt_dayOf_succ cursor)
        refine ⟨le_trans hcn h1, ?_⟩
        rw [countWork_add wc hcn h1, h2]
        have hz : countWork wc cursor ((dayOf cursor + 1) * minutesPerDay) = 0 := by
          refine countWork_zero wc (fun t hct htl => ?_)
          have hday : dayOf t = dayOf cursor :=
            dayOf_eq_of_range (le_trans (dayOf_le_self cursor) hct) htl
          refine workMinute_false_of_noshift (fun iv hiv => ?_)
          rw [hday] at hiv
          have := currentShiftFor_none hcs iv hiv
          omega
        rw [hz]
        omega
      | some si =>
        obtain ⟨hsimem, hcond⟩ := currentShiftFor_some hcs
        obtain ⟨hb1, hb2, hb3⟩ := buildShiftIntervals_bounds hsimem
        have hpre : countWork wc cursor si.start = 0 := countWork_prefix_zero wc hcs
        set c1 : Nat := if cursor < si.start then si.start else cursor with hc1def
        have hcc1 : cursor ≤ c1 := by
          rw [hc1def]; split <;> omega
        have hc1s : si.start ≤ c1 := by
          rw [hc1def]; split
          · omega
          · rename_i hn; push_neg at hn; rcases hcond with hcd | hcd <;> omega
        have hc1e : c1 < si.«end» := by
          rw [hc1def]; split
          · omega
          · rename_i hn; push_neg at hn; rcases hcond with hcd | hcd <;> omega
        have hpre1 : countWork wc cursor c1 = 0 := by
          rcases Nat.lt_or_ge cursor si.start with hlt | hge
          · have hce : c1 = si.start := by rw [hc1def, if_pos hlt]
            rw [hce]; exact hpre
          · have hce : c1 = cursor := by rw [hc1def, if_neg (by omega)]
            rw [hce]; exact countWork_nil wc (le_refl _)
        by_cases him : isInsideMaintenance wc c1 = true
        · rw [addWorkLoop_maint wc hcs him] at h
          obtain ⟨h1, h2⟩ := ih _ _ _ h
          obtain ⟨hskip1, hskip2⟩ := skip_span_zero him
          refine ⟨le_trans hcc1 (le_trans hskip1 h1), ?_⟩
          rw [countWork_add wc hcc1 (le_trans hskip1 h1), hpre1,
            countWork_add wc hskip1 h1, hskip2, h2]
          omega
        · rw [Bool.not_eq_true] at him
          set au : Nat := availableUntilFold wc.maintenanceWindows c1 si.«end» with haudef
          have hau_gt : c1 < au := availableUntilFold_gt _ hc1e
          have hau_le : au ≤ si.«end» := availableUntilFold_le_init _ _ _
          by_cases hav : au - c1 = 0
          · omega
          · rw [addWorkLoop_consume wc hcs him hav] at h
            simp only at h
            set consume : Nat := min (au - c1) (r + 1) with hconsdef
            set c2 : Nat := c1 + consume with hc2def
            have hcons1 : 1 ≤ consume := by
              rw [hconsdef]; omega
            have hconsr : consume ≤ r + 1 := min_le_right _ _
            have hc2au : c2 ≤ au := by
              rw [hc2def, hconsdef]; omega
            have hfull : countWork wc c1 c2 = consume := by
              rw [show countWork wc c1 c2 = c2 - c1 from ?_]
              · omega
              refine countWork_all wc (fun t hc1t htc2 => ?_)
              have hday : dayOf t = dayOf cursor := by
                refine dayOf_eq_of_range ?_ ?_
                · omega
                · omega
              have hnm : isInsideMaintenance wc t = false := by
                by_contra hmt
                rw [Bool.not_eq_false] at hmt
                rcases isInsideMaintenance_iff.mp hmt with ⟨mw, hmw, iv, hp, hivs, hive⟩
                rcases Nat.lt_or_ge c1 iv.start with hgt | hle
                · have := availableUntilFold_le_start ⟨mw, hmw, hp⟩ hgt si.«end»
                  rw [← haudef] at this
                  omega
                · have hnotc1 : ¬ (iv.start ≤ c1 ∧ c1 < iv.«end») := by
                    intro hcont
                    exact absurd (isInsideMaintenance_iff.mpr
                      ⟨mw, hmw, iv, hp, hcont.1, hcont.2⟩) (by rw [him]; simp)
                  push_neg at hnotc1
                  have := hnotc1 hle
                  omega
              refine @workMinute_true_of wc _ si ?_ (by omega) (by omega) hnm
              rw [hday]
              exact hsimem
            set c3 : Nat := if isInsideMaintenance wc c2 then
              skipMaintenanceStartingBeforeOrAt wc c2 else c2 with hc3def
            have hc23 : c2 ≤ c3 ∧ countWork wc c2 c3 = 0 := by
              rw [hc3def]
              by_cases hm2 : isInsideMaintenance wc c2 = true
              · rw [if_pos hm2]
                exact skip_span_zero hm2
              · rw [Bool.not_eq_true] at hm2
                rw [if_neg (by rw [hm2]; simp)]
                exact ⟨le_refl _, countWork_nil wc (le_refl _)⟩
            obtain ⟨h1, h2⟩ := ih _ _ _ h
            have hchain1 : c1 ≤ c2 := by rw [hc2def]; omega
            have hchain : cursor ≤ e :=
              le_trans hcc1 (le_trans hchain1 (le_trans hc23.1 h1))
            refine ⟨hchain, ?_⟩
            rw [countWork_add wc hcc1 (le_trans hchain1 (le_trans hc23.1 h1)), hpre1,
              countWork_add wc hchain1 (le_trans hc23.1 h1), hfull,
              countWork_add wc hc23.1 h1, hc23.2, h2]
            omega

/-- `addWorkingMinutesConsideringShifts` consumes exactly the requested
number of working minutes between its entry cursor and its result. -/
theorem addWorkingMinutes_spec {wc : WorkCenterDoc} {start durationMinutes e : Nat}
    (h : addWorkingMinutesConsideringShifts start durationMinutes wc = some e) :
    start ≤ e ∧ countWork wc start e = durationMinutes :=
  addWorkLoop_spec wc 365 durationMinutes start e h

/-! ## Cursor monotonicity of the alignment helpers -/

theorem findShiftFrom_ge {intervals : List Iv} {c t : Nat}
    (h : findShiftFrom intervals c = some t) : c ≤ t := by
  induction intervals with
  | nil => simp [findShiftFrom] at h
  | cons iv rest ih =>
    simp only [findShiftFrom] at h
    split at h
    · cases h; exact le_refl _
    · split at h
      · rename_i hle
        cases h
        exact of_decide_eq_true hle
      · exact ih h

theorem moveScanDays_ge {wc : WorkCenterDoc} {cursor : Nat} {ds : List Nat} {t : Nat}
    (h : moveScanDays wc cursor ds = some t) : cursor ≤ t := by
  induction ds with
  | nil => simp [moveScanDays] at h
  | cons d rest ih =>
    simp only [moveScanDays] at h
    cases hf : findShiftFrom (buildShiftIntervalsForDate wc.shifts (dayOf cursor + d))
        cursor with
    | some u =>
      rw [hf] at h
      cases h
      exact findShiftFrom_ge hf
    | none =>
      rw [hf] at h
      exact ih h

theorem moveToNextShiftIfNeeded_ge (wc : WorkCenterDoc) (cursor : Nat) :
    cursor ≤ moveToNextShiftIfNeeded wc cursor := by
  rw [moveToNextShiftIfNeeded]
  cases hm : moveScanDays wc cursor (List.range 14) with
  | none => simp
  | some t => simpa using moveScanDays_ge hm

theorem skipMaintenance_ge (wc : WorkCenterDoc) (cursor : Nat) :
    cursor ≤ skipMaintenanceStartingBeforeOrAt wc cursor :=
  skipMaintenanceList_ge wc.maintenanceWindows cursor

/-! ## Overlap detection facts -/

theorem findOverlappingSlot_none {schedule : List ScheduledSlot} {wcId : String}
    {s e : Nat} (h : findOverlappingSlot schedule wcId s e = none) :
    ∀ x ∈ schedule, x.workCenterDocId = wcId → ¬(x.start < e ∧ s < x.«end») := by
  intro x hx hwc hover
  have := List.find?_eq_none.mp h x hx
  simp only [Bool.and_eq_true, decide_eq_true_eq, beq_iff_eq, not_and] at this
  exact absurd hover.2 (this ⟨hwc, hover.1⟩)

theorem findOverlappingSlot_some {schedule : List ScheduledSlot} {wcId : String}
    {s e : Nat} {x : ScheduledSlot} (h : findOverlappingSlot schedule wcId s e = some x) :
    x ∈ schedule ∧ x.workCenterDocId = wcId ∧ x.start < e ∧ s < x.«end» := by
  refine ⟨List.mem_of_find?_eq_some h, ?_⟩
  have := List.find?_some h
  simp only [Bool.and_eq_true, decide_eq_true_eq, beq_iff_eq] at this
  tauto

/-! ## Search loop facts -/

/-- Specification of `feasLoop`: the accepted start is at or after the entry
cursor, the accepted span contains exactly the requested working minutes, the
accepted slot avoids every ledger slot of the work center, and every slot in
the collision trace ends strictly before the accepted start. -/
theorem feasLoop_spec (wc : WorkCenterDoc) (schedule : List ScheduledSlot)
    (durationMinutes deadline : Nat) :
    ∀ fuel cursor acc s e tr,
      feasLoop wc schedule durationMinutes deadline fuel cursor acc = .ok ((s, e), tr) →
      cursor ≤ s ∧ s ≤ e ∧ countWork wc s e = durationMinutes ∧
        (∀ x ∈ schedule, x.workCenterDocId = wc.docId → ¬(x.start < e ∧ s < x.«end»)) ∧
        (∀ x ∈ tr, x ∈ acc ∨ x.«end» < s) := by
  intro fuel
  induction fuel with
  | zero =>
    intro cursor acc s e tr h
    rw [feasLoop] at h
    split at h
    · exact absurd h (by simp)
    · exact absurd h (by simp)
  | succ f ih =>
    intro cursor acc s e tr h
    rw [feasLoop] at h
    split at h
    swap
    · exact absurd h (by simp)
    dsimp only at h
    cases haw : addWorkingMinutesConsideringShifts
        (skipMaintenanceStartingBeforeOrAt wc (moveToNextShiftIfNeeded wc cursor))
        durationMinutes wc with
    | none =>
      rw [haw] at h
      exact absurd h (by simp)
    | some candidateEnd =>
      rw [haw] at h
      dsimp only at h
      have hc2 : cursor ≤ skipMaintenanceStartingBeforeOrAt wc
          (moveToNextShiftIfNeeded wc cursor) :=
        le_trans (moveToNextShiftIfNeeded_ge wc cursor)
          (skipMaintenance_ge wc (moveToNextShiftIfNeeded wc cursor))
      cases hov : findOverlappingSlot schedule wc.docId
          (skipMaintenanceStartingBeforeOrAt wc (moveToNextShiftIfNeeded wc cursor))
          candidateEnd with
      | none =>
        rw [hov] at h
        simp only [Except.ok.injEq, Prod.mk.injEq] at h
        obtain ⟨⟨rfl, rfl⟩, rfl⟩ := h
        obtain ⟨haw1, haw2⟩ := addWorkingMinutes_spec haw
        refine ⟨hc2, haw1, haw2, findOverlappingSlot_none hov, ?_⟩
        intro x hx
        left
        exact List.mem_reverse.mp hx
      | some x0 =>
        rw [hov] at h
        obtain ⟨hx0mem, hx0wc, hx0s, hx0e⟩ := findOverlappingSlot_some hov
        obtain ⟨ih1, ih2, ih3, ih4, ih5⟩ := ih _ _ _ _ _ h
        refine ⟨?_, ih2, ih3, ih4, ?_⟩
        · omega
        · intro x hx
          rcases ih5 x hx with hxa | hxe
          · rcases List.mem_cons.mp hxa with rfl | hxa
            · right; omega
            · left; exact hxa
          · right; exact hxe

/-- Specification of `findEarliestFeasibleSlot` on success. -/
theorem findEarliestFeasibleSlot_spec {workCenters : List WorkCenterDoc}
    {schedule : List ScheduledSlot} {wcId : String} {est dur days s e : Nat}
    {tr : List ScheduledSlot}
    (h : findEarliestFeasibleSlot workCenters schedule wcId est dur days
      = .ok ((s, e), tr)) :
    ∃ wc, wcById workCenters wcId = some wc ∧ wc.docId = wcId ∧
      est ≤ s ∧ s ≤ e ∧ countWork wc s e = dur ∧
      (∀ x ∈ schedule, x.workCenterDocId = wcId → ¬(x.start < e ∧ s < x.«end»)) ∧
      (∀ x ∈ tr, x.«end» < s) := by
  rw [findEarliestFeasibleSlot] at h
  cases hwc : wcById workCenters wcId with
  | none => rw [hwc] at h; exact absurd h (by simp)
  | some wc =>
    rw [hwc] at h
    dsimp only at h
    split at h
    · exact absurd h (by simp)
    · have hdoc : wc.docId = wcId := by
        have hwc' := hwc
        rw [wcById] at hwc'
        have h2 := List.find?_some hwc'
        simpa using h2
      obtain ⟨h1, h2, h3, h4, h5⟩ := feasLoop_spec wc schedule dur
        (est + days * minutesPerDay) 10000 est [] s e tr h
      refine ⟨wc, rfl, hdoc, h1, h2, h3, ?_, ?_⟩
      · rw [← hdoc]; exact h4
      · intro x hx
        rcases h5 x hx with hxa | hxe
        · simp at hxa
        · exact hxe

/-! ## Association list lemmas -/

/-- Keys of an association list, in insertion order. -/
def keysOf (m : List (String × α)) : List String := m.map (·.1)

theorem alGet_cons (p : String × α) (rest : List (String × α)) (k : String) :
    alGet (p :: rest) k = if p.1 = k then some p.2 else alGet rest k := by
  by_cases h : p.1 = k
  · rw [if_pos h, alGet, List.find?_cons_of_pos _ (by simp [h])]
    rfl
  · rw [if_neg h, alGet, List.find?_cons_of_neg _ (by simp [h]), alGet]

theorem alGet_alSet_self (m : List (String × α)) (k : String) (v : α) :
    alGet (alSet m k v) k = some v := by
  induction m with
  | nil => simp [alGet, alSet]
  | cons p rest ih =>
    simp only [alSet]
    split
    · rename_i heq
      simp only [beq_iff_eq] at heq
      simp [alGet_cons]
    · rename_i hne
      simp only [beq_iff_eq] at hne
      rw [alGet_cons, if_neg hne]
      exact ih

theorem alGet_alSet_ne (m : List (String × α)) {k k' : String} (v : α) (h : k' ≠ k) :
    alGet (alSet m k v) k' = alGet m k' := by
  induction m with
  | nil =>
    simp only [alSet]
    rw [alGet_cons, if_neg (fun hh => h hh.symm)]
  | cons p rest ih =>
    simp only [alSet]
    split
    · rename_i heq
      simp only [beq_iff_eq] at heq
      rw [alGet_cons, if_neg (fun hh => h hh.symm), alGet_cons, if_neg (heq ▸ fun hh => h hh.symm)]
    · rw [alGet_cons, alGet_cons]
      split
      · rfl
      · exact ih

theorem keysOf_alSet_mem (m : List (String × α)) {k : String} (v : α)
    (h : k ∈ keysOf m) : keysOf (alSet m k v) = keysOf m := by
  induction m with
  | nil => simp [keysOf] at h
  | cons p rest ih =>
    simp only [alSet]
    split
    · rename_i heq
      simp only [beq_iff_eq] at heq
      simp [keysOf, heq]
    · rename_i hne
      simp only [beq_iff_eq] at hne
      simp only [keysOf, List.map_cons] at h ⊢
      rcases List.mem_cons.mp h with heq | h
      · exact absurd heq.symm hne
      · have hrw := ih h
        simp only [keysOf] at hrw
        rw [hrw]

theorem alGet_mem_keys {m : List (String × α)} {k : String} {v : α}
    (h : alGet m k = some v) : k ∈ keysOf m := by
  induction m with
  | nil => simp [alGet] at h
  | cons p rest ih =>
    rw [alGet_cons] at h
    simp only [keysOf, List.map_cons]
    split at h
    · rename_i heq
      exact List.mem_cons.mpr (Or.inl heq.symm)
    · exact List.mem_cons.mpr (Or.inr (ih h))

theorem alGet_isSome_of_mem_keys {m : List (String × α)} {k : String}
    (h : k ∈ keysOf m) : ∃ v, alGet m k = some v := by
  induction m with
  | nil => simp [keysOf] at h
  | cons p rest ih =>
    rw [alGet_cons]
    split
    · exact ⟨p.2, rfl⟩
    · rename_i hne
      rcases List.mem_cons.mp h with heq | h
      · exact absurd heq.symm hne
      · exact ih h

theorem alGet_none_of_not_mem_keys {m : List (String × α)} {k : String}
    (h : k ∉ keysOf m) : alGet m k = none := by
  cases hg : alGet m k with
  | none => rfl
  | some v => exact absurd (alGet_mem_keys hg) h

/-! ## Dependency graph: edge bookkeeping -/

/-- Children of `p` in the adjacency map. -/
def childrenOf (adj : List (String × List String)) (p : String) : List String :=
  (alGet adj p).getD []

/-- Total number of in-edges of `u` recorded in the adjacency entries. -/
def adjCount (adj : List (String × List String)) (u : String) : Nat :=
  (adj.map (fun pr => pr.2.count u)).sum

/-- In-edges of `u` from parents inside `S`. -/
def processedEdges (adj : List (String × List String)) (S : List String) (u : String) : Nat :=
  (adj.map (fun pr => if pr.1 ∈ S then pr.2.count u else 0)).sum

/-- In-edges of `u` from parents outside `S`. -/
def residualEdges (adj : List (String × List String)) (S : List String) (u : String) : Nat :=
  (adj.map (fun pr => if pr.1 ∈ S then 0 else pr.2.count u)).sum

/-- Edge relation recorded in the adjacency map. -/
def edgeAdj (adj : List (String × List String)) (p u : String) : Prop :=
  u ∈ childrenOf adj p

theorem adjCount_eq_processed_add_residual (adj : List (String × List String))
    (S : List String) (u : String) :
    adjCount adj u = processedEdges adj S u + residualEdges adj S u := by
  induction adj with
  | nil => simp [adjCount, processedEdges, residualEdges]
  | cons pr rest ih =>
    simp only [adjCount, processedEdges, residualEdges, List.map_cons, List.sum_cons] at *
    split <;> omega

theorem processedEdges_nil (adj : List (String × List String)) (u : String) :
    processedEdges adj [] u = 0 := by
  simp [processedEdges]

theorem processedEdges_append_one {adj : List (String × List String)}
    (hnd : (keysOf adj).Nodup) {S : List String} {cur : String} (hcur : cur ∉ S)
    (u : String) :
    processedEdges adj (S ++ [cur]) u
      = processedEdges adj S u + (childrenOf adj cur).count u := by
  induction adj with
  | nil => simp [processedEdges, childrenOf, alGet]
  | cons pr rest ih =>
    simp only [keysOf, List.map_cons, List.nodup_cons] at hnd
    have ihr := ih hnd.2
    simp only [processedEdges, List.map_cons, List.sum_cons] at *
    by_cases hpr : pr.1 = cur
    · subst hpr
      have hc : childrenOf (pr :: rest) pr.1 = pr.2 := by
        simp [childrenOf, alGet, List.find?_cons]
      have hcrest : childrenOf rest pr.1 = [] := by
        have : pr.1 ∉ keysOf rest := fun hmem => hnd.1 (by simpa [keysOf] using hmem)
        simp [childrenOf, alGet_none_of_not_mem_keys this]
      rw [hc]
      rw [hcrest] at ihr
      simp only [List.count_nil] at ihr
      have h1 : pr.1 ∈ S ++ [pr.1] := by simp
      rw [if_pos h1, if_neg hcur]
      omega
    · have hc : childrenOf (pr :: rest) cur = childrenOf rest cur := by
        simp only [childrenOf]
        rw [alGet_cons, if_neg hpr]
      rw [hc] at *
      have hsplit : (pr.1 ∈ S ++ [cur]) ↔ pr.1 ∈ S := by
        simp only [List.mem_append, List.mem_singleton]
        constructor
        · rintro (h | h)
          · exact h
          · exact absurd h hpr
        · exact Or.inl
      by_cases hin : pr.1 ∈ S
      · rw [if_pos (hsplit.mpr hin), if_pos hin]
        omega
      · rw [if_neg (fun hmem => hin (hsplit.mp hmem)), if_neg hin]
        omega

theorem residualEdges_zero_iff {adj : List (String × List String)} {S : List String}
    {u : String} :
    residualEdges adj S u = 0 ↔
      ∀ pr ∈ adj, pr.1 ∉ S → pr.2.count u = 0 := by
  rw [residualEdges, List.sum_eq_zero_iff]
  constructor
  · intro h pr hpr hns
    have := h (if pr.1 ∈ S then 0 else pr.2.count u) (List.mem_map.mpr ⟨pr, hpr, rfl⟩)
    rwa [if_neg hns] at this
  · intro h x hx
    rcases List.mem_map.mp hx with ⟨pr, hpr, rfl⟩
    split
    · rfl
    · rename_i hns
      exact h pr hpr hns

/-! ## processNeighbors characterization -/

/-- Recursive twin of the `processNeighbors` fold, used for the proofs. -/
def processNeighborsGo (D : List (String × Int)) (acc : List String) :
    List String → List (String × Int) × List String
  | [] => (D, acc)
  | c :: cs =>
    let deg' := alSet D c ((alGet D c).getD 0 - 1)
    if alGet deg' c == some 0 then processNeighborsGo deg' (acc ++ [c]) cs
    else processNeighborsGo deg' acc cs

theorem processNeighbors_eq_go (children : List String) :
    ∀ D acc,
      children.foldl
        (fun (st : List (String × Int) × List String) c =>
          let deg' := alSet st.1 c ((alGet st.1 c).getD 0 - 1)
          if alGet deg' c == some 0 then (deg', st.2 ++ [c]) else (deg', st.2))
        (D, acc) = processNeighborsGo D acc children := by
  induction children with
  | nil => intro D acc; rfl
  | cons c cs ih =>
    intro D acc
    rw [List.foldl_cons, processNeighborsGo]
    dsimp only
    split
    · exact ih _ _
    · exact ih _ _

theorem processNeighbors_eq (D : List (String × Int)) (children : List String) :
    processNeighbors D children = processNeighborsGo D [] children :=
  processNeighbors_eq_go children D []

theorem processNeighborsGo_spec (children : List String) :
    ∀ (D : List (String × Int)) (acc : List String),
      (∀ c ∈ children, c ∈ keysOf D) →
      (∀ c ∈ acc, ∃ d, alGet D c = some d ∧ d ≤ 0) →
      acc.Nodup →
      keysOf (processNeighborsGo D acc children).1 = keysOf D ∧
      (∀ u d, alGet D u = some d →
        alGet (processNeighborsGo D acc children).1 u
          = some (d - (children.count u : Int))) ∧
      (∀ c, c ∈ (processNeighborsGo D acc children).2 ↔
        c ∈ acc ∨ ∃ d, alGet D c = some d ∧ 1 ≤ d ∧ d ≤ (children.count c : Int)) ∧
      (processNeighborsGo D acc children).2.Nodup := by
  induction children with
  | nil =>
    intro D acc hk hacc hnd
    refine ⟨rfl, ?_, ?_, hnd⟩
    · intro u d hd
      simpa using hd
    · intro c
      simp only [processNeighborsGo]
      constructor
      · exact Or.inl
      · rintro (hc | ⟨d, _, h1, h2⟩)
        · exact hc
        · simp only [List.count_nil, Nat.cast_zero] at h2
          omega
  | cons c0 cs ih =>
    intro D acc hk hacc hnd
    obtain ⟨d0, hd0⟩ := alGet_isSome_of_mem_keys (hk c0 (by simp))
    have hkey0 : c0 ∈ keysOf D := hk c0 (by simp)
    have hgd : (alGet D c0).getD 0 - 1 = d0 - 1 := by rw [hd0]; rfl
    rw [processNeighborsGo]
    rw [hgd]
    have hset : alGet (alSet D c0 (d0 - 1)) c0 = some (d0 - 1) := alGet_alSet_self D c0 _
    have hkeys' : keysOf (alSet D c0 (d0 - 1)) = keysOf D := keysOf_alSet_mem D _ hkey0
    have hk' : ∀ c ∈ cs, c ∈ keysOf (alSet D c0 (d0 - 1)) := by
      intro c hc; rw [hkeys']; exact hk c (by simp [hc])
    have hgetD' : ∀ u, alGet (alSet D c0 (d0 - 1)) u
        = if u = c0 then some (d0 - 1) else alGet D u := by
      intro u
      by_cases hu : u = c0
      · rw [if_pos hu, hu]; exact hset
      · rw [if_neg hu]; exact alGet_alSet_ne D _ hu
    have hcount : ∀ u : String, ((c0 :: cs).count u : Int)
        = (cs.count u : Int) + (if u = c0 then 1 else 0) := by
      intro u
      by_cases hu : u = c0
      · rw [if_pos hu, hu, List.count_cons_self]
        push_cast
        omega
      · rw [if_neg hu, List.count_cons_of_ne hu]
        omega
    have hpoint : ∀ u d, alGet D u = some d →
        alGet (alSet D c0 (d0 - 1)) u = some (if u = c0 then d0 - 1 else d) := by
      intro u d hd
      rw [hgetD' u]
      split
      · rfl
      · exact hd
    have hvaleq : ∀ d, alGet D c0 = some d → d = d0 := by
      intro d hd
      rw [hd0] at hd
      exact (Option.some.inj hd).symm
    by_cases hzero : d0 - 1 = 0
    · have hcond : (alGet (alSet D c0 (d0 - 1)) c0 == some 0) = true := by
        rw [hset, hzero]; rfl
      rw [if_pos hcond]
      have hacc' : ∀ c ∈ acc ++ [c0],
          ∃ d, alGet (alSet D c0 (d0 - 1)) c = some d ∧ d ≤ 0 := by
        intro c hc
        rw [hgetD' c]
        by_cases hcc : c = c0
        · rw [if_pos hcc]
          exact ⟨d0 - 1, rfl, by omega⟩
        · rw [if_neg hcc]
          rcases List.mem_append.mp hc with hc | hc
          · exact hacc c hc
          · simp only [List.mem_singleton] at hc
            exact absurd hc hcc
      have hnd' : (acc ++ [c0]).Nodup := by
        rw [List.nodup_append]
        refine ⟨hnd, List.nodup_singleton c0, ?_⟩
        intro a ha hb
        simp only [List.mem_singleton] at hb
        rcases hacc a ha with ⟨d, hd, hdle⟩
        rw [hb] at hd
        have := hvaleq d hd
        omega
      obtain ⟨g1, g2, g3, g4⟩ := ih _ _ hk' hacc' hnd'
      refine ⟨by rw [g1, hkeys'], ?_, ?_, g4⟩
      · intro u d hd
        have hres := g2 u _ (hpoint u d hd)
        rw [hres]
        congr 1
        rw [hcount u]
        by_cases hu : u = c0
        · have hdd : d = d0 := hvaleq d (by rw [← hu]; exact hd)
          simp only [if_pos hu]
          omega
        · simp only [if_neg hu]
          omega
      · intro c
        rw [g3 c]
        simp only [List.mem_append, List.mem_singleton]
        rw [hgetD' c, hcount c]
        by_cases hc : c = c0
        · rw [if_pos hc, if_pos hc]
          constructor
          · rintro ((h | h) | ⟨d, hd, h1, h2⟩)
            · exact Or.inl h
            · exact Or.inr ⟨d0, by rw [hc]; exact hd0, by omega, by omega⟩
            · cases hd
              omega
          · rintro (h | ⟨d, hd, h1, h2⟩)
            · exact Or.inl (Or.inl h)
            · exact Or.inl (Or.inr hc)
        · rw [if_neg hc, if_neg hc]
          constructor
          · rintro ((h | h) | ⟨d, hd, h1, h2⟩)
            · exact Or.inl h
            · exact absurd h hc
            · exact Or.inr ⟨d, hd, h1, by omega⟩
          · rintro (h | ⟨d, hd, h1, h2⟩)
            · exact Or.inl (Or.inl h)
            · exact Or.inr ⟨d, hd, h1, by omega⟩
    · have hcondval : alGet (alSet D c0 (d0 - 1)) c0 ≠ some 0 := by
        rw [hset]
        intro hh
        exact hzero (Option.some.inj hh)
      have hcond : (alGet (alSet D c0 (d0 - 1)) c0 == some 0) = false := by
        simpa using hcondval
      rw [if_neg (by rw [hcond]; simp)]
      have hacc' : ∀ c ∈ acc, ∃ d, alGet (alSet D c0 (d0 - 1)) c = some d ∧ d ≤ 0 := by
        intro c hc
        rw [hgetD' c]
        rcases hacc c hc with ⟨d, hd, hdle⟩
        by_cases hcc : c = c0
        · rw [if_pos hcc]
          have hdd : d = d0 := hvaleq d (by rw [← hcc]; exact hd)
          exact ⟨d0 - 1, rfl, by omega⟩
        · rw [if_neg hcc]
          exact ⟨d, hd, hdle⟩
      obtain ⟨g1, g2, g3, g4⟩ := ih _ _ hk' hacc' hnd
      refine ⟨by rw [g1, hkeys'], ?_, ?_, g4⟩
      · intro u d hd
        have hres := g2 u _ (hpoint u d hd)
        rw [hres]
        congr 1
        rw [hcount u]
        by_cases hu : u = c0
        · have hdd : d = d0 := hvaleq d (by rw [← hu]; exact hd)
          simp only [if_pos hu]
          omega
        · simp only [if_neg hu]
          omega
      · intro c
        rw [g3 c]
        rw [hgetD' c, hcount c]
        by_cases hc : c = c0
        · rw [if_pos hc, if_pos hc]
          constructor
          · rintro (h | ⟨d, hd, h1, h2⟩)
            · exact Or.inl h
            · cases hd
              exact Or.inr ⟨d0, by rw [hc]; exact hd0, by omega, by omega⟩
          · rintro (h | ⟨d, hd, h1, h2⟩)
            · exact Or.inl h
            · have hdd : d = d0 := hvaleq d (by rw [← hc]; exact hd)
              exact Or.inr ⟨d0 - 1, rfl, by omega, by omega⟩
        · rw [if_neg hc, if_neg hc]
          constructor
          · rintro (h | ⟨d, hd, h1, h2⟩)
            · exact Or.inl h
            · exact Or.inr ⟨d, hd, h1, by omega⟩
          · rintro (h | ⟨d, hd, h1, h2⟩)
            · exact Or.inl h
            · exact Or.inr ⟨d, hd, h1, by omega⟩

/-- Characterization of one neighbor pass starting from the empty queue. -/
theorem processNeighbors_spec {D : List (String × Int)} {children : List String}
    (hk : ∀ c ∈ children, c ∈ keysOf D) :
    keysOf (processNeighbors D children).1 = keysOf D ∧
    (∀ u d, alGet D u = some d →
      alGet (processNeighbors D children).1 u = some (d - (children.count u : Int))) ∧
    (∀ c, c ∈ (processNeighbors D children).2 ↔
      ∃ d, alGet D c = some d ∧ 1 ≤ d ∧ d ≤ (children.count c : Int)) ∧
    (processNeighbors D children).2.Nodup := by
  rw [processNeighbors_eq]
  obtain ⟨g1, g2, g3, g4⟩ := processNeighborsGo_spec children D []
    hk (by simp) List.Pairwise.nil
  refine ⟨g1, g2, ?_, g4⟩
  intro c
  rw [g3 c]
  simp

/-! ## Kahn loop invariant -/

theorem alGet_entry_mem {m : List (String × α)} {k : String} {v : α}
    (h : alGet m k = some v) : (k, v) ∈ m := by
  simp only [alGet, Option.map_eq_some'] at h
  rcases h with ⟨p, hp, hv⟩
  have hmem := List.mem_of_find?_eq_some hp
  have hk := List.find?_some hp
  simp only [beq_iff_eq] at hk
  have : p = (k, v) := by
    cases p
    simp only at hk hv
    simp [hk, hv]
  rwa [this] at hmem

/-- Invariant of the Kahn loop state: `Q` the queue, `D` the in-degree map,
`S` the output so far. -/
structure KahnInv (adj : List (String × List String)) (Q : List String)
    (D : List (String × Int)) (S : List String) : Prop where
  nodup : (S ++ Q).Nodup
  keysAdjD : keysOf adj = keysOf D
  keysNodup : (keysOf D).Nodup
  childSub : ∀ pr ∈ adj, ∀ c ∈ pr.2, c ∈ keysOf D
  degEq : ∀ u ∈ keysOf D,
    alGet D u = some ((adjCount adj u : Int) - (processedEdges adj S u : Int))
  nonpos : ∀ u ∈ S ++ Q, ∀ d, alGet D u = some d → d ≤ 0
  zeroIn : ∀ u, alGet D u = some 0 → u ∈ S ++ Q
  qParents : ∀ u ∈ Q, ∀ p, edgeAdj adj p u → p ∈ S
  sParents : ∀ n, (hn : n < S.length) → ∀ p, edgeAdj adj p S[n] → p ∈ S.take n
  sub : ∀ u ∈ S ++ Q, u ∈ keysOf D

theorem childrenOf_sub_keys {adj : List (String × List String)}
    {D : List (String × Int)}
    (hcs : ∀ pr ∈ adj, ∀ c ∈ pr.2, c ∈ keysOf D) (cur : String) :
    ∀ c ∈ childrenOf adj cur, c ∈ keysOf D := by
  intro c hc
  rw [childrenOf] at hc
  cases hg : alGet adj cur with
  | none => rw [hg] at hc; simp at hc
  | some v =>
    rw [hg] at hc
    simp only [Option.getD_some] at hc
    exact hcs (cur, v) (alGet_entry_mem hg) c hc

theorem kahnInv_step {adj : List (String × List String)} {Q : List String}
    {D : List (String × Int)} {S : List String} {cur : String}
    (inv : KahnInv adj (cur :: Q) D S) :
    KahnInv adj (Q ++ (processNeighbors D (childrenOf adj cur)).2)
      (processNeighbors D (childrenOf adj cur)).1 (S ++ [cur]) := by
  have hcurS : cur ∉ S := by
    have hnd := inv.nodup
    rw [List.nodup_append] at hnd
    intro hc
    exact hnd.2.2 hc (by simp)
  have hk : ∀ c ∈ childrenOf adj cur, c ∈ keysOf D :=
    childrenOf_sub_keys inv.childSub cur
  obtain ⟨P1, P2, P3, P4⟩ := processNeighbors_spec hk
  have hadjnd : (keysOf adj).Nodup := by rw [inv.keysAdjD]; exact inv.keysNodup
  set children := childrenOf adj cur with hchildren
  set D' := (processNeighbors D children).1 with hD'
  set nq := (processNeighbors D children).2 with hnq
  have hsetEq : ∀ u, u ∈ S ++ cur :: Q ↔ u ∈ (S ++ [cur]) ++ Q := by
    intro u
    simp only [List.mem_append, List.mem_cons, List.mem_singleton]
    tauto
  have hdisj : ∀ u ∈ nq, u ∉ S ++ cur :: Q := by
    intro u hu hmem
    rcases (P3 u).mp hu with ⟨d, hd, h1, _⟩
    have := inv.nonpos u hmem d hd
    omega
  have hprocEq : ∀ u, (processedEdges adj (S ++ [cur]) u : Int)
      = (processedEdges adj S u : Int) + (children.count u : Int) := by
    intro u
    rw [processedEdges_append_one hadjnd hcurS u]
    push_cast
    rw [hchildren]
  have hdegEq' : ∀ u ∈ keysOf D,
      alGet D' u = some ((adjCount adj u : Int) - (processedEdges adj (S ++ [cur]) u : Int)) := by
    intro u hu
    have hold := inv.degEq u hu
    have := P2 u _ hold
    rw [this, hprocEq u]
    congr 1
    omega
  have hprocLe : ∀ u, processedEdges adj (S ++ [cur]) u ≤ adjCount adj u := by
    intro u
    have := adjCount_eq_processed_add_residual adj (S ++ [cur]) u
    omega
  have hnqZero : ∀ u ∈ nq, alGet D' u = some 0 := by
    intro u hu
    rcases (P3 u).mp hu with ⟨d, hd, h1, h2⟩
    have hukeys : u ∈ keysOf D := alGet_mem_keys hd
    have hnew := hdegEq' u hukeys
    have hold := inv.degEq u hukeys
    rw [hold] at hd
    have hd' : d = (adjCount adj u : Int) - (processedEdges adj S u : Int) :=
      (Option.some.inj hd).symm
    have hle := hprocLe u
    have hpe := hprocEq u
    rw [hnew]
    congr 1
    have := P2 u _ hold
    omega
  refine ⟨?_, ?_, ?_, ?_, ?_, ?_, ?_, ?_, ?_, ?_⟩
  · -- nodup
    have hall : ((S ++ [cur]) ++ (Q ++ nq)) = (S ++ cur :: Q) ++ nq := by
      simp
    rw [hall, List.nodup_append]
    refine ⟨inv.nodup, P4, ?_⟩
    intro a ha hb
    exact hdisj a hb ha
  · exact inv.keysAdjD.trans P1.symm
  · rw [P1]; exact inv.keysNodup
  · intro pr hpr c hc
    rw [P1]
    exact inv.childSub pr hpr c hc
  · intro u hu
    rw [P1] at hu
    exact hdegEq' u hu
  · -- nonpos
    intro u hu d hd
    have hmem : u ∈ S ++ cur :: Q ∨ u ∈ nq := by
      simp only [List.mem_append, List.mem_cons, List.mem_singleton] at hu ⊢
      rcases hu with ((h | h) | (h | h)) <;> tauto
    rcases hmem with hmem | hmem
    · have hukeys : u ∈ keysOf D := inv.sub u hmem
      rcases alGet_isSome_of_mem_keys hukeys with ⟨dold, hdold⟩
      have hle := inv.nonpos u hmem dold hdold
      have := P2 u dold hdold
      rw [this] at hd
      have hval := Option.some.inj hd
      have hcnt : (0 : Int) ≤ (children.count u : Int) := Int.natCast_nonneg _
      omega
    · have := hnqZero u hmem
      rw [this] at hd
      have := Option.some.inj hd
      omega
  · -- zeroIn
    intro u hd
    have hukeys : u ∈ keysOf D := by
      rw [← P1]
      exact alGet_mem_keys hd
    rcases alGet_isSome_of_mem_keys hukeys with ⟨dold, hdold⟩
    have hnew := P2 u dold hdold
    rw [hnew] at hd
    have hval := Option.some.inj hd
    by_cases hcnt : children.count u = 0
    · have hz : dold = 0 := by
        rw [hcnt] at hval
        push_cast at hval
        omega
      have := inv.zeroIn u (by rw [← hz]; exact hdold)
      simp only [List.mem_append, List.mem_cons, List.mem_singleton] at this ⊢
      tauto
    · have hin : u ∈ nq := by
        refine (P3 u).mpr ⟨dold, hdold, ?_, ?_⟩
        · omega
        · omega
      simp only [List.mem_append]
      exact Or.inr (Or.inr hin)
  · -- qParents
    intro u hu p hedge
    rcases List.mem_append.mp hu with hu | hu
    · have := inv.qParents u (by simp [hu]) p hedge
      simp [this]
    · -- u freshly enqueued: its full in-degree is now accounted for
      have hzero := hnqZero u hu
      have hukeys : u ∈ keysOf D := by
        rcases (P3 u).mp hu with ⟨d, hd, _, _⟩
        exact alGet_mem_keys hd
      have hnew := hdegEq' u hukeys
      rw [hzero] at hnew
      have hval := Option.some.inj hnew
      have hres : residualEdges adj (S ++ [cur]) u = 0 := by
        have := adjCount_eq_processed_add_residual adj (S ++ [cur]) u
        omega
      rw [residualEdges_zero_iff] at hres
      by_contra hpn
      rw [edgeAdj, childrenOf] at hedge
      cases hg : alGet adj p with
      | none => rw [hg] at hedge; simp at hedge
      | some v =>
        rw [hg] at hedge
        simp only [Option.getD_some] at hedge
        have hcnt := hres (p, v) (alGet_entry_mem hg) hpn
        simp only at hcnt
        rw [List.count_eq_zero] at hcnt
        exact hcnt hedge
  · -- sParents
    intro n hn p hedge
    rw [List.length_append, List.length_singleton] at hn
    by_cases hns : n < S.length
    · have hget : (S ++ [cur])[n] = S[n] := by
        rw [List.getElem_append]
        rw [dif_pos hns]
      rw [hget] at hedge
      have := inv.sParents n hns p hedge
      rw [List.take_append_eq_append_take]
      exact List.mem_append.mpr (Or.inl this)
    · have hne : n = S.length := by omega
      have hget : (S ++ [cur])[n] = cur := by
        rw [List.getElem_append, dif_neg (by omega)]
        simp [hne]
      rw [hget] at hedge
      have := inv.qParents cur (by simp) p hedge
      rw [List.take_append_eq_append_take, hne]
      simp only [List.take_length, le_refl, Nat.sub_self, List.take_zero, List.append_nil]
      exact this
  · -- sub
    intro u hu
    rw [P1]
    have hsplit : u ∈ (S ++ cur :: Q) ∨ u ∈ nq := by
      simp only [List.mem_append, List.mem_cons, List.mem_singleton] at hu ⊢
      tauto
    rcases hsplit with h | h
    · exact inv.sub u h
    · rcases (P3 u).mp h with ⟨d, hd, _, _⟩
      exact alGet_mem_keys hd

theorem alGet_of_mem_nodup {m : List (String × α)} (hnd : (keysOf m).Nodup)
    {pr : String × α} (hpr : pr ∈ m) : alGet m pr.1 = some pr.2 := by
  induction m with
  | nil => simp at hpr
  | cons q rest ih =>
    simp only [keysOf, List.map_cons, List.nodup_cons] at hnd
    rcases List.mem_cons.mp hpr with rfl | hpr
    · rw [alGet_cons, if_pos rfl]
    · rw [alGet_cons]
      by_cases hq : q.1 = pr.1
      · exfalso
        refine hnd.1 ?_
        rw [hq]
        exact List.mem_map.mpr ⟨pr, hpr, rfl⟩
      · rw [if_neg hq]
        exact ih hnd.2 hpr

theorem kahnLoop_nil_queue (adj : List (String × List String)) (fuel : Nat)
    (D : List (String × Int)) (S : List String) :
    kahnLoop adj fuel [] D S = S := by
  cases fuel <;> rfl

/-- State of the Kahn loop at exit (empty queue): the output is
duplicate-free, parent-closed, and every key left out has a parent left
out. -/
theorem kahnInv_final {adj : List (String × List String)} {D : List (String × Int)}
    {S : List String} (inv : KahnInv adj [] D S) :
    S.Nodup ∧ (∀ u ∈ S, u ∈ keysOf D) ∧
    (∀ n, (hn : n < S.length) → ∀ p, edgeAdj adj p S[n] → p ∈ S.take n) ∧
    (∀ u ∈ keysOf D, u ∉ S → ∃ p, edgeAdj adj p u ∧ p ∉ S) := by
  refine ⟨by simpa using inv.nodup, fun u hu => inv.sub u (by simpa using hu),
    inv.sParents, ?_⟩
  intro u hu hnot
  rcases alGet_isSome_of_mem_keys hu with ⟨d, hd⟩
  have hdval := inv.degEq u hu
  rw [hd] at hdval
  have hdeq := Option.some.inj hdval
  have hadjnd : (keysOf adj).Nodup := by rw [inv.keysAdjD]; exact inv.keysNodup
  by_contra hno
  push_neg at hno
  have hres : residualEdges adj S u = 0 := by
    rw [residualEdges_zero_iff]
    intro pr hpr hns
    rw [List.count_eq_zero]
    intro hmem
    have hedge : edgeAdj adj pr.1 u := by
      rw [edgeAdj, childrenOf, alGet_of_mem_nodup hadjnd hpr]
      simpa using hmem
    exact hns (hno pr.1 hedge)
  have hsplit := adjCount_eq_processed_add_residual adj S u
  have hd0 : d = 0 := by omega
  have hin := inv.zeroIn u (by rw [← hd0]; exact hd)
  simp only [List.append_nil] at hin
  exact hnot hin

/-- Full correctness of the Kahn loop, given the invariant and enough fuel:
the output extends `S`, is duplicate-free inside the key set, lists every
node after all its parents, and every key left out has a parent left out. -/
theorem kahnLoop_spec (adj : List (String × List String)) :
    ∀ fuel (Q : List String) (D : List (String × Int)) (S : List String),
      KahnInv adj Q D S →
      (keysOf D).length ≤ fuel + S.length →
      ∃ Δ, kahnLoop adj fuel Q D S = S ++ Δ ∧
        (S ++ Δ).Nodup ∧
        (∀ u ∈ S ++ Δ, u ∈ keysOf D) ∧
        (∀ n, (hn : n < (S ++ Δ).length) →
          ∀ p, edgeAdj adj p (S ++ Δ)[n] → p ∈ (S ++ Δ).take n) ∧
        (∀ u ∈ keysOf D, u ∉ S ++ Δ → ∃ p, edgeAdj adj p u ∧ p ∉ S ++ Δ) := by
  intro fuel
  induction fuel with
  | zero =>
    intro Q D S inv hfuel
    cases Q with
    | nil =>
      obtain ⟨h1, h2, h3, h4⟩ := kahnInv_final inv
      exact ⟨[], by rw [kahnLoop_nil_queue, List.append_nil],
        by simpa using h1, by simpa using h2, by simpa using h3, by simpa using h4⟩
    | cons cur q =>
      exfalso
      have hndS : S.Nodup := (List.nodup_append.mp inv.nodup).1
      have hcurS : cur ∉ S := by
        have hnd := inv.nodup
        rw [List.nodup_append] at hnd
        intro hc
        exact hnd.2.2 hc (by simp)
      have hnd' : (cur :: S).Nodup := List.nodup_cons.mpr ⟨hcurS, hndS⟩
      have hsub' : ∀ u ∈ cur :: S, u ∈ keysOf D := by
        intro u hu
        rcases List.mem_cons.mp hu with rfl | hu
        · exact inv.sub u (by simp)
        · exact inv.sub u (by simp [hu])
      have hcard : (cur :: S).length ≤ (keysOf D).length := by
        have h1 : (cur :: S).toFinset.card = (cur :: S).length :=
          List.toFinset_card_of_nodup hnd'
        have h2 : (cur :: S).toFinset ⊆ (keysOf D).toFinset := by
          intro x hx
          rw [List.mem_toFinset] at hx
          rw [List.mem_toFinset]
          exact hsub' x hx
        calc (cur :: S).length = (cur :: S).toFinset.card := h1.symm
          _ ≤ (keysOf D).toFinset.card := Finset.card_le_card h2
          _ ≤ (keysOf D).length := (keysOf D).toFinset_card_le
      simp only [List.length_cons] at hcard
      omega
  | succ f ih =>
    intro Q D S inv hfuel
    cases Q with
    | nil =>
      obtain ⟨h1, h2, h3, h4⟩ := kahnInv_final inv
      exact ⟨[], by rw [kahnLoop_nil_queue, List.append_nil],
        by simpa using h1, by simpa using h2, by simpa using h3, by simpa using h4⟩
    | cons cur q =>
      have hstep : kahnLoop adj (f + 1) (cur :: q) D S
          = kahnLoop adj f (q ++ (processNeighbors D (childrenOf adj cur)).2)
            (processNeighbors D (childrenOf adj cur)).1 (S ++ [cur]) := by
        simp [kahnLoop, childrenOf, processNeighbors]
      have inv' := kahnInv_step (Q := q) inv
      have hkeysEq : keysOf (processNeighbors D (childrenOf adj cur)).1 = keysOf D :=
        inv'.keysAdjD.symm.trans inv.keysAdjD
      have hfuel' : (keysOf (processNeighbors D (childrenOf adj cur)).1).length
          ≤ f + (S ++ [cur]).length := by
        rw [hkeysEq, List.length_append, List.length_singleton]
        omega
      obtain ⟨Δ', hrun, hnd, hsub, hpar, hrest⟩ := ih _ _ _ inv' hfuel'
      have hlist : (S ++ [cur]) ++ Δ' = S ++ cur :: Δ' := by simp
      refine ⟨cur :: Δ', ?_, hlist ▸ hnd, ?_, hlist ▸ hpar, ?_⟩
      · rw [hstep, hrun]
        exact hlist
      · exact hkeysEq ▸ hlist ▸ hsub
      · exact hkeysEq ▸ hlist ▸ hrest

/-! ## buildGraph characterization -/

theorem keysOf_alSet (m : List (String × α)) (k : String) (v : α) :
    keysOf (alSet m k v) = if k ∈ keysOf m then keysOf m else keysOf m ++ [k] := by
  induction m with
  | nil => simp [alSet, keysOf]
  | cons p rest ih =>
    simp only [alSet]
    split
    · rename_i heq
      simp only [beq_iff_eq] at heq
      rw [if_pos (by simp [keysOf, heq])]
      simp [keysOf, heq]
    · rename_i hne
      simp only [beq_iff_eq] at hne
      simp only [keysOf, List.map_cons] at ih ⊢
      by_cases hk : k ∈ keysOf rest
      · rw [if_pos (by simp [keysOf] at hk ⊢; tauto)]
        rw [ih]
        rw [if_pos (by simpa [keysOf] using hk)]
      · rw [if_neg (by
          simp only [keysOf] at hk
          simp only [List.mem_cons]
          rintro (h | h)
          · exact hne h.symm
          · exact hk h)]
        rw [ih, if_neg (by simpa [keysOf] using hk)]
        simp

theorem adjCount_alSet {adj : List (String × List String)}
    (hnd : (keysOf adj).Nodup) {k : String} {v : List String}
    (hget : alGet adj k = some v) (v' : List String) (u : String) :
    adjCount (alSet adj k v') u + v.count u = adjCount adj u + v'.count u := by
  induction adj with
  | nil => simp [alGet] at hget
  | cons p rest ih =>
    simp only [keysOf, List.map_cons, List.nodup_cons] at hnd
    rw [alGet_cons] at hget
    simp only [alSet]
    by_cases hp : p.1 = k
    · have hb : (p.1 == k) = true := by simpa using hp
      rw [hb, if_pos rfl]
      rw [if_pos hp] at hget
      cases hget
      simp only [adjCount, List.map_cons, List.sum_cons]
      omega
    · have hb : (p.1 == k) = false := by simpa using hp
      rw [hb, if_neg (by simp)]
      rw [if_neg hp] at hget
      simp only [adjCount, List.map_cons, List.sum_cons]
      have hrec := ih hnd.2 hget
      simp only [adjCount] at hrec
      omega

theorem childrenOf_alSet_self {adj : List (String × List String)} (k : String)
    (v : List String) : childrenOf (alSet adj k v) k = v := by
  rw [childrenOf, alGet_alSet_self]
  rfl

theorem childrenOf_alSet_ne {adj : List (String × List String)} {k p : String}
    (v : List String) (h : p ≠ k) : childrenOf (alSet adj k v) p = childrenOf adj p := by
  rw [childrenOf, alGet_alSet_ne adj v h, childrenOf]

theorem mem_alSet {m : List (String × α)} {k : String} {v : α} {pr : String × α}
    (h : pr ∈ alSet m k v) : pr ∈ m ∨ pr = (k, v) := by
  induction m with
  | nil => simpa [alSet] using h
  | cons q rest ih =>
    simp only [alSet] at h
    split at h
    · rcases List.mem_cons.mp h with rfl | h
      · exact Or.inr rfl
      · exact Or.inl (by simp [h])
    · rcases List.mem_cons.mp h with rfl | h
      · exact Or.inl (by simp)
      · rcases ih h with h | h
        · exact Or.inl (by simp [h])
        · exact Or.inr h

/-- Effect of adding the edges of one work order, on success. -/
theorem addEdgesForOrder_ok :
    ∀ (deps : List String) (adj : List (String × List String))
      (deg : List (String × Int)) (woId : String)
      (adj' : List (String × List String)) (deg' : List (String × Int)),
      addEdgesForOrder adj deg woId deps = .ok (adj', deg') →
      keysOf adj = keysOf deg → (keysOf deg).Nodup → woId ∈ keysOf deg →
      keysOf adj' = keysOf adj ∧ keysOf deg' = keysOf deg ∧
      (∀ u d, alGet deg u = some d →
        alGet deg' u = some (d + (if u = woId then (deps.length : Int) else 0))) ∧
      (∀ u, adjCount adj' u = adjCount adj u + (if u = woId then deps.length else 0)) ∧
      (∀ p c, edgeAdj adj' p c ↔ edgeAdj adj p c ∨ (c = woId ∧ p ∈ deps)) ∧
      ((∀ pr ∈ adj, ∀ c ∈ pr.2, c ∈ keysOf deg) →
        ∀ pr ∈ adj', ∀ c ∈ pr.2, c ∈ keysOf deg) ∧
      (∀ d ∈ deps, d ∈ keysOf adj) := by
  intro deps
  induction deps with
  | nil =>
    intro adj deg woId adj' deg' h hK hN hW
    simp only [addEdgesForOrder, Except.ok.injEq, Prod.mk.injEq] at h
    obtain ⟨rfl, rfl⟩ := h
    refine ⟨rfl, rfl, ?_, ?_, ?_, fun hcs => hcs, by simp⟩
    · intro u d hd
      rw [hd]
      congr 1
      split <;> simp
    · intro u
      split <;> simp
    · intro p c
      simp
  | cons depId rest ih =>
    intro adj deg woId adj' deg' h hK hN hW
    rw [addEdgesForOrder] at h
    cases hg : alGet adj depId with
    | none => rw [hg] at h; exact absurd h (by simp)
    | some children =>
      rw [hg] at h
      obtain ⟨w, hw⟩ := alGet_isSome_of_mem_keys hW
      have hdepK : depId ∈ keysOf adj := alGet_mem_keys hg
      have hK1 : keysOf (alSet adj depId (children ++ [woId])) = keysOf adj :=
        keysOf_alSet_mem adj _ hdepK
      have hK2 : keysOf (alSet deg woId ((alGet deg woId).getD 0 + 1)) = keysOf deg :=
        keysOf_alSet_mem deg _ hW
      have hadjnd : (keysOf adj).Nodup := by rw [hK]; exact hN
      obtain ⟨g1, g2, g3, g4, g5, g6, g7⟩ := ih _ _ woId adj' deg' h
        (by rw [hK1, hK2, hK]) (by rw [hK2]; exact hN) (by rw [hK2]; exact hW)
      refine ⟨g1.trans hK1, g2.trans hK2, ?_, ?_, ?_, ?_, ?_⟩
      · intro u d hd
        have hstep : alGet (alSet deg woId ((alGet deg woId).getD 0 + 1)) u
            = some (d + (if u = woId then 1 else 0)) := by
          by_cases hu : u = woId
          · have hdw : d = w := by
              rw [hu] at hd
              rw [hd] at hw
              exact Option.some.inj hw
            rw [hu, alGet_alSet_self, hw, hdw]
            simp
          · rw [alGet_alSet_ne deg _ hu, hd]
            simp [hu]
        have := g3 u _ hstep
        rw [this]
        congr 1
        by_cases hu : u = woId
        · simp only [if_pos hu, List.length_cons]
          push_cast
          omega
        · simp only [if_neg hu]
          omega
      · intro u
        have hstep := adjCount_alSet hadjnd hg (children ++ [woId]) u
        have hrec := g4 u
        rw [hrec]
        rw [List.count_append] at hstep
        by_cases hu : u = woId
        · simp only [if_pos hu, List.length_cons]
          have hone : List.count u [woId] = 1 := by
            rw [hu]
            simp
          omega
        · simp only [if_neg hu]
          have hzero : List.count u [woId] = 0 := by
            rw [List.count_eq_zero]
            simp only [List.mem_singleton]
            exact fun hh => hu hh
          omega
      · intro p c
        rw [g5 p c]
        have hstep : edgeAdj (alSet adj depId (children ++ [woId])) p c
            ↔ edgeAdj adj p c ∨ (p = depId ∧ c = woId) := by
          rw [edgeAdj]
          by_cases hp : p = depId
          · rw [hp, childrenOf_alSet_self]
            rw [List.mem_append]
            have hch : childrenOf adj depId = children := by
              rw [childrenOf, hg]; rfl
            rw [edgeAdj, hch]
            simp
          · rw [childrenOf_alSet_ne _ hp, edgeAdj]
            simp [hp]
        rw [hstep]
        simp only [List.mem_cons]
        constructor
        · rintro ((h1 | ⟨h1, h2⟩) | ⟨h1, h2⟩)
          · exact Or.inl h1
          · exact Or.inr ⟨h2, Or.inl h1⟩
          · exact Or.inr ⟨h1, Or.inr h2⟩
        · rintro (h1 | ⟨h1, h2 | h2⟩)
          · exact Or.inl (Or.inl h1)
          · exact Or.inl (Or.inr ⟨h2, h1⟩)
          · exact Or.inr ⟨h1, h2⟩
      · intro hcs pr hpr c hc
        rw [← hK2]
        refine g6 ?_ pr hpr c hc
        intro pr2 hpr2 c2 hc2
        rw [hK2]
        rcases mem_alSet hpr2 with hm | hm
        · exact hcs pr2 hm c2 hc2
        · rw [hm] at hc2
          simp only at hc2
          rcases List.mem_append.mp hc2 with hcc | hcc
          · exact hcs (depId, children) (alGet_entry_mem hg) c2 hcc
          · simp only [List.mem_singleton] at hcc
            rw [hcc]
            exact hW
      · intro d hd
        rcases List.mem_cons.mp hd with rfl | hd
        · exact hdepK
        · rw [← hK1]
          exact g7 d hd

/-- Shape of an `addEdgesForOrder` failure. -/
theorem addEdgesForOrder_error :
    ∀ (deps : List String) (adj : List (String × List String))
      (deg : List (String × Int)) (woId : String) (e : GraphError),
      addEdgesForOrder adj deg woId deps = .error e →
      (∃ d r, e = .dependencyNotFound d r) := by
  intro deps
  induction deps with
  | nil =>
    intro adj deg woId e h
    simp [addEdgesForOrder] at h
  | cons depId rest ih =>
    intro adj deg woId e h
    rw [addEdgesForOrder] at h
    cases hg : alGet adj depId with
    | none =>
      rw [hg] at h
      simp only [Except.error.injEq] at h
      exact ⟨depId, woId, h.symm⟩
    | some children =>
      rw [hg] at h
      exact ih _ _ _ _ h

/-- `addEdgesForOrder` succeeds exactly when every dependency id is known. -/
theorem addEdgesForOrder_ok_of_known :
    ∀ (deps : List String) (adj : List (String × List String))
      (deg : List (String × Int)) (woId : String),
      (∀ d ∈ deps, d ∈ keysOf adj) →
      ∃ adj' deg', addEdgesForOrder adj deg woId deps = .ok (adj', deg') := by
  intro deps
  induction deps with
  | nil =>
    intro adj deg woId _
    exact ⟨adj, deg, rfl⟩
  | cons depId rest ih =>
    intro adj deg woId hknown
    rw [addEdgesForOrder]
    obtain ⟨children, hg⟩ := alGet_isSome_of_mem_keys (hknown depId (by simp))
    rw [hg]
    refine ih _ _ woId ?_
    intro d hd
    rw [keysOf_alSet_mem adj _ (alGet_mem_keys hg)]
    exact hknown d (by simp [hd])

/-- Effect of the whole edge loop, on success. -/
theorem addEdges_ok :
    ∀ (ws : List WorkOrderDoc) (adj : List (String × List String))
      (deg : List (String × Int))
      (adj' : List (String × List String)) (deg' : List (String × Int)),
      addEdges ws adj deg = .ok (adj', deg') →
      keysOf adj = keysOf deg → (keysOf deg).Nodup →
      (∀ wo ∈ ws, wo.docId ∈ keysOf deg) →
      keysOf adj' = keysOf adj ∧ keysOf deg' = keysOf deg ∧
      ((∀ u ∈ keysOf deg, alGet deg u = some ((adjCount adj u : Int))) →
        ∀ u ∈ keysOf deg, alGet deg' u = some ((adjCount adj' u : Int))) ∧
      (∀ p c, edgeAdj adj' p c ↔
        edgeAdj adj p c ∨ ∃ wo ∈ ws, wo.docId = c ∧ p ∈ wo.dependsOnWorkOrderIds) ∧
      ((∀ pr ∈ adj, ∀ c ∈ pr.2, c ∈ keysOf deg) →
        ∀ pr ∈ adj', ∀ c ∈ pr.2, c ∈ keysOf deg) ∧
      (∀ wo ∈ ws, ∀ d ∈ wo.dependsOnWorkOrderIds, d ∈ keysOf adj) := by
  intro ws
  induction ws with
  | nil =>
    intro adj deg adj' deg' h hK hN hW
    simp only [addEdges, Except.ok.injEq, Prod.mk.injEq] at h
    obtain ⟨rfl, rfl⟩ := h
    refine ⟨rfl, rfl, fun hh => hh, ?_, fun hh => hh, by simp⟩
    intro p c
    simp
  | cons wo rest ih =>
    intro adj deg adj' deg' h hK hN hW
    rw [addEdges] at h
    cases ho : addEdgesForOrder adj deg wo.docId wo.dependsOnWorkOrderIds with
    | error e => rw [ho] at h; exact absurd h (by simp)
    | ok res =>
      rw [ho] at h
      obtain ⟨adj1, deg1⟩ := res
      obtain ⟨g1, g2, g3, g4, g5, g6, g7⟩ := addEdgesForOrder_ok _ _ _ _ _ _ ho hK hN
        (hW wo (by simp))
      obtain ⟨f1, f2, f3, f4, f5, f6⟩ := ih adj1 deg1 adj' deg' h
        (by rw [g1, g2, hK]) (by rw [g2]; exact hN)
        (by intro wo2 hwo2; rw [g2]; exact hW wo2 (by simp [hwo2]))
      refine ⟨f1.trans g1, f2.trans g2, ?_, ?_, ?_, ?_⟩
      · intro hbase u hu
        have hu1 : u ∈ keysOf deg1 := by rw [g2]; exact hu
        have hconc := f3 ?_ u hu1
        · exact hconc
        intro u2 hu2
        have hu2d : u2 ∈ keysOf deg := by rw [← g2]; exact hu2
        have hstep := g3 u2 _ (hbase u2 hu2d)
        rw [hstep, g4 u2]
        congr 1
        by_cases hcase : u2 = wo.docId
        · simp only [if_pos hcase]
          push_cast
          omega
        · simp only [if_neg hcase]
          push_cast
          omega
      · intro p c
        rw [f4 p c, g5 p c]
        simp only [List.mem_cons]
        constructor
        · rintro ((h1 | ⟨h1, h2⟩) | ⟨wo2, hw2, h1, h2⟩)
          · exact Or.inl h1
          · exact Or.inr ⟨wo, Or.inl rfl, h1.symm, h2⟩
          · exact Or.inr ⟨wo2, Or.inr hw2, h1, h2⟩
        · rintro (h1 | ⟨wo2, hw2 | hw2, h1, h2⟩)
          · exact Or.inl (Or.inl h1)
          · exact Or.inl (Or.inr ⟨(hw2 ▸ h1).symm, hw2 ▸ h2⟩)
          · exact Or.inr ⟨wo2, hw2, h1, h2⟩
      · intro hcs pr hpr c hc
        rw [← g2]
        refine f5 ?_ pr hpr c hc
        intro pr2 hpr2 c2 hc2
        rw [g2]
        exact g6 hcs pr2 hpr2 c2 hc2
      · intro wo2 hw2 d hd
        rcases List.mem_cons.mp hw2 with rfl | hw2
        · exact g7 d hd
        · rw [← g1]
          exact f6 wo2 hw2 d hd

/-- Shape of an `addEdges` failure, and its cause. -/
theorem addEdges_error :
    ∀ (ws : List WorkOrderDoc) (adj : List (String × List String))
      (deg : List (String × Int)) (e : GraphError),
      addEdges ws adj deg = .error e →
      ∃ d r, e = .dependencyNotFound d r := by
  intro ws
  induction ws with
  | nil =>
    intro adj deg e h
    simp [addEdges] at h
  | cons wo rest ih =>
    intro adj deg e h
    rw [addEdges] at h
    cases ho : addEdgesForOrder adj deg wo.docId wo.dependsOnWorkOrderIds with
    | error e2 =>
      rw [ho] at h
      simp only [Except.error.injEq] at h
      rw [← h]
      exact addEdgesForOrder_error _ _ _ _ _ ho
    | ok res =>
      rw [ho] at h
      obtain ⟨adj1, deg1⟩ := res
      exact ih _ _ _ h

/-- Characterization of the initialization loop of `buildGraph`. -/
theorem initGraphMapsGo_spec :
    ∀ (wos : List WorkOrderDoc) (a : List (String × List String))
      (d : List (String × Int)),
      keysOf a = keysOf d → (keysOf d).Nodup →
      (∀ u ∈ keysOf d, alGet a u = some [] ∧ alGet d u = some 0) →
      keysOf (wos.foldl
          (fun (m : List (String × List String) × List (String × Int)) wo =>
            (alSet m.1 wo.docId [], alSet m.2 wo.docId 0)) (a, d)).1
        = keysOf (wos.foldl
          (fun (m : List (String × List String) × List (String × Int)) wo =>
            (alSet m.1 wo.docId [], alSet m.2 wo.docId 0)) (a, d)).2 ∧
      (keysOf (wos.foldl
          (fun (m : List (String × List String) × List (String × Int)) wo =>
            (alSet m.1 wo.docId [], alSet m.2 wo.docId 0)) (a, d)).2).Nodup ∧
      (∀ u, u ∈ keysOf (wos.foldl
          (fun (m : List (String × List String) × List (String × Int)) wo =>
            (alSet m.1 wo.docId [], alSet m.2 wo.docId 0)) (a, d)).2
        ↔ u ∈ keysOf d ∨ u ∈ wos.map (·.docId)) ∧
      (∀ u ∈ keysOf (wos.foldl
          (fun (m : List (String × List String) × List (String × Int)) wo =>
            (alSet m.1 wo.docId [], alSet m.2 wo.docId 0)) (a, d)).2,
        alGet (wos.foldl
          (fun (m : List (String × List String) × List (String × Int)) wo =>
            (alSet m.1 wo.docId [], alSet m.2 wo.docId 0)) (a, d)).1 u = some []
        ∧ alGet (wos.foldl
          (fun (m : List (String × List String) × List (String × Int)) wo =>
            (alSet m.1 wo.docId [], alSet m.2 wo.docId 0)) (a, d)).2 u = some 0) := by
  intro wos
  induction wos with
  | nil =>
    intro a d hK hN hV
    exact ⟨hK, hN, fun u => by simp, hV⟩
  | cons wo rest ih =>
    intro a d hK hN hV
    simp only [List.foldl_cons]
    have hKa : keysOf (alSet a wo.docId ([] : List String))
        = if wo.docId ∈ keysOf a then keysOf a else keysOf a ++ [wo.docId] :=
      keysOf_alSet a wo.docId []
    have hKd : keysOf (alSet d wo.docId (0 : Int))
        = if wo.docId ∈ keysOf d then keysOf d else keysOf d ++ [wo.docId] :=
      keysOf_alSet d wo.docId 0
    have hK1 : keysOf (alSet a wo.docId ([] : List String))
        = keysOf (alSet d wo.docId (0 : Int)) := by
      rw [hKa, hKd, hK]
    have hKset : ∀ u, u ∈ keysOf (alSet d wo.docId (0 : Int))
        ↔ u ∈ keysOf d ∨ u = wo.docId := by
      intro u
      rw [hKd]
      split
      · rename_i hin
        constructor
        · exact Or.inl
        · rintro (h | h)
          · exact h
          · rw [h]; exact hin
      · simp
    have hN1 : (keysOf (alSet d wo.docId (0 : Int))).Nodup := by
      rw [hKd]
      split
      · exact hN
      · rename_i hnin
        rw [List.nodup_append]
        exact ⟨hN, List.nodup_singleton _, by
          intro x hx hx2
          simp only [List.mem_singleton] at hx2
          rw [hx2] at hx
          exact hnin hx⟩
    have hV1 : ∀ u ∈ keysOf (alSet d wo.docId (0 : Int)),
        alGet (alSet a wo.docId ([] : List String)) u = some []
        ∧ alGet (alSet d wo.docId (0 : Int)) u = some 0 := by
      intro u hu
      by_cases huw : u = wo.docId
      · rw [huw]
        exact ⟨alGet_alSet_self a _ _, alGet_alSet_self d _ _⟩
      · rw [alGet_alSet_ne a _ huw, alGet_alSet_ne d _ huw]
        rcases (hKset u).mp hu with h | h
        · exact hV u h
        · exact absurd h huw
    obtain ⟨j1, j2, j3, j4⟩ := ih _ _ hK1 hN1 hV1
    refine ⟨j1, j2, ?_, j4⟩
    intro u
    rw [j3 u, hKset u]
    simp only [List.map_cons, List.mem_cons]
    tauto

/-- All the facts about `buildGraph` needed downstream, on success. -/
theorem buildGraph_ok {workOrders : List WorkOrderDoc}
    {adj : List (String × List String)} {deg : List (String × Int)}
    (h : buildGraph workOrders = .ok (adj, deg)) :
    keysOf adj = keysOf deg ∧ (keysOf deg).Nodup ∧
    (∀ u, u ∈ keysOf deg ↔ u ∈ workOrders.map (·.docId)) ∧
    (∀ u ∈ keysOf deg, alGet deg u = some ((adjCount adj u : Int))) ∧
    (∀ p c, edgeAdj adj p c ↔ depEdge workOrders p c) ∧
    (∀ pr ∈ adj, ∀ c ∈ pr.2, c ∈ keysOf deg) ∧
    (∀ wo ∈ workOrders, ∀ d ∈ wo.dependsOnWorkOrderIds,
      d ∈ workOrders.map (·.docId)) := by
  rw [buildGraph] at h
  obtain ⟨i1, i2, i3, i4⟩ := initGraphMapsGo_spec workOrders [] []
    rfl List.Pairwise.nil (by simp [keysOf])
  have hinit : initGraphMaps workOrders
      = workOrders.foldl
        (fun (m : List (String × List String) × List (String × Int)) wo =>
          (alSet m.1 wo.docId [], alSet m.2 wo.docId 0)) ([], []) := rfl
  rw [← hinit] at i1 i2 i3 i4
  set a0 := (initGraphMaps workOrders).1 with ha0
  set d0 := (initGraphMaps workOrders).2 with hd0
  have hWids : ∀ wo ∈ workOrders, wo.docId ∈ keysOf d0 := by
    intro wo hwo
    rw [i3]
    right
    exact List.mem_map.mpr ⟨wo, hwo, rfl⟩
  obtain ⟨f1, f2, f3, f4, f5, f6⟩ := addEdges_ok workOrders a0 d0 adj deg h i1 i2 hWids
  have hvals : ∀ u ∈ keysOf d0, alGet d0 u = some ((adjCount a0 u : Int)) := by
    intro u hu
    have hv := (i4 u hu).2
    have hz : adjCount a0 u = 0 := by
      rw [adjCount, List.sum_eq_zero_iff]
      intro x hx
      rcases List.mem_map.mp hx with ⟨pr, hpr, rfl⟩
      have hprk : pr.1 ∈ keysOf a0 := List.mem_map.mpr ⟨pr, hpr, rfl⟩
      have hget := alGet_of_mem_nodup (by rw [i1]; exact i2) hpr
      have hgv := (i4 pr.1 (by rw [← i1]; exact hprk)).1
      rw [hget] at hgv
      have : pr.2 = [] := Option.some.inj hgv
      rw [this]
      simp
    rw [hz, hv]
    simp
  refine ⟨?_, ?_, ?_, ?_, ?_, ?_, ?_⟩
  · rw [f1, f2, i1]
  · rw [f2]; exact i2
  · intro u
    rw [f2, i3]
    simp [keysOf]
  · intro u hu
    rw [f2] at hu
    exact f3 hvals u hu
  · intro p c
    rw [f4 p c, depEdge]
    have hnoedge : ¬ edgeAdj a0 p c := by
      rw [edgeAdj, childrenOf]
      cases hg : alGet a0 p with
      | none => simp
      | some v =>
        have hv := (i4 p (by rw [← i1]; exact alGet_mem_keys hg)).1
        rw [hg] at hv
        have : v = [] := Option.some.inj hv
        rw [this]
        simp
    simp only [hnoedge, false_or]
  · intro pr hpr c hc
    rw [f2] at *
    refine f5 ?_ pr hpr c hc
    intro pr2 hpr2 c2 hc2
    have hv := (i4 pr2.1 (by rw [← i1]; exact List.mem_map.mpr ⟨pr2, hpr2, rfl⟩)).1
    have hget := alGet_of_mem_nodup (by rw [i1]; exact i2) hpr2
    rw [hget] at hv
    have : pr2.2 = [] := Option.some.inj hv
    rw [this] at hc2
    simp at hc2
  · intro wo hwo d hd
    have hm := f6 wo hwo d hd
    rw [i1] at hm
    rcases (i3 d).mp hm with hbad | hgood
    · simp [keysOf] at hbad
    · exact hgood

/-! ## Seeds and the initial invariant -/

theorem mem_kahnSeed {deg : List (String × Int)} (hnd : (keysOf deg).Nodup) (u : String) :
    u ∈ kahnSeed deg ↔ alGet deg u = some 0 := by
  rw [kahnSeed]
  constructor
  · intro hu
    rcases List.mem_map.mp hu with ⟨pr, hpr, rfl⟩
    have hmem := List.mem_of_mem_filter hpr
    have hval := List.of_mem_filter hpr
    simp only [beq_iff_eq] at hval
    rw [alGet_of_mem_nodup hnd hmem, hval]
  · intro hget
    exact List.mem_map.mpr ⟨(u, 0), List.mem_filter.mpr ⟨alGet_entry_mem hget, by simp⟩, rfl⟩

theorem kahnSeed_nodup {deg : List (String × Int)} (hnd : (keysOf deg).Nodup) :
    (kahnSeed deg).Nodup :=
  List.Nodup.sublist (List.Sublist.map _ (List.filter_sublist deg)) hnd

/-- The initial state of the Kahn loop satisfies the invariant. -/
theorem kahnInv_init {workOrders : List WorkOrderDoc}
    {adj : List (String × List String)} {deg : List (String × Int)}
    (h : buildGraph workOrders = .ok (adj, deg)) :
    KahnInv adj (kahnSeed deg) deg [] := by
  obtain ⟨B1, B2, B3, B4, B5, B6, B7⟩ := buildGraph_ok h
  have hseedmem : ∀ u, u ∈ kahnSeed deg ↔ alGet deg u = some 0 := mem_kahnSeed B2
  have hnoParent : ∀ u, alGet deg u = some 0 → ∀ p, ¬ edgeAdj adj p u := by
    intro u hget p hedge
    have hu : u ∈ keysOf deg := alGet_mem_keys hget
    have hval := B4 u hu
    rw [hget] at hval
    have hz : adjCount adj u = 0 := by
      have := Option.some.inj hval
      omega
    rw [edgeAdj, childrenOf] at hedge
    cases hg : alGet adj p with
    | none => rw [hg] at hedge; simp at hedge
    | some v =>
      rw [hg] at hedge
      simp only [Option.getD_some] at hedge
      rw [adjCount, List.sum_eq_zero_iff] at hz
      have := hz (v.count u) (List.mem_map.mpr ⟨(p, v), alGet_entry_mem hg, rfl⟩)
      rw [List.count_eq_zero] at this
      exact this hedge
  refine ⟨?_, B1, B2, B6, ?_, ?_, ?_, ?_, ?_, ?_⟩
  · simpa using kahnSeed_nodup B2
  · intro u hu
    rw [B4 u hu]
    rw [processedEdges_nil]
    simp
  · intro u hu d hd
    simp only [List.nil_append] at hu
    rw [(hseedmem u).mp hu] at hd
    have := Option.some.inj hd
    omega
  · intro u hd
    simp only [List.nil_append]
    exact (hseedmem u).mpr hd
  · intro u hu p hedge
    exact absurd hedge (hnoParent u ((hseedmem u).mp hu) p)
  · intro n hn
    simp at hn
  · intro u hu
    simp only [List.nil_append] at hu
    exact alGet_mem_keys ((hseedmem u).mp hu)

/-! ## Index bookkeeping for the order property -/

theorem indexOf_lt_of_mem_take {l : List String} {p : String} {n : Nat}
    (h : p ∈ l.take n) : l.indexOf p < n := by
  induction l generalizing n with
  | nil => simp at h
  | cons a l ih =>
    cases n with
    | zero => simp at h
    | succ m =>
      rw [List.take_succ_cons] at h
      rw [List.indexOf_cons]
      by_cases hap : a = p
      · have hb : (a == p) = true := by simp [hap]
        rw [hb]
        simp
      · have hb : (a == p) = false := by simp [hap]
        rw [hb]
        simp only [cond_false]
        rcases List.mem_cons.mp h with heq | h
        · exact absurd heq.symm hap
        · exact Nat.succ_lt_succ (ih h)

theorem take_subset_self {l : List String} {n : Nat} : l.take n ⊆ l :=
  List.take_subset n l

/-- Single-edge consequence of the parent-closed order property. -/
theorem parentClosed_step {R : List String} {r : String → String → Prop}
    (_hnd : R.Nodup)
    (hpar : ∀ n, (hn : n < R.length) → ∀ p, r p R[n] → p ∈ R.take n) :
    ∀ x y, r x y → y ∈ R → x ∈ R ∧ R.indexOf x < R.indexOf y := by
  intro x y hr hy
  have hn : R.indexOf y < R.length := List.indexOf_lt_length.mpr hy
  have hget : R[R.indexOf y] = y := List.getElem_indexOf hn
  have hx := hpar (R.indexOf y) hn x (by rw [hget]; exact hr)
  exact ⟨take_subset_self hx, indexOf_lt_of_mem_take hx⟩

/-- Transitive closure of the parent-closed order property. -/
theorem parentClosed_transGen {R : List String} {r : String → String → Prop}
    (hnd : R.Nodup)
    (hpar : ∀ n, (hn : n < R.length) → ∀ p, r p R[n] → p ∈ R.take n) :
    ∀ x y, Relation.TransGen r x y → y ∈ R → x ∈ R ∧ R.indexOf x < R.indexOf y := by
  intro x y h
  induction h with
  | single h1 =>
    intro hy
    exact parentClosed_step hnd hpar _ _ h1 hy
  | tail hab hbc ih =>
    intro hy
    obtain ⟨hb, hlt⟩ := parentClosed_step hnd hpar _ _ hbc hy
    obtain ⟨hx, hlt2⟩ := ih hb
    exact ⟨hx, by omega⟩

/-- Any finite nonempty set in which every element has a predecessor contains
a cycle of the relation. -/
theorem transGen_cycle_of_forall_pred {r : String → String → Prop} {M : List String}
    (hne : M ≠ []) (hstep : ∀ u ∈ M, ∃ p, p ∈ M ∧ r p u) :
    ∃ x, Relation.TransGen r x x := by
  obtain ⟨u0, hu0⟩ : ∃ u, u ∈ M := by
    cases M with
    | nil => exact absurd rfl hne
    | cons a l => exact ⟨a, by simp⟩
  classical
  let f : Nat → {x // x ∈ M} := fun n =>
    Nat.rec ⟨u0, hu0⟩
      (fun _ prev => ⟨(hstep prev.1 prev.2).choose, (hstep prev.1 prev.2).choose_spec.1⟩) n
  have hf : ∀ n, r (f (n + 1)).1 (f n).1 := fun n =>
    (hstep (f n).1 (f n).2).choose_spec.2
  have hchain : ∀ i k, Relation.TransGen r (f (i + k + 1)).1 (f i).1 := by
    intro i k
    induction k with
    | zero => exact Relation.TransGen.single (hf i)
    | succ m ihm =>
      have hstep2 : r (f (i + m + 2)).1 (f (i + m + 1)).1 := hf (i + m + 1)
      have : Relation.TransGen r (f (i + m + 2)).1 (f i).1 :=
        Relation.TransGen.head hstep2 ihm
      have harith : i + (m + 1) + 1 = i + m + 2 := by omega
      rw [harith]
      exact this
  have hcard : M.toFinset.card < (Finset.range (M.length + 1)).card := by
    rw [Finset.card_range]
    have := M.toFinset_card_le
    omega
  obtain ⟨i, _, j, _, hij, heq⟩ :=
    Finset.exists_ne_map_eq_of_card_lt_of_maps_to hcard
      (f := fun n => (f n).1) (fun a _ => List.mem_toFinset.mpr (f a).2)
  rcases Nat.lt_or_ge i j with hlt | hge
  · obtain ⟨k, rfl⟩ : ∃ k, j = i + k + 1 := ⟨j - i - 1, by omega⟩
    exact ⟨(f i).1, heq ▸ hchain i k⟩
  · have hlt : j < i := by omega
    obtain ⟨k, rfl⟩ : ∃ k, i = j + k + 1 := ⟨i - j - 1, by omega⟩
    exact ⟨(f j).1, heq ▸ hchain j k⟩

/-! ## getTopologicalOrder: master theorems -/

theorem addEdges_ok_of_known :
    ∀ (ws : List WorkOrderDoc) (adj : List (String × List String))
      (deg : List (String × Int)),
      keysOf adj = keysOf deg → (keysOf deg).Nodup →
      (∀ wo ∈ ws, wo.docId ∈ keysOf deg) →
      (∀ wo ∈ ws, ∀ d ∈ wo.dependsOnWorkOrderIds, d ∈ keysOf adj) →
      ∃ adj' deg', addEdges ws adj deg = .ok (adj', deg') := by
  intro ws
  induction ws with
  | nil =>
    intro adj deg _ _ _ _
    exact ⟨adj, deg, rfl⟩
  | cons wo rest ih =>
    intro adj deg hK hN hW hknown
    obtain ⟨adj1, deg1, h1⟩ := addEdgesForOrder_ok_of_known
      wo.dependsOnWorkOrderIds adj deg wo.docId (hknown wo (by simp))
    obtain ⟨g1, g2, _, _, _, _, _⟩ := addEdgesForOrder_ok _ _ _ _ _ _ h1 hK hN
      (hW wo (by simp))
    rw [addEdges, h1]
    refine ih adj1 deg1 (by rw [g1, g2, hK]) (by rw [g2]; exact hN)
      (fun wo2 hwo2 => by rw [g2]; exact hW wo2 (by simp [hwo2]))
      (fun wo2 hwo2 d hd => by rw [g1]; exact hknown wo2 (by simp [hwo2]) d hd)

/-- When every dependency id exists, the graph builds. -/
theorem buildGraph_ok_of_known {workOrders : List WorkOrderDoc}
    (hknown : ∀ wo ∈ workOrders, ∀ d ∈ wo.dependsOnWorkOrderIds,
      d ∈ workOrders.map (·.docId)) :
    ∃ adj deg, buildGraph workOrders = .ok (adj, deg) := by
  obtain ⟨i1, i2, i3, _⟩ := initGraphMapsGo_spec workOrders [] []
    rfl List.Pairwise.nil (by simp [keysOf])
  have hinit : initGraphMaps workOrders
      = workOrders.foldl
        (fun (m : List (String × List String) × List (String × Int)) wo =>
          (alSet m.1 wo.docId [], alSet m.2 wo.docId 0)) ([], []) := rfl
  rw [← hinit] at i1 i2 i3
  have hmem : ∀ u, u ∈ keysOf (initGraphMaps workOrders).2
      ↔ u ∈ workOrders.map (·.docId) := by
    intro u
    rw [i3]
    simp [keysOf]
  obtain ⟨adj, deg, hrun⟩ := addEdges_ok_of_known workOrders
    (initGraphMaps workOrders).1 (initGraphMaps workOrders).2 i1 i2
    (fun wo hwo => (hmem wo.docId).mpr (List.mem_map.mpr ⟨wo, hwo, rfl⟩))
    (fun wo hwo d hd => by
      rw [i1]
      exact (hmem d).mpr (hknown wo hwo d hd))
  exact ⟨adj, deg, by rw [buildGraph]; exact hrun⟩

/-- Facts available whenever `getTopologicalOrder` succeeds. -/
theorem getTopologicalOrder_ok {workOrders : List WorkOrderDoc} {order : List String}
    (h : getTopologicalOrder workOrders = .ok order) :
    order.Nodup ∧ order.length = workOrders.length ∧
    (∀ u ∈ order, u ∈ workOrders.map (·.docId)) ∧
    (∀ n, (hn : n < order.length) → ∀ p, depEdge workOrders p order[n] →
      p ∈ order.take n) ∧
    (∀ u ∈ workOrders.map (·.docId), u ∉ order →
      ∃ p, depEdge workOrders p u ∧ p ∉ order) := by
  rw [getTopologicalOrder] at h
  cases hbg : buildGraph workOrders with
  | error e => rw [hbg] at h; exact absurd h (by simp)
  | ok res =>
    rw [hbg] at h
    obtain ⟨adj, deg⟩ := res
    obtain ⟨B1, B2, B3, B4, B5, B6, B7⟩ := buildGraph_ok hbg
    have hinv := kahnInv_init hbg
    have hkeylen : (keysOf deg).length ≤ workOrders.length := by
      calc (keysOf deg).length = (keysOf deg).toFinset.card :=
            (List.toFinset_card_of_nodup B2).symm
        _ ≤ (workOrders.map (·.docId)).toFinset.card := Finset.card_le_card (by
            intro x hx
            rw [List.mem_toFinset] at hx ⊢
            exact (B3 x).mp hx)
        _ ≤ (workOrders.map (·.docId)).length := List.toFinset_card_le _
        _ = workOrders.length := List.length_map _ _
    obtain ⟨Δ, hrun, hnd, hsub, hpar, hrest⟩ := kahnLoop_spec adj workOrders.length
      (kahnSeed deg) deg [] hinv (by simpa using hkeylen)
    simp only [List.nil_append] at hrun hnd hsub hpar hrest
    dsimp only at h
    rw [hrun] at h
    split at h
    · exact absurd h (by simp)
    · rename_i hlen
      push_neg at hlen
      simp only [Except.ok.injEq] at h
      rw [← h]
      refine ⟨hnd, hlen, ?_, ?_, ?_⟩
      · intro u hu
        exact (B3 u).mp (hsub u hu)
      · intro n hn p hedge
        exact hpar n hn p ((B5 p Δ[n]).mpr hedge)
      · intro u hu hnot
        rcases hrest u ((B3 u).mpr hu) hnot with ⟨p, hpe, hpn⟩
        exact ⟨p, (B5 p u).mp hpe, hpn⟩

/-- Unknown dependency ids make the dependency stage fail with
`dependencyNotFound`, before any ordering is produced. -/
theorem getTopologicalOrder_unknown {workOrders : List WorkOrderDoc}
    (hbad : ∃ wo ∈ workOrders, ∃ d ∈ wo.dependsOnWorkOrderIds,
      d ∉ workOrders.map (·.docId)) :
    ∃ d r, getTopologicalOrder workOrders = .error (.dependencyNotFound d r) := by
  rw [getTopologicalOrder]
  cases hbg : buildGraph workOrders with
  | ok res =>
    exfalso
    obtain ⟨adj, deg⟩ := res
    obtain ⟨_, _, _, _, _, _, B7⟩ := buildGraph_ok hbg
    rcases hbad with ⟨wo, hwo, d, hd, hnot⟩
    exact hnot (B7 wo hwo d hd)
  | error e =>
    have hshape : ∃ d r, e = .dependencyNotFound d r := by
      rw [buildGraph] at hbg
      exact addEdges_error _ _ _ _ hbg
    rcases hshape with ⟨d, r, rfl⟩
    exact ⟨d, r, by simp⟩

/-- A dependency cycle makes the dependency stage fail with `cycleDetected`
(provided every referenced id exists, so that the graph builds at all). -/
theorem getTopologicalOrder_cycle {workOrders : List WorkOrderDoc}
    (hknown : ∀ wo ∈ workOrders, ∀ d ∈ wo.dependsOnWorkOrderIds,
      d ∈ workOrders.map (·.docId))
    (hcyc : ∃ x, Relation.TransGen (depEdge workOrders) x x) :
    getTopologicalOrder workOrders = .error .cycleDetected := by
  obtain ⟨adj, deg, hbg⟩ := buildGraph_ok_of_known hknown
  obtain ⟨B1, B2, B3, B4, B5, B6, B7⟩ := buildGraph_ok hbg
  rw [getTopologicalOrder, hbg]
  have hinv := kahnInv_init hbg
  have hkeylen : (keysOf deg).length ≤ workOrders.length := by
    calc (keysOf deg).length = (keysOf deg).toFinset.card :=
          (List.toFinset_card_of_nodup B2).symm
      _ ≤ (workOrders.map (·.docId)).toFinset.card := Finset.card_le_card (by
          intro x hx
          rw [List.mem_toFinset] at hx ⊢
          exact (B3 x).mp hx)
      _ ≤ (workOrders.map (·.docId)).length := List.toFinset_card_le _
      _ = workOrders.length := List.length_map _ _
  obtain ⟨Δ, hrun, hnd, hsub, hpar, hrest⟩ := kahnLoop_spec adj workOrders.length
    (kahnSeed deg) deg [] hinv (by simpa using hkeylen)
  simp only [List.nil_append] at hrun hnd hsub hpar hrest
  dsimp only
  rw [hrun]
  rcases hcyc with ⟨x, hx⟩
  have hxedge : Relation.TransGen (edgeAdj adj) x x :=
    Relation.TransGen.mono (fun a b hab => (B5 a b).mpr hab) hx
  have hxnot : x ∉ Δ := by
    intro hxin
    have := (parentClosed_transGen hnd hpar x x hxedge hxin).2
    omega
  have hxkey : x ∈ keysOf deg := by
    rcases (Relation.TransGen.head'_iff.mp hx) with ⟨w, hxw, _⟩
    rcases hxw with ⟨wo, hwo, _, hdep⟩
    exact (B3 x).mpr (hknown wo hwo x hdep)
  have hlen : Δ.length < workOrders.length := by
    have hssub : Δ.toFinset ⊂ (keysOf deg).toFinset := by
      constructor
      · intro a ha
        rw [List.mem_toFinset] at ha ⊢
        exact hsub a ha
      · intro hcontra
        have := hcontra (List.mem_toFinset.mpr hxkey)
        rw [List.mem_toFinset] at this
        exact hxnot this
    have hcard := Finset.card_lt_card hssub
    have h1 : Δ.toFinset.card = Δ.length := List.toFinset_card_of_nodup hnd
    have h2 : (keysOf deg).toFinset.card = (keysOf deg).length :=
      List.toFinset_card_of_nodup B2
    omega
  rw [if_pos (by omega)]

/-- C3: for every acyclic set of work orders (with distinct ids) whose
dependency ids all refer to work orders in the set, `getTopologicalOrder`
returns a permutation of all work order docIds such that for every dependency
edge parent→child, the parent's index in the returned sequence precedes the
child's index. -/
theorem getTopologicalOrder_complete {workOrders : List WorkOrderDoc}
    (hnodup : (workOrders.map (·.docId)).Nodup)
    (hknown : ∀ wo ∈ workOrders, ∀ d ∈ wo.dependsOnWorkOrderIds,
      d ∈ workOrders.map (·.docId))
    (hacyc : ∀ x, ¬ Relation.TransGen (depEdge workOrders) x x) :
    ∃ order, getTopologicalOrder workOrders = .ok order ∧
      order.Perm (workOrders.map (·.docId)) ∧
      ∀ p c, depEdge workOrders p c → order.indexOf p < order.indexOf c := by
  obtain ⟨adj, deg, hbg⟩ := buildGraph_ok_of_known hknown
  obtain ⟨B1, B2, B3, B4, B5, B6, B7⟩ := buildGraph_ok hbg
  have hkeyperm : (keysOf deg).Perm (workOrders.map (·.docId)) :=
    (List.perm_ext_iff_of_nodup B2 hnodup).mpr B3
  have hkeylen : (keysOf deg).length = workOrders.length := by
    rw [hkeyperm.length_eq, List.length_map]
  have hinv := kahnInv_init hbg
  obtain ⟨Δ, hrun, hnd, hsub, hpar, hrest⟩ := kahnLoop_spec adj workOrders.length
    (kahnSeed deg) deg [] hinv (by simp [hkeylen])
  simp only [List.nil_append] at hrun hnd hsub hpar hrest
  have hΔall : ∀ u ∈ keysOf deg, u ∈ Δ := by
    by_contra hmiss
    push_neg at hmiss
    obtain ⟨u0, hu0k, hu0n⟩ := hmiss
    have hM : ∃ x, Relation.TransGen (edgeAdj adj) x x := by
      refine transGen_cycle_of_forall_pred (M := (keysOf deg).filter
        (fun u => decide (u ∉ Δ))) ?_ ?_
      · intro hcon
        have : u0 ∈ (keysOf deg).filter (fun u => decide (u ∉ Δ)) := by
          rw [List.mem_filter]
          exact ⟨hu0k, by simpa using hu0n⟩
        rw [hcon] at this
        exact absurd this (by simp)
      · intro u hu
        rw [List.mem_filter] at hu
        obtain ⟨huk, hun⟩ := hu
        simp only [decide_eq_true_eq] at hun
        obtain ⟨p, hpe, hpn⟩ := hrest u huk hun
        have hpk : p ∈ keysOf deg := by
          rcases (B5 p u).mp hpe with ⟨wo, hwo, _, hdep⟩
          exact (B3 p).mpr (hknown wo hwo p hdep)
        exact ⟨p, by rw [List.mem_filter]; exact ⟨hpk, by simpa using hpn⟩, hpe⟩
    rcases hM with ⟨x, hx⟩
    exact hacyc x (Relation.TransGen.mono (fun a b hab => (B5 a b).mp hab) hx)
  have hΔperm : Δ.Perm (keysOf deg) :=
    (List.perm_ext_iff_of_nodup hnd B2).mpr (fun u => ⟨hsub u, hΔall u⟩)
  have hΔlen : Δ.length = workOrders.length := by
    rw [hΔperm.length_eq, hkeylen]
  refine ⟨Δ, ?_, hΔperm.trans hkeyperm, ?_⟩
  · rw [getTopologicalOrder, hbg]
    dsimp only
    rw [hrun, if_neg (by omega)]
  · intro p c hedge
    have hcΔ : c ∈ Δ := by
      rcases hedge with ⟨wo, hwo, hc, _⟩
      exact hΔall c ((B3 c).mpr (by
        rw [← hc]
        exact List.mem_map.mpr ⟨wo, hwo, rfl⟩))
    exact (parentClosed_transGen hnd hpar p c
      (Relation.TransGen.single ((B5 p c).mpr hedge)) hcΔ).2

/-! ## Run-level lemmas (reflow.service) -/

theorem mem_pushScheduledSlot {schedule : List ScheduledSlot} {slot x : ScheduledSlot} :
    x ∈ pushScheduledSlot schedule slot ↔ x ∈ schedule ∨ x = slot := by
  rw [pushScheduledSlot, mem_stableSortBy]
  simp

theorem pushScheduledSlot_perm (schedule : List ScheduledSlot) (slot : ScheduledSlot) :
    (pushScheduledSlot schedule slot).Perm (schedule ++ [slot]) :=
  stableSortBy_perm slotLe (schedule ++ [slot])

theorem woById_eq_some {workOrders : List WorkOrderDoc} {u : String} {wo : WorkOrderDoc}
    (h : woById workOrders u = some wo) : wo ∈ workOrders ∧ wo.docId = u := by
  rw [woById] at h
  refine ⟨List.mem_reverse.mp (List.mem_of_find?_eq_some h), ?_⟩
  have := List.find?_some h
  simpa using this

theorem woById_resolves {workOrders : List WorkOrderDoc} {u : String}
    (h : u ∈ workOrders.map (·.docId)) : ∃ wo, woById workOrders u = some wo := by
  rcases List.mem_map.mp h with ⟨wo, hwo, rfl⟩
  rw [woById]
  cases hf : (workOrders.reverse.find? (fun w => w.docId == wo.docId)) with
  | some w => exact ⟨w, rfl⟩
  | none =>
    have := List.find?_eq_none.mp hf wo (List.mem_reverse.mpr hwo)
    simp at this

/-- `scheduleOne` appends exactly one result, carrying the order's id. -/
theorem scheduleOne_results_shape (workCenters : List WorkCenterDoc) (st : RunState)
    (wo : WorkOrderDoc) :
    ∃ r, (scheduleOne workCenters st wo).results = st.results ++ [r] ∧
      r.workOrderDocId = wo.docId := by
  rw [scheduleOne]
  split
  · exact ⟨_, rfl, rfl⟩
  · dsimp only
    split
    · exact ⟨_, rfl, rfl⟩
    · exact ⟨_, rfl, rfl⟩

/-- `scheduleOne` either leaves the ledger alone or pushes the accepted slot
of a successful non-maintenance search. -/
theorem scheduleOne_schedule_shape (workCenters : List WorkCenterDoc) (st : RunState)
    (wo : WorkOrderDoc) :
    (scheduleOne workCenters st wo).schedule = st.schedule ∨
      (wo.isMaintenance = false ∧ ∃ s e tr,
        findEarliestFeasibleSlot workCenters st.schedule wo.workCenterId
          (earliestStartFor st.results wo) wo.durationMinutes 30 = .ok ((s, e), tr) ∧
        (scheduleOne workCenters st wo).schedule =
          pushScheduledSlot st.schedule
            { workOrderDocId := wo.docId
              workCenterDocId := wo.workCenterId
              start := s
              «end» := e }) := by
  rw [scheduleOne]
  split
  · left; rfl
  · rename_i hm
    dsimp only
    cases hf : findEarliestFeasibleSlot workCenters st.schedule wo.workCenterId
        (earliestStartFor st.results wo) wo.durationMinutes 30 with
    | ok pr =>
      obtain ⟨⟨s, e⟩, tr⟩ := pr
      right
      exact ⟨Bool.eq_false_iff.mpr hm, s, e, tr, rfl, rfl⟩
    | error err =>
      left
      rfl

/-- Error branch of `scheduleOne`: the checker failure is downgraded to a
degraded result at the planned window and the ledger is untouched. -/
theorem scheduleOne_error_shape {workCenters : List WorkCenterDoc} {st : RunState}
    {wo : WorkOrderDoc} {err : SchedError} (hm : wo.isMaintenance = false)
    (hf : findEarliestFeasibleSlot workCenters st.schedule wo.workCenterId
      (earliestStartFor st.results wo) wo.durationMinutes 30 = .error err) :
    scheduleOne workCenters st wo =
      { results := st.results ++ [{ workOrderDocId := wo.docId
                                    workOrderNumber := wo.workOrderNumber
                                    workCenterDocId := wo.workCenterId
                                    startDate := wo.startDate
                                    endDate := wo.endDate
                                    wasDelayed := true
                                    delayMinutes := none
                                    delayReason :=
                                      some ("Scheduling failed: " ++ err.message) }]
        schedule := st.schedule } := by
  rw [scheduleOne, if_neg (by simp [hm])]
  dsimp only
  rw [hf]

/-- Maintenance branch of `scheduleOne`: result at the unmodified planned
window, not delayed, ledger untouched. -/
theorem scheduleOne_maintenance_shape {workCenters : List WorkCenterDoc} {st : RunState}
    {wo : WorkOrderDoc} (hm : wo.isMaintenance = true) :
    scheduleOne workCenters st wo =
      { results := st.results ++ [{ workOrderDocId := wo.docId
                                    workOrderNumber := wo.workOrderNumber
                                    workCenterDocId := wo.workCenterId
                                    startDate := wo.startDate
                                    endDate := wo.endDate
                                    wasDelayed := false
                                    delayMinutes := none
                                    delayReason := none }]
        schedule := st.schedule } := by
  rw [scheduleOne, if_pos hm]

/-- Non-overlap invariant carried through the scheduling fold: the ledger
stays a permutation of the base ledger plus a pairwise non-overlapping list
of newly accepted slots. -/
theorem runOrder_news (workOrders : List WorkOrderDoc) (workCenters : List WorkCenterDoc)
    (base : List ScheduledSlot) :
    ∀ (order : List String) (st : RunState) (news : List ScheduledSlot),
      st.schedule.Perm (base ++ news) → PairwiseNonOverlap news →
      ∃ news', (runOrder workOrders workCenters st order).schedule.Perm (base ++ news') ∧
        PairwiseNonOverlap news' := by
  intro order
  induction order with
  | nil => exact fun st news hperm hpw => ⟨news, hperm, hpw⟩
  | cons u rest ih =>
    intro st news hperm hpw
    rw [runOrder, List.foldl_cons]
    cases hwo : woById workOrders u with
    | none => exact ih st news hperm hpw
    | some wo =>
      rcases scheduleOne_schedule_shape workCenters st wo with hsame | ⟨_, s, e, tr, hf, hpush⟩
      · exact ih (scheduleOne workCenters st wo) news (hsame ▸ hperm) hpw
      · obtain ⟨wc, hwcid, hdoc, _, _, _, havoid, _⟩ := findEarliestFeasibleSlot_spec hf
        refine ih (scheduleOne workCenters st wo)
          (news ++ [⟨wo.docId, wo.workCenterId, s, e⟩]) ?_ ?_
        · rw [hpush]
          have h1 : (pushScheduledSlot st.schedule ⟨wo.docId, wo.workCenterId, s, e⟩).Perm
              (st.schedule ++ [⟨wo.docId, wo.workCenterId, s, e⟩]) :=
            pushScheduledSlot_perm _ _
          have h2 := hperm.append_right [(⟨wo.docId, wo.workCenterId, s, e⟩ : ScheduledSlot)]
          have h3 := h1.trans h2
          rw [List.append_assoc] at h3
          exact h3
        · rw [PairwiseNonOverlap, List.pairwise_append]
          refine ⟨hpw, List.pairwise_singleton _ _, ?_⟩
          intro a ha b hb
          have hb' : b = ⟨wo.docId, wo.workCenterId, s, e⟩ := by simpa using hb
          subst hb'
          intro hov
          rcases hov with ⟨hwc, h1, h2⟩
          have hamem : a ∈ st.schedule :=
            hperm.symm.subset (List.mem_append.mpr (Or.inr ha))
          exact havoid a hamem hwc ⟨h1, h2⟩

/-- Result bookkeeping of the scheduling fold: the emitted ids extend the
accumulated ids by exactly the processed order. -/
theorem runOrder_results (workOrders : List WorkOrderDoc) (workCenters : List WorkCenterDoc) :
    ∀ (order : List String) (st : RunState),
      (∀ u ∈ order, u ∈ workOrders.map (·.docId)) →
      (runOrder workOrders workCenters st order).results.map (·.workOrderDocId) =
        st.results.map (·.workOrderDocId) ++ order := by
  intro order
  induction order with
  | nil => intro st _; simp [runOrder]
  | cons u rest ih =>
    intro st hres
    rw [runOrder, List.foldl_cons]
    cases hwo : woById workOrders u with
    | none =>
      obtain ⟨wo, hwo'⟩ := woById_resolves (hres u (by simp))
      rw [hwo] at hwo'
      exact absurd hwo' (by simp)
    | some wo =>
      have hid := (woById_eq_some hwo).2
      obtain ⟨r, hr, hrid⟩ := scheduleOne_results_shape workCenters st wo
      have := ih (scheduleOne workCenters st wo) (fun v hv => hres v (by simp [hv]))
      rw [runOrder] at this
      rw [this, hr]
      simp [hrid, hid]

/-- Every ledger slot after the scheduling fold either was there before or
belongs to a resolvable non-maintenance work order. -/
theorem runOrder_ledger_origin (workOrders : List WorkOrderDoc)
    (workCenters : List WorkCenterDoc) :
    ∀ (order : List String) (st : RunState) (slot : ScheduledSlot),
      slot ∈ (runOrder workOrders workCenters st order).schedule →
      slot ∈ st.schedule ∨ ∃ wo, woById workOrders slot.workOrderDocId = some wo ∧
        wo.isMaintenance = false := by
  intro order
  induction order with
  | nil => intro st slot h; exact Or.inl h
  | cons u rest ih =>
    intro st slot h
    rw [runOrder, List.foldl_cons] at h
    cases hwo : woById workOrders u with
    | none =>
      rw [hwo] at h
      exact ih st slot h
    | some wo =>
      rw [hwo] at h
      rcases ih (scheduleOne workCenters st wo) slot h with hin | hnew
      · rcases scheduleOne_schedule_shape workCenters st wo with hsame | ⟨hm, s, e, tr, _, hpush⟩
        · rw [hsame] at hin
          exact Or.inl hin
        · rw [hpush] at hin
          rcases mem_pushScheduledSlot.mp hin with hin | rfl
          · exact Or.inl hin
          · right
            refine ⟨wo, ?_, hm⟩
            have := (woById_eq_some hwo).2
            simpa [this]
      · exact Or.inr hnew

/-- A duplicate-free list included in a list of the same length is a
permutation of it. -/
theorem perm_of_nodup_subset_length {l m : List String} (hnd : l.Nodup)
    (hsub : ∀ u ∈ l, u ∈ m) (hlen : l.length = m.length) : l.Perm m := by
  have hfsub : l.toFinset ⊆ m.toFinset := by
    intro x hx
    rw [List.mem_toFinset] at hx ⊢
    exact hsub x hx
  have hcard1 : l.toFinset.card = l.length := List.toFinset_card_of_nodup hnd
  have hcard2 : m.toFinset.card ≤ m.length := List.toFinset_card_le _
  have hcard3 : m.toFinset.card = m.length := by
    have := Finset.card_le_card hfsub
    omega
  have hmn : m.Nodup := by
    have hdl : m.dedup.length = m.length := by
      rw [← List.card_toFinset]
      exact hcard3
    have := List.Sublist.eq_of_length (List.dedup_sublist m) hdl
    rw [← this]
    exact List.nodup_dedup m
  have hfeq : l.toFinset = m.toFinset :=
    Finset.eq_of_subset_of_card_le hfsub (by omega)
  refine (List.perm_ext_iff_of_nodup hnd hmn).mpr (fun a => ?_)
  constructor
  · exact hsub a
  · intro ha
    have : a ∈ m.toFinset := List.mem_toFinset.mpr ha
    rw [← hfeq] at this
    exact List.mem_toFinset.mp this

/-! ## Dependency fold of computeReflow -/

theorem earliestStartFor_eq_depFold (results : List ReflowResult) (wo : WorkOrderDoc) :
    earliestStartFor results wo = depFold results wo.dependsOnWorkOrderIds wo.startDate := rfl

theorem depFold_ge (results : List ReflowResult) :
    ∀ (l : List String) (a : Nat), a ≤ depFold results l a := by
  intro l
  induction l with
  | nil => intro a; simp [depFold]
  | cons d rest ih =>
    intro a
    rw [depFold, List.foldl_cons]
    cases hf : results.find? (fun r => r.workOrderDocId == d) with
    | none => exact ih a
    | some r =>
      dsimp only
      split
      · rename_i hlt
        exact le_trans (le_of_lt hlt) (ih r.endDate)
      · exact ih a

theorem depFold_dep (results : List ReflowResult) :
    ∀ (l : List String) (a : Nat) (d : String) (r : ReflowResult), d ∈ l →
      results.find? (fun r2 => r2.workOrderDocId == d) = some r →
      r.endDate ≤ depFold results l a := by
  intro l
  induction l with
  | nil => intro a d r hd; simp at hd
  | cons d0 rest ih =>
    intro a d r hd hf
    rw [depFold, List.foldl_cons]
    rcases List.mem_cons.mp hd with rfl | hd'
    · rw [hf]
      dsimp only
      split
      · exact depFold_ge results rest _
      · rename_i hnlt
        exact le_trans (by omega) (depFold_ge results rest a)
    · cases hf0 : results.find? (fun r2 => r2.workOrderDocId == d0) with
      | none => exact ih a d r hd' hf
      | some r0 =>
        dsimp only
        split
        · exact ih _ d r hd' hf
        · exact ih a d r hd' hf

theorem depFold_mem (results : List ReflowResult) :
    ∀ (l : List String) (a : Nat), depFold results l a = a ∨
      ∃ d ∈ l, ∃ r, results.find? (fun r2 => r2.workOrderDocId == d) = some r ∧
        depFold results l a = r.endDate := by
  intro l
  induction l with
  | nil => intro a; left; simp [depFold]
  | cons d0 rest ih =>
    intro a
    rw [depFold, List.foldl_cons]
    cases hf0 : results.find? (fun r2 => r2.workOrderDocId == d0) with
    | none =>
      rcases ih a with h | ⟨d, hd, r, hf, hval⟩
      · left; exact h
      · right; exact ⟨d, by simp [hd], r, hf, hval⟩
    | some r0 =>
      dsimp only
      split
      · rcases ih r0.endDate with h | ⟨d, hd, r, hf, hval⟩
        · right
          exact ⟨d0, by simp, r0, hf0, h⟩
        · right; exact ⟨d, by simp [hd], r, hf, hval⟩
      · rcases ih a with h | ⟨d, hd, r, hf, hval⟩
        · left; exact h
        · right; exact ⟨d, by simp [hd], r, hf, hval⟩

/-! ## Single-shift placement (C5 support) -/

theorem parseMW_le {mw : MaintenanceWindow} {iv : Iv} (h : parseMW mw = some iv) :
    iv.start ≤ iv.«end» := by
  obtain ⟨sd, ed⟩ := mw
  cases sd with
  | none => simp [parseMW, safeIntervalFromISO] at h
  | some a =>
    cases ed with
    | none => simp [parseMW, safeIntervalFromISO] at h
    | some b =>
      simp only [parseMW, safeIntervalFromISO] at h
      split at h
      · rename_i hab
        obtain rfl : iv = ⟨a, b⟩ := (Option.some.inj h).symm
        exact hab
      · exact absurd h (by simp)

theorem availableUntilFold_ge {mws : List MaintenanceWindow} {c m : Nat}
    (hml : ∀ mw ∈ mws, ∀ iv, parseMW mw = some iv → c < iv.start → m ≤ iv.start) :
    ∀ init, m ≤ init → m ≤ availableUntilFold mws c init := by
  induction mws with
  | nil => intro init h; simpa [availableUntilFold] using h
  | cons mw rest ih =>
    intro init hinit
    cases hp : parseMW mw with
    | none =>
      rw [availableUntilFold_cons_none rest c init hp]
      exact ih (fun x hx => hml x (List.mem_cons_of_mem mw hx)) init hinit
    | some iv =>
      rw [availableUntilFold_cons_some rest c init hp]
      split
      · rename_i hc
        exact ih (fun x hx => hml x (List.mem_cons_of_mem mw hx)) iv.start
          (hml mw (List.mem_cons_self mw rest) iv hp hc.1)
      · exact ih (fun x hx => hml x (List.mem_cons_of_mem mw hx)) init hinit

theorem findShiftFrom_contains {l : List Iv} {c : Nat}
    (hsort : l.Pairwise (fun a b => a.start ≤ b.start))
    (hmem : ∃ iv ∈ l, ivContains iv c = true) : findShiftFrom l c = some c := by
  induction l with
  | nil => rcases hmem with ⟨iv, h, _⟩; simp at h
  | cons iv0 rest ih =>
    rw [findShiftFrom]
    rcases hmem with ⟨iv, hivmem, hiv⟩
    by_cases h0 : ivContains iv0 c = true
    · rw [if_pos h0]
    · rw [if_neg h0]
      have hivrest : iv ∈ rest := by
        rcases List.mem_cons.mp hivmem with rfl | h
        · exact absurd hiv h0
        · exact h
      have hle : iv0.start ≤ iv.start := (List.pairwise_cons.mp hsort).1 iv hivrest
      have hivc : iv.start ≤ c := by
        simp only [ivContains, Bool.and_eq_true, decide_eq_true_eq] at hiv
        exact hiv.1
      by_cases hcle : c ≤ iv0.start
      · rw [if_pos (by simpa using hcle)]
        congr 1
        omega
      · rw [if_neg (by simpa using hcle)]
        exact ih (List.pairwise_cons.mp hsort).2 ⟨iv, hivrest, hiv⟩

theorem moveToNextShiftIfNeeded_self {wc : WorkCenterDoc} {c : Nat}
    (hmem : ∃ iv ∈ buildShiftIntervalsForDate wc.shifts (dayOf c), ivContains iv c = true) :
    moveToNextShiftIfNeeded wc c = c := by
  rw [moveToNextShiftIfNeeded]
  have hr : List.range 14 = 0 :: (List.range 13).map (· + 1) := by
    rw [List.range_succ_eq_map]
  rw [hr, moveScanDays, Nat.add_zero,
    findShiftFrom_contains (buildShiftIntervalsForDate_sorted wc.shifts (dayOf c)) hmem]
  rfl

theorem currentShiftFor_contains {l : List Iv} {c : Nat}
    (hsort : l.Pairwise (fun a b => a.start ≤ b.start))
    (hmem : ∃ iv ∈ l, ivContains iv c = true) :
    ∃ si, currentShiftFor l c = some si ∧ si ∈ l ∧ ivContains si c = true := by
  induction l with
  | nil => rcases hmem with ⟨iv, h, _⟩; simp at h
  | cons iv0 rest ih =>
    rcases hmem with ⟨iv, hivmem, hiv⟩
    by_cases h0 : ivContains iv0 c = true
    · refine ⟨iv0, ?_, by simp, h0⟩
      rw [currentShiftFor, List.find?_cons_of_pos _ (by simp [h0])]
    · have hivrest : iv ∈ rest := by
        rcases List.mem_cons.mp hivmem with rfl | h
        · exact absurd hiv h0
        · exact h
      have hle : iv0.start ≤ iv.start := (List.pairwise_cons.mp hsort).1 iv hivrest
      have hivc : iv.start ≤ c := by
        simp only [ivContains, Bool.and_eq_true, decide_eq_true_eq] at hiv
        exact hiv.1
      have hnlt : ¬ c < iv0.start := by omega
      obtain ⟨si, hsi, hsimem, hsic⟩ :=
        ih (List.pairwise_cons.mp hsort).2 ⟨iv, hivrest, hiv⟩
      refine ⟨si, ?_, by simp [hsimem], hsic⟩
      rw [currentShiftFor, List.find?_cons_of_neg _ (by simp [h0, hnlt]),
        ← currentShiftFor, hsi]

/-- Under the single-shift hypotheses the consumption loop finishes in one
step: everything is consumed at `est + dur`, then only the tail maintenance
skip of the loop body may move the candidate end (never the start). -/
theorem addWorkingMinutes_single_shift {wc : WorkCenterDoc} {est dur : Nat}
    (hdur : dur ≠ 0)
    (hshift : ∃ iv ∈ buildShiftIntervalsForDate wc.shifts (dayOf est),
      ivContains iv est = true)
    (hroom : ∀ iv ∈ buildShiftIntervalsForDate wc.shifts (dayOf est),
      ivContains iv est = true → est + dur ≤ iv.«end»)
    (hmw : ∀ mw ∈ wc.maintenanceWindows, ∀ iv, parseMW mw = some iv →
      iv.«end» ≤ est ∨ est + dur ≤ iv.start) :
    addWorkingMinutesConsideringShifts est dur wc
      = some (if isInsideMaintenance wc (est + dur)
          then skipMaintenanceStartingBeforeOrAt wc (est + dur) else est + dur) := by
  obtain ⟨r, rfl⟩ : ∃ r, dur = r + 1 := ⟨dur - 1, by omega⟩
  obtain ⟨si, hsi, hsimem, hsic⟩ := currentShiftFor_contains
    (buildShiftIntervalsForDate_sorted wc.shifts (dayOf est)) hshift
  have hsistart : si.start ≤ est ∧ est < si.«end» := by
    simpa [ivContains] using hsic
  have hnlt : ¬ est < si.start := by omega
  have hifeq : (if est < si.start then si.start else est) = est := if_neg hnlt
  have hnotin : isInsideMaintenance wc est = false := by
    rw [Bool.eq_false_iff]
    intro hin
    rcases isInsideMaintenance_iff.mp hin with ⟨mw, hmwm, iv, hp, h1, h2⟩
    rcases hmw mw hmwm iv hp with h | h <;> omega
  have hau : est + (r + 1) ≤ availableUntilFold wc.maintenanceWindows est si.«end» := by
    refine availableUntilFold_ge ?_ si.«end» (hroom si hsimem hsic)
    intro mw hmwm iv hp hlt
    rcases hmw mw hmwm iv hp with h | h
    · have := parseMW_le hp
      omega
    · exact h
  have hav : availableUntilFold wc.maintenanceWindows est si.«end» - est ≠ 0 := by omega
  rw [addWorkingMinutesConsideringShifts, show (365 : Nat) = 364 + 1 from rfl,
    addWorkLoop_consume wc hsi (by rw [hifeq]; exact hnotin) (by rw [hifeq]; exact hav)]
  dsimp only
  rw [hifeq]
  have hmin : min (availableUntilFold wc.maintenanceWindows est si.«end» - est) (r + 1)
      = r + 1 := by omega
  rw [hmin]
  simp only [Nat.sub_self]
  exact addWorkLoop_zero wc 364 _

/-- One-step acceptance of the search loop. -/
theorem feasLoop_accept {wc : WorkCenterDoc} {schedule : List ScheduledSlot}
    {dur deadline f cursor e : Nat} {acc : List ScheduledSlot}
    (hd : cursor ≤ deadline)
    (hc1 : moveToNextShiftIfNeeded wc cursor = cursor)
    (hc2 : skipMaintenanceStartingBeforeOrAt wc cursor = cursor)
    (haw : addWorkingMinutesConsideringShifts cursor dur wc = some e)
    (hov : findOverlappingSlot schedule wc.docId cursor e = none) :
    feasLoop wc schedule dur deadline (f + 1) cursor acc = .ok ((cursor, e), acc.reverse) := by
  rw [feasLoop, if_pos hd]
  dsimp only
  rw [hc1, hc2, haw]
  dsimp only
  rw [hov]

/-- Under the single-shift hypotheses the very first candidate is accepted:
the slot starts exactly at the earliest possible start (the end is
`est + dur`, possibly pushed by the loop's tail maintenance skip). -/
theorem findEarliestFeasibleSlot_immediate {workCenters : List WorkCenterDoc}
    {wc : WorkCenterDoc} {schedule : List ScheduledSlot} {wcId : String} {est dur : Nat}
    (hwc : wcById workCenters wcId = some wc)
    (hdur : dur ≠ 0)
    (hshift : ∃ iv ∈ buildShiftIntervalsForDate wc.shifts (dayOf est),
      ivContains iv est = true)
    (hroom : ∀ iv ∈ buildShiftIntervalsForDate wc.shifts (dayOf est),
      ivContains iv est = true → est + dur ≤ iv.«end»)
    (hmw : ∀ mw ∈ wc.maintenanceWindows, ∀ iv, parseMW mw = some iv →
      iv.«end» ≤ est ∨ est + dur ≤ iv.start)
    (hfree : ∀ x ∈ schedule, x.workCenterDocId ≠ wc.docId) :
    findEarliestFeasibleSlot workCenters schedule wcId est dur 30
      = .ok ((est, if isInsideMaintenance wc (est + dur)
          then skipMaintenanceStartingBeforeOrAt wc (est + dur) else est + dur), []) := by
  rw [findEarliestFeasibleSlot, hwc]
  dsimp only
  rw [if_neg hdur]
  have hnotin : isInsideMaintenance wc est = false := by
    rw [Bool.eq_false_iff]
    intro hin
    rcases isInsideMaintenance_iff.mp hin with ⟨mw, hmwm, iv, hp, h1, h2⟩
    rcases hmw mw hmwm iv hp with h | h <;> omega
  have hov : ∀ e, findOverlappingSlot schedule wc.docId est e = none := by
    intro e
    rw [findOverlappingSlot, List.find?_eq_none]
    intro x hx
    simp only [Bool.and_eq_true, beq_iff_eq, decide_eq_true_eq, not_and]
    intro hwcx
    exact absurd hwcx.1 (hfree x hx)
  exact feasLoop_accept (f := 9999) (by omega) (moveToNextShiftIfNeeded_self hshift)
    (skipMaintenance_eq_of_not_inside hnotin)
    (addWorkingMinutes_single_shift hdur hshift hroom hmw) (hov _)

/-! ## Malformed maintenance windows are inert (C10 support) -/

theorem any_maintenance_ignore {mw : MaintenanceWindow} (l1 l2 : List MaintenanceWindow)
    (t : Nat) (hp : parseMW mw = none) :
    ((l1 ++ mw :: l2).any fun mw2 =>
        match parseMW mw2 with
        | none => false
        | some iv => ivContains iv t)
      = ((l1 ++ l2).any fun mw2 =>
        match parseMW mw2 with
        | none => false
        | some iv => ivContains iv t) := by
  simp [List.any_append, List.any_cons, hp]

theorem skipMaintenanceList_ignore {mw : MaintenanceWindow} (l1 l2 : List MaintenanceWindow)
    (c : Nat) (hp : parseMW mw = none) :
    skipMaintenanceList (l1 ++ mw :: l2) c = skipMaintenanceList (l1 ++ l2) c := by
  induction l1 with
  | nil => simpa using skipMaintenanceList_cons_none l2 c hp
  | cons x rest ih =>
    cases hx : parseMW x with
    | none =>
      rw [List.cons_append, skipMaintenanceList_cons_none _ c hx,
        List.cons_append, skipMaintenanceList_cons_none _ c hx]
      exact ih
    | some iv =>
      rw [List.cons_append, skipMaintenanceList_cons_some _ c hx,
        List.cons_append, skipMaintenanceList_cons_some _ c hx]
      split
      · rfl
      · exact ih

theorem availableUntilFold_ignore {mw : MaintenanceWindow} (l1 l2 : List MaintenanceWindow)
    (c : Nat) (hp : parseMW mw = none) :
    ∀ init, availableUntilFold (l1 ++ mw :: l2) c init = availableUntilFold (l1 ++ l2) c init := by
  induction l1 with
  | nil =>
    intro init
    simpa using availableUntilFold_cons_none l2 c init hp
  | cons x rest ih =>
    intro init
    cases hx : parseMW x with
    | none =>
      rw [List.cons_append, availableUntilFold_cons_none _ c init hx,
        List.cons_append, availableUntilFold_cons_none _ c init hx]
      exact ih init
    | some iv =>
      rw [List.cons_append, availableUntilFold_cons_some _ c init hx,
        List.cons_append, availableUntilFold_cons_some _ c init hx]
      exact ih _

theorem moveScanDays_congr {wc wc' : WorkCenterDoc} (hs : wc'.shifts = wc.shifts)
    (c : Nat) : ∀ ds, moveScanDays wc' c ds = moveScanDays wc c ds := by
  intro ds
  induction ds with
  | nil => rfl
  | cons d rest ih => rw [moveScanDays, moveScanDays, hs, ih]

theorem moveToNextShiftIfNeeded_congr {wc wc' : WorkCenterDoc}
    (hs : wc'.shifts = wc.shifts) (c : Nat) :
    moveToNextShiftIfNeeded wc' c = moveToNextShiftIfNeeded wc c := by
  rw [moveToNextShiftIfNeeded, moveToNextShiftIfNeeded, moveScanDays_congr hs]

theorem addWorkLoop_congr {wc wc' : WorkCenterDoc}
    (hs : wc'.shifts = wc.shifts)
    (hin : ∀ t, isInsideMaintenance wc' t = isInsideMaintenance wc t)
    (hsk : ∀ c, skipMaintenanceStartingBeforeOrAt wc' c = skipMaintenanceStartingBeforeOrAt wc c)
    (hau : ∀ c i, availableUntilFold wc'.maintenanceWindows c i
      = availableUntilFold wc.maintenanceWindows c i) :
    ∀ fuel r c, addWorkLoop wc' fuel r c = addWorkLoop wc fuel r c := by
  intro fuel
  induction fuel with
  | zero =>
    intro r c
    cases r with
    | zero => rfl
    | succ r => rfl
  | succ f ih =>
    intro r c
    cases r with
    | zero => rw [addWorkLoop_zero, addWorkLoop_zero]
    | succ r =>
      cases hcs : currentShiftFor (buildShiftIntervalsForDate wc.shifts (dayOf c)) c with
      | none =>
        rw [addWorkLoop_noshift wc' (by rw [hs]; exact hcs), addWorkLoop_noshift wc hcs]
        exact ih _ _
      | some si =>
        cases him : isInsideMaintenance wc (if c < si.start then si.start else c) with
        | true =>
          rw [addWorkLoop_maint wc' (by rw [hs]; exact hcs) (by rw [hin]; exact him),
            addWorkLoop_maint wc hcs him, hsk]
          exact ih _ _
        | false =>
          by_cases hav : availableUntilFold wc.maintenanceWindows
              (if c < si.start then si.start else c) si.«end»
            - (if c < si.start then si.start else c) = 0
          · rw [addWorkLoop_gap wc' (by rw [hs]; exact hcs) (by rw [hin]; exact him)
              (by rw [hau]; exact hav),
              addWorkLoop_gap wc hcs him hav]
            exact ih _ _
          · rw [addWorkLoop_consume wc' (by rw [hs]; exact hcs) (by rw [hin]; exact him)
              (by rw [hau]; exact hav),
              addWorkLoop_consume wc hcs him hav]
            dsimp only
            rw [hau, hin, hsk]
            exact ih _ _

theorem feasLoop_congr {wc wc' : WorkCenterDoc}
    (hdoc : wc'.docId = wc.docId)
    (hs : wc'.shifts = wc.shifts)
    (hin : ∀ t, isInsideMaintenance wc' t = isInsideMaintenance wc t)
    (hsk : ∀ c, skipMaintenanceStartingBeforeOrAt wc' c = skipMaintenanceStartingBeforeOrAt wc c)
    (hau : ∀ c i, availableUntilFold wc'.maintenanceWindows c i
      = availableUntilFold wc.maintenanceWindows c i)
    (schedule : List ScheduledSlot) (dur deadline : Nat) :
    ∀ fuel c acc, feasLoop wc' schedule dur deadline fuel c acc
      = feasLoop wc schedule dur deadline fuel c acc := by
  intro fuel
  induction fuel with
  | zero =>
    intro c acc
    rw [feasLoop, feasLoop, hdoc]
  | succ f ih =>
    intro c acc
    rw [feasLoop, feasLoop]
    by_cases hd : c ≤ deadline
    · rw [if_pos hd, if_pos hd]
      dsimp only
      rw [moveToNextShiftIfNeeded_congr hs, hsk]
      have haw : addWorkingMinutesConsideringShifts
          (skipMaintenanceStartingBeforeOrAt wc (moveToNextShiftIfNeeded wc c)) dur wc'
        = addWorkingMinutesConsideringShifts
          (skipMaintenanceStartingBeforeOrAt wc (moveToNextShiftIfNeeded wc c)) dur wc := by
        rw [addWorkingMinutesConsideringShifts, addWorkingMinutesConsideringShifts,
          addWorkLoop_congr hs hin hsk hau]
      rw [haw]
      simp only [hdoc]
      cases haw2 : addWorkingMinutesConsideringShifts
          (skipMaintenanceStartingBeforeOrAt wc (moveToNextShiftIfNeeded wc c)) dur wc with
      | none => rfl
      | some e =>
        dsimp only
        cases hov : findOverlappingSlot schedule wc.docId
            (skipMaintenanceStartingBeforeOrAt wc (moveToNextShiftIfNeeded wc c)) e with
        | none => rfl
        | some x => exact ih _ _
    · rw [if_neg hd, if_neg hd, hdoc]

/-! ## Claim theorems -/

/-- C1 (amended): when `findEarliestFeasibleSlot` returns a slot, the span
from the accepted start to the accepted end contains exactly
`durationMinutes` working minutes of the resolved work center (a working
minute lies inside a shift interval of its day and inside no maintenance
window), and the start is at or after the earliest possible start.  The
claim's parenthetical — that the returned start itself satisfies shift
containment and maintenance avoidance — is false; see the counterexample. -/
theorem findEarliestFeasibleSlot_consumes_duration {workCenters : List WorkCenterDoc}
    {schedule : List ScheduledSlot} {wcId : String} {est dur days s e : Nat}
    {tr : List ScheduledSlot}
    (h : findEarliestFeasibleSlot workCenters schedule wcId est dur days
      = .ok ((s, e), tr)) :
    ∃ wc, wcById workCenters wcId = some wc ∧ est ≤ s ∧ s ≤ e ∧
      countWork wc s e = dur := by
  obtain ⟨wc, h1, _, h3, h4, h5, _, _⟩ := findEarliestFeasibleSlot_spec h
  exact ⟨wc, h1, h3, h4, h5⟩

theorem findEarliestFeasibleSlot_consumes_duration_witness :
    ∃ wc, wcById [wcW] "wcW" = some wc ∧ 1920 ≤ 1920 ∧ 1920 ≤ 1980 ∧
      countWork wc 1920 1980 = 60 :=
  @findEarliestFeasibleSlot_consumes_duration [wcW] [] "wcW" 1920 60 30 1920 1980 [] rfl

/-- C1 counterexample: skipping the maintenance window that covers the
cursor can land the cursor inside a second, overlapping maintenance window
and past the end of the day's shift, and that cursor is returned as the
accepted start: here the accepted start 3960 is inside a maintenance window
of `wcC1` and inside no shift interval of its day. -/
theorem findEarliestFeasibleSlot_start_in_maintenance_cex :
    findEarliestFeasibleSlot [wcC1] [] "wcC1" 3870 60 30 = .ok ((3960, 13500), []) ∧
    isInsideMaintenance wcC1 3960 = true ∧
    ((buildShiftIntervalsForDate wcC1.shifts (dayOf 3960)).any
      fun iv => ivContains iv 3960) = false :=
  ⟨rfl, rfl, rfl⟩

/-- C2: in every run, the ledger ends as a permutation of the existing
schedule plus the newly accepted-and-committed slots, and those new slots are
pairwise non-overlapping (half-open intervals, only slots on the same work
center can overlap); moreover whenever a candidate collides with an
already-committed slot, every slot collided with along the way ends strictly
before the finally accepted start. -/
theorem reflowRun_no_overlap {workOrders : List WorkOrderDoc}
    {workCenters : List WorkCenterDoc} {existingSchedule : List ScheduledSlot}
    {st : RunState}
    (hrun : reflowRun workOrders workCenters existingSchedule = .ok st) :
    (∃ news, st.schedule.Perm (existingSchedule ++ news) ∧ PairwiseNonOverlap news) ∧
    ∀ (wcs : List WorkCenterDoc) (sch tr : List ScheduledSlot) (wcId : String)
      (est dur days s e : Nat),
      findEarliestFeasibleSlot wcs sch wcId est dur days = .ok ((s, e), tr) →
      ∀ x ∈ tr, x.«end» < s := by
  constructor
  · rw [reflowRun] at hrun
    cases htopo : getTopologicalOrder workOrders with
    | error e => rw [htopo] at hrun; exact absurd hrun (by simp)
    | ok order =>
      rw [htopo] at hrun
      simp only [Except.ok.injEq] at hrun
      have hinit : (stableSortBy slotLe existingSchedule).Perm (existingSchedule ++ []) := by
        rw [List.append_nil]
        exact stableSortBy_perm _ _
      obtain ⟨news, hperm, hpw⟩ := runOrder_news workOrders workCenters existingSchedule
        order { results := [], schedule := stableSortBy slotLe existingSchedule } []
        hinit List.Pairwise.nil
      rw [hrun] at hperm
      exact ⟨news, hperm, hpw⟩
  · intro wcs sch tr wcId est dur days s e h x hx
    obtain ⟨wc, _, _, _, _, _, _, htr⟩ := findEarliestFeasibleSlot_spec h
    exact htr x hx

theorem reflowRun_no_overlap_witness :
    ∃ news, ([(⟨"A", "wcW", 1920, 1980⟩ : ScheduledSlot)]).Perm ([] ++ news) ∧
      PairwiseNonOverlap news :=
  (@reflowRun_no_overlap [woA] [wcW] []
    ⟨[⟨"A", "WO-A", "wcW", 1920, 1980, false, none, none⟩],
      [⟨"A", "wcW", 1920, 1980⟩]⟩ rfl).1

theorem getTopologicalOrder_complete_witness :
    ∃ order, getTopologicalOrder [woA] = .ok order ∧
      order.Perm ([woA].map (·.docId)) ∧
      ∀ p c, depEdge [woA] p c → order.indexOf p < order.indexOf c := by
  have hedge : ∀ p c, ¬ depEdge [woA] p c := by
    rintro p c ⟨wo, hwo, rfl, hdep⟩
    rw [List.mem_singleton] at hwo
    subst hwo
    simp [woA] at hdep
  exact getTopologicalOrder_complete (by decide) (by decide)
    (fun x hx => by
      cases hx with
      | single h => exact hedge _ _ h
      | tail h1 h2 => exact hedge _ _ h2)

/-- C4 (amended): the `earliestStart` handed to the constraint checker is the
later of the order's planned start and the maximum end among all
already-produced results found for its declared dependencies — including
degraded results of dependencies whose own scheduling failed, contrary to
the claim's "failed dependencies contribute no constraint"; and the slot the
checker then accepts starts no earlier than each such dependency end. -/
theorem earliestStartFor_max {results : List ReflowResult} {wo : WorkOrderDoc} :
    wo.startDate ≤ earliestStartFor results wo ∧
    (∀ depId ∈ wo.dependsOnWorkOrderIds, ∀ r,
      results.find? (fun r2 => r2.workOrderDocId == depId) = some r →
      r.endDate ≤ earliestStartFor results wo) ∧
    (earliestStartFor results wo = wo.startDate ∨
      ∃ depId ∈ wo.dependsOnWorkOrderIds, ∃ r,
        results.find? (fun r2 => r2.workOrderDocId == depId) = some r ∧
        earliestStartFor results wo = r.endDate) ∧
    (∀ (workCenters : List WorkCenterDoc) (schedule tr : List ScheduledSlot) (s e : Nat),
      findEarliestFeasibleSlot workCenters schedule wo.workCenterId
        (earliestStartFor results wo) wo.durationMinutes 30 = .ok ((s, e), tr) →
      ∀ depId ∈ wo.dependsOnWorkOrderIds, ∀ r,
        results.find? (fun r2 => r2.workOrderDocId == depId) = some r →
        r.endDate ≤ s) := by
  rw [earliestStartFor_eq_depFold]
  refine ⟨depFold_ge results _ _, ?_, ?_, ?_⟩
  · intro depId hd r hf
    exact depFold_dep results _ _ depId r hd hf
  · exact depFold_mem results _ _
  · intro wcs sch tr s e h depId hd r hf
    obtain ⟨wc, _, _, hle, _, _, _, _⟩ := findEarliestFeasibleSlot_spec h
    exact le_trans (depFold_dep results _ _ depId r hd hf) hle

theorem earliestStartFor_max_witness :
    woC.startDate ≤ earliestStartFor [rPdeg] woC ∧
    rPdeg.endDate ≤ earliestStartFor [rPdeg] woC :=
  ⟨(@earliestStartFor_max [rPdeg] woC).1,
    (@earliestStartFor_max [rPdeg] woC).2.1 "P" (by decide) rPdeg rfl⟩

/-- C4 counterexample: a dependency that was processed but failed still
constrains its child.  `woP` fails (unknown work center) and is emitted as a
degraded result keeping its planned end 3600; its child `woC`, planned at
3420, is nevertheless scheduled at 3600 — the code's fold counts the failed
dependency's end, while the spec's reading (`earliestStartForSpec`) keeps the
child's own planned start. -/
theorem earliestStartFor_failed_dep_cex :
    computeReflow [woP, woC] [wcW4] [] = .ok [rPdeg, rCres] ∧
    isFailedResult rPdeg = true ∧
    earliestStartFor [rPdeg] woC = 3600 ∧
    earliestStartForSpec [rPdeg] woC = 3420 ∧
    woC.startDate = 3420 ∧
    rCres.startDate = 3600 :=
  ⟨rfl, rfl, rfl, rfl, rfl, rfl⟩

/-- C5: a work order whose earliest allowed start `es` (its planned start,
possibly raised by dependency finishes) lies inside a shift of its work
center, whose whole duration fits in the remainder of every shift interval
containing `es`, with no maintenance window intersecting `[es, es + dur)`
and no booking on the work center, is accepted exactly at `es`; the emitted
result starts there, `wasDelayed` is exactly "planned start < es", and when
`es` equals the planned start the result has `wasDelayed = false` and no
delay fields. -/
theorem scheduleOne_fits_in_shift {workCenters : List WorkCenterDoc}
    {wc : WorkCenterDoc} {schedule : List ScheduledSlot} {st : RunState}
    {wo : WorkOrderDoc} {es : Nat}
    (hwc : wcById workCenters wo.workCenterId = some wc)
    (hst : st.schedule = schedule)
    (hes : earliestStartFor st.results wo = es)
    (hm : wo.isMaintenance = false)
    (hdur : wo.durationMinutes ≠ 0)
    (hshift : ∃ iv ∈ buildShiftIntervalsForDate wc.shifts (dayOf es),
      ivContains iv es = true)
    (hroom : ∀ iv ∈ buildShiftIntervalsForDate wc.shifts (dayOf es),
      ivContains iv es = true → es + wo.durationMinutes ≤ iv.«end»)
    (hmw : ∀ mw ∈ wc.maintenanceWindows, ∀ iv, parseMW mw = some iv →
      iv.«end» ≤ es ∨ es + wo.durationMinutes ≤ iv.start)
    (hfree : ∀ x ∈ schedule, x.workCenterDocId ≠ wc.docId) :
    ∃ e r,
      findEarliestFeasibleSlot workCenters schedule wo.workCenterId es
        wo.durationMinutes 30 = .ok ((es, e), []) ∧
      (scheduleOne workCenters st wo).results = st.results ++ [r] ∧
      r.startDate = es ∧ r.endDate = e ∧
      r.wasDelayed = decide (wo.startDate < es) ∧
      (es = wo.startDate →
        r.wasDelayed = false ∧ r.delayMinutes = none ∧ r.delayReason = none) := by
  have hmain := findEarliestFeasibleSlot_immediate hwc hdur hshift hroom hmw hfree
  refine ⟨_,
    ⟨wo.docId, wo.workOrderNumber, wo.workCenterId, es,
      if isInsideMaintenance wc (es + wo.durationMinutes)
        then skipMaintenanceStartingBeforeOrAt wc (es + wo.durationMinutes)
        else es + wo.durationMinutes,
      decide (wo.startDate < es),
      if decide (wo.startDate < es) then some (es - wo.startDate) else none,
      if decide (wo.startDate < es) then some "Resource/shift constraints" else none⟩,
    hmain, ?_, rfl, rfl, rfl, ?_⟩
  · rw [scheduleOne, if_neg (by simp [hm])]
    dsimp only
    rw [hes, hst, hmain]
  · intro heq
    subst heq
    simp

theorem scheduleOne_fits_in_shift_witness :
    (∃ e r,
      findEarliestFeasibleSlot [wcW] [] "wcW" 2040 60 30 = .ok ((2040, e), []) ∧
      (scheduleOne [wcW] ⟨[rD], []⟩ woCD).results = [rD] ++ [r] ∧
      r.startDate = 2040 ∧ r.endDate = e ∧
      r.wasDelayed = decide (1920 < 2040) ∧
      (2040 = 1920 →
        r.wasDelayed = false ∧ r.delayMinutes = none ∧ r.delayReason = none)) ∧
    (∃ e r,
      findEarliestFeasibleSlot [wcW] [] "wcW" 1920 60 30 = .ok ((1920, e), []) ∧
      (scheduleOne [wcW] ⟨[], []⟩ woA).results = [] ++ [r] ∧
      r.startDate = 1920 ∧ r.endDate = e ∧
      r.wasDelayed = decide (1920 < 1920) ∧
      (1920 = 1920 →
        r.wasDelayed = false ∧ r.delayMinutes = none ∧ r.delayReason = none)) :=
  ⟨@scheduleOne_fits_in_shift [wcW] wcW [] ⟨[rD], []⟩ woCD 2040 rfl rfl rfl rfl
      (by decide) (by decide) (by decide) (by decide) (by decide),
    @scheduleOne_fits_in_shift [wcW] wcW [] ⟨[], []⟩ woA 1920 rfl rfl rfl rfl
      (by decide) (by decide) (by decide) (by decide) (by decide)⟩

/-- C6: `computeReflow` fails fatally — returning an error, hence no result
list at all — with `dependencyNotFound` when some work order lists a
dependency id absent from the input set, and with `cycleDetected` when the
dependency graph has a cycle (any length, self-loops included), provided in
the cycle case that every referenced id exists so the graph stage is the one
that rejects. -/
theorem computeReflow_structural_failures {workOrders : List WorkOrderDoc}
    {workCenters : List WorkCenterDoc} {existingSchedule : List ScheduledSlot} :
    ((∃ wo ∈ workOrders, ∃ d ∈ wo.dependsOnWorkOrderIds,
        d ∉ workOrders.map (·.docId)) →
      ∃ d r, computeReflow workOrders workCenters existingSchedule
        = .error (.dependencyNotFound d r)) ∧
    ((∀ wo ∈ workOrders, ∀ d ∈ wo.dependsOnWorkOrderIds,
        d ∈ workOrders.map (·.docId)) →
      (∃ x, Relation.TransGen (depEdge workOrders) x x) →
      computeReflow workOrders workCenters existingSchedule
        = .error .cycleDetected) := by
  constructor
  · intro hbad
    obtain ⟨d, r, htopo⟩ := getTopologicalOrder_unknown hbad
    refine ⟨d, r, ?_⟩
    rw [computeReflow, reflowRun, htopo]
    rfl
  · intro hknown hcyc
    rw [computeReflow, reflowRun, getTopologicalOrder_cycle hknown hcyc]
    rfl

theorem computeReflow_structural_failures_witness :
    (∃ d r, computeReflow [woU] [] [] = .error (.dependencyNotFound d r)) ∧
    computeReflow [woS] [] [] = .error .cycleDetected :=
  ⟨(@computeReflow_structural_failures [woU] [] []).1 (by decide),
    (@computeReflow_structural_failures [woS] [] []).2 (by decide)
      ⟨"S", Relation.TransGen.single
        (show depEdge [woS] "S" "S" from ⟨woS, by decide, rfl, by decide⟩)⟩⟩

/-- C7: whenever the dependency stage succeeds, `computeReflow` returns one
result per input work order, whose ids read exactly as the dependency order
(a permutation of the input ids); and a checker failure for one order is
downgraded to a degraded result at the planned window with `wasDelayed`,
no `delayMinutes` and a `delayReason` carrying the failure message, leaving
the ledger untouched so processing continues — per-order errors never
escape. -/
theorem computeReflow_complete_results {workOrders : List WorkOrderDoc}
    {workCenters : List WorkCenterDoc} {existingSchedule : List ScheduledSlot} :
    (∀ order, getTopologicalOrder workOrders = .ok order →
      ∃ results, computeReflow workOrders workCenters existingSchedule = .ok results ∧
        results.map (·.workOrderDocId) = order ∧
        results.length = workOrders.length ∧
        (results.map (·.workOrderDocId)).Perm (workOrders.map (·.docId))) ∧
    (∀ (st : RunState) (wo : WorkOrderDoc) (err : SchedError),
      wo.isMaintenance = false →
      findEarliestFeasibleSlot workCenters st.schedule wo.workCenterId
        (earliestStartFor st.results wo) wo.durationMinutes 30 = .error err →
      scheduleOne workCenters st wo =
        { results := st.results ++ [{ workOrderDocId := wo.docId
                                      workOrderNumber := wo.workOrderNumber
                                      workCenterDocId := wo.workCenterId
                                      startDate := wo.startDate
                                      endDate := wo.endDate
                                      wasDelayed := true
                                      delayMinutes := none
                                      delayReason :=
                                        some ("Scheduling failed: " ++ err.message) }]
          schedule := st.schedule }) := by
  constructor
  · intro order htopo
    obtain ⟨hnd, hlen, hsub, _, _⟩ := getTopologicalOrder_ok htopo
    have hmap := runOrder_results workOrders workCenters order
      { results := [], schedule := stableSortBy slotLe existingSchedule } hsub
    refine ⟨(runOrder workOrders workCenters
      { results := [], schedule := stableSortBy slotLe existingSchedule } order).results,
      ?_, ?_, ?_, ?_⟩
    · rw [computeReflow, reflowRun, htopo]
      rfl
    · simpa using hmap
    · have := congrArg List.length hmap
      simp only [List.length_map, List.length_nil, List.nil_append] at this
      simp at this
      omega
    · have hmap' : (runOrder workOrders workCenters
          { results := [], schedule := stableSortBy slotLe existingSchedule }
          order).results.map (·.workOrderDocId) = order := by simpa using hmap
      rw [hmap']
      exact perm_of_nodup_subset_length hnd hsub (by rw [List.length_map]; omega)
  · intro st wo err hm hf
    exact scheduleOne_error_shape hm hf

theorem computeReflow_complete_results_witness :
    (∃ results, computeReflow [woA] [wcW] [] = .ok results ∧
      results.map (·.workOrderDocId) = ["A"] ∧
      results.length = 1 ∧
      (results.map (·.workOrderDocId)).Perm (["A"])) ∧
    scheduleOne [] ⟨[], []⟩ woA =
      ⟨[⟨"A", "WO-A", "wcW", 1920, 1980, true, none,
        some "Scheduling failed: WorkCenter not found: wcW"⟩], []⟩ := by
  constructor
  · have h := (@computeReflow_complete_results [woA] [wcW] []).1 ["A"] rfl
    simpa using h
  · have h := (@computeReflow_complete_results [woA] [] []).2 ⟨[], []⟩ woA
      (.workCenterNotFound "wcW") rfl rfl
    simpa using h

/-- C8: for a non-maintenance order the checker schedules successfully, the
emitted result carries the accepted span, `wasDelayed` is exactly "accepted
start after planned start", and the delay fields are `delayMinutes = accepted
start - planned start` with the fixed reason "Resource/shift constraints"
when delayed, both absent otherwise (times are whole minutes, so the
difference is already rounded). -/
theorem scheduleOne_delay_fields {workCenters : List WorkCenterDoc} {st : RunState}
    {wo : WorkOrderDoc} {s e : Nat} {tr : List ScheduledSlot}
    (hm : wo.isMaintenance = false)
    (hok : findEarliestFeasibleSlot workCenters st.schedule wo.workCenterId
      (earliestStartFor st.results wo) wo.durationMinutes 30 = .ok ((s, e), tr)) :
    ∃ r, (scheduleOne workCenters st wo).results = st.results ++ [r] ∧
      r.startDate = s ∧ r.endDate = e ∧
      (r.wasDelayed = true ↔ wo.startDate < s) ∧
      (wo.startDate < s → r.delayMinutes = some (s - wo.startDate) ∧
        r.delayReason = some "Resource/shift constraints") ∧
      (¬ wo.startDate < s → r.delayMinutes = none ∧ r.delayReason = none) := by
  rw [scheduleOne, if_neg (by simp [hm])]
  dsimp only
  rw [hok]
  dsimp only
  refine ⟨_, rfl, rfl, rfl, by simp, ?_, ?_⟩
  · intro hlt
    simp [hlt]
  · intro hnlt
    simp [hnlt]

theorem scheduleOne_delay_fields_witness :
    ∃ r, (scheduleOne [wcW] ⟨[], []⟩ woB).results = [] ++ [r] ∧
      r.startDate = 1920 ∧ r.endDate = 1980 ∧
      (r.wasDelayed = true ↔ 1800 < 1920) ∧
      (1800 < 1920 → r.delayMinutes = some (1920 - 1800) ∧
        r.delayReason = some "Resource/shift constraints") ∧
      (¬ 1800 < 1920 → r.delayMinutes = none ∧ r.delayReason = none) :=
  @scheduleOne_delay_fields [wcW] ⟨[], []⟩ woB 1920 1980 [] rfl rfl

/-- C9: a maintenance work order is reported at its original, unmodified
planned window with `wasDelayed = false` and no delay fields, and it is never
booked into the collision ledger — in any successful run every ledger slot
either pre-existed or belongs to a resolvable non-maintenance work order. -/
theorem scheduleOne_maintenance_passthrough {workCenters : List WorkCenterDoc}
    {st : RunState} {wo : WorkOrderDoc}
    (hm : wo.isMaintenance = true) :
    scheduleOne workCenters st wo =
      { results := st.results ++
          [⟨wo.docId, wo.workOrderNumber, wo.workCenterId, wo.startDate, wo.endDate,
            false, none, none⟩]
        schedule := st.schedule } ∧
    (∀ (workOrders : List WorkOrderDoc) (existingSchedule : List ScheduledSlot)
      (st' : RunState),
      reflowRun workOrders workCenters existingSchedule = .ok st' →
      ∀ slot ∈ st'.schedule, slot ∈ existingSchedule ∨
        ∃ wo', woById workOrders slot.workOrderDocId = some wo' ∧
          wo'.isMaintenance = false) := by
  refine ⟨scheduleOne_maintenance_shape hm, ?_⟩
  intro workOrders existingSchedule st' hrun slot hslot
  rw [reflowRun] at hrun
  cases htopo : getTopologicalOrder workOrders with
  | error e => rw [htopo] at hrun; exact absurd hrun (by simp)
  | ok order =>
    rw [htopo] at hrun
    simp only [Except.ok.injEq] at hrun
    rw [← hrun] at hslot
    rcases runOrder_ledger_origin workOrders workCenters order
        { results := [], schedule := stableSortBy slotLe existingSchedule } slot hslot with
      hin | hnew
    · left
      have := mem_stableSortBy.mp hin
      exact this
    · right
      exact hnew

theorem scheduleOne_maintenance_passthrough_witness :
    scheduleOne [] ⟨[], []⟩ woM =
      { results := [⟨"M", "WO-M", "wcW", 100, 200, false, none, none⟩]
        schedule := [] } :=
  (@scheduleOne_maintenance_passthrough [] ⟨[], []⟩ woM rfl).1

/-- C10: a maintenance window with a missing or unparseable endpoint is inert
in every feasibility computation: inserting it anywhere in the window list
changes neither maintenance containment, nor the maintenance skip, nor the
available-minutes clip, nor working-minute consumption, nor the whole search
loop — the malformed blackout is silently scheduled over, no error raised. -/
theorem malformed_window_ignored {wc : WorkCenterDoc} {mw : MaintenanceWindow}
    {l1 l2 : List MaintenanceWindow}
    (hp : parseMW mw = none)
    (hw : wc.maintenanceWindows = l1 ++ l2) :
    (∀ t, isInsideMaintenance { wc with maintenanceWindows := l1 ++ mw :: l2 } t
      = isInsideMaintenance wc t) ∧
    (∀ c, skipMaintenanceStartingBeforeOrAt { wc with maintenanceWindows := l1 ++ mw :: l2 } c
      = skipMaintenanceStartingBeforeOrAt wc c) ∧
    (∀ c i, availableUntilFold (l1 ++ mw :: l2) c i = availableUntilFold (l1 ++ l2) c i) ∧
    (∀ a d, addWorkingMinutesConsideringShifts a d
        { wc with maintenanceWindows := l1 ++ mw :: l2 }
      = addWorkingMinutesConsideringShifts a d wc) ∧
    (∀ (schedule : List ScheduledSlot) (dur deadline fuel c : Nat)
      (acc : List ScheduledSlot),
      feasLoop { wc with maintenanceWindows := l1 ++ mw :: l2 } schedule dur deadline fuel c acc
      = feasLoop wc schedule dur deadline fuel c acc) := by
  have hin : ∀ t, isInsideMaintenance { wc with maintenanceWindows := l1 ++ mw :: l2 } t
      = isInsideMaintenance wc t := by
    intro t
    rw [isInsideMaintenance, isInsideMaintenance]
    dsimp only
    rw [hw]
    exact any_maintenance_ignore l1 l2 t hp
  have hsk : ∀ c, skipMaintenanceStartingBeforeOrAt
        { wc with maintenanceWindows := l1 ++ mw :: l2 } c
      = skipMaintenanceStartingBeforeOrAt wc c := by
    intro c
    rw [skipMaintenanceStartingBeforeOrAt, skipMaintenanceStartingBeforeOrAt]
    dsimp only
    rw [hw]
    exact skipMaintenanceList_ignore l1 l2 c hp
  have hau : ∀ c i, availableUntilFold
        ({ wc with maintenanceWindows := l1 ++ mw :: l2 } : WorkCenterDoc).maintenanceWindows c i
      = availableUntilFold wc.maintenanceWindows c i := by
    intro c i
    dsimp only
    rw [hw]
    exact availableUntilFold_ignore l1 l2 c hp i
  have haw : ∀ fuel r c, addWorkLoop { wc with maintenanceWindows := l1 ++ mw :: l2 } fuel r c
      = addWorkLoop wc fuel r c :=
    addWorkLoop_congr rfl hin hsk hau
  refine ⟨hin, hsk, ?_, ?_, ?_⟩
  · intro c i
    have := hau c i
    dsimp only at this
    rw [hw] at this
    exact this
  · intro a d
    rw [addWorkingMinutesConsideringShifts, addWorkingMinutesConsideringShifts, haw]
  · intro schedule dur deadline fuel c acc
    exact @feasLoop_congr wc { wc with maintenanceWindows := l1 ++ mw :: l2 }
      rfl rfl hin hsk hau schedule dur deadline fuel c acc

theorem malformed_window_ignored_witness :
    isInsideMaintenance wcBroken 1950 = isInsideMaintenance wcW 1950 ∧
    skipMaintenanceStartingBeforeOrAt wcBroken 1950 = skipMaintenanceStartingBeforeOrAt wcW 1950 ∧
    availableUntilFold [⟨none, some 1950⟩] 1920 2460 = availableUntilFold [] 1920 2460 ∧
    addWorkingMinutesConsideringShifts 1920 60 wcBroken
      = addWorkingMinutesConsideringShifts 1920 60 wcW ∧
    feasLoop wcBroken [] 60 45120 10000 1920 [] = feasLoop wcW [] 60 45120 10000 1920 [] := by
  obtain ⟨h1, h2, h3, h4, h5⟩ := @malformed_window_ignored wcW ⟨none, some 1950⟩ [] [] rfl rfl
  exact ⟨h1 1950, h2 1950, h3 1920 2460, h4 1920 60, h5 [] 60 45120 10000 1920 []⟩

end Reflow
